import Mathlib

/-!
Verification of the BITBLE quantum state-preparation and block-encoding library.

The development shallowly embeds the library's pure computational kernel:

* bit utilities (`gray_code`, `different_gray_codes_index`, `binary_list`,
  `reverse_index_bits`) from `ble/tools.py`;
* the phase-tree butterfly and its explicit reference matrix
  (`binarytree_vector` mode `phase` in `BITBLE/anglecompute.py`,
  `phase_angle_matrix_inverse` in `ble/tools.py`);
* the norm binary-tree decomposition (`angle_search_binary_tree`,
  `positive_transform`, `binarytree_vector` mode `norm`);
* the scaled fast Walsh-Hadamard transform, the Gray permutation and the
  Mikko matrix (`sfwht`, `gray_permutation`, `mikko_matrix` in `ble/tools.py`);
* the gate emitters (`qgate`, `compress_uniformly_rotation` in
  `ble/mindquantum/qgates.py`, `compressed_state_preparation` in
  `BITBLE/mindquantum/statepreparation.py`).

Numeric primitives that Lean cannot execute on the computable fragment
(the floating `sqrt`, `arccos`, complex `angle` of numpy) are passed as
explicit function parameters; every theorem quantifies over them (or fixes
them to the mathematical `Real.sqrt`, `Real.arccos`, ... in its statement),
so each statement covers the mathematical idealization of the source.
-/

/-! ## Bit utilities (`ble/tools.py`) -/

/-- Source `gray_code(x) = x ^ (x >> 1)` from `ble/tools.py`. -/
def gray_code (x : ℕ) : ℕ := x ^^^ (x >>> 1)

/-- Source `different_gray_codes_index(number1, number2, length)` from
`ble/tools.py`: `length - 1 - int(np.log2(gray1 ^ gray2))`.  The Python
`int(np.log2 _)` is the floor logarithm `Nat.log2` (exact on the powers of
two that arise for consecutive arguments).  The subtraction is ℕ-truncated;
`claim_C5` proves that no truncation occurs in the intended range. -/
def different_gray_codes_index (number1 number2 length : ℕ) : ℕ :=
  length - 1 - Nat.log2 (gray_code number1 ^^^ gray_code number2)

lemma xor_shiftRight_distrib (a b n : ℕ) :
    (a ^^^ b) >>> n = (a >>> n) ^^^ (b >>> n) := by
  apply Nat.eq_of_testBit_eq
  intro j
  simp [Nat.testBit_shiftRight, Nat.testBit_xor]

/-- Consecutive integers written around their lowest set bit:
`i + 1 = 2^(t+1)*a + 2^t` forces `i = 2^(t+1)*a + (2^t - 1)`. -/
lemma pred_of_pow_decomp {t a i : ℕ} (h : i + 1 = 2 ^ (t + 1) * a + 2 ^ t) :
    i = 2 ^ (t + 1) * a + (2 ^ t - 1) := by
  have h1 : 0 < 2 ^ t := Nat.pos_pow_of_pos t (by norm_num)
  omega

/-- Gray codes of consecutive integers differ exactly at the position of the
lowest set bit of the successor. -/
lemma gray_succ_xor {t a i : ℕ} (h : i + 1 = 2 ^ (t + 1) * a + 2 ^ t) :
    gray_code i ^^^ gray_code (i + 1) = 2 ^ t := by
  have hi : i = 2 ^ (t + 1) * a + (2 ^ t - 1) := pred_of_pow_decomp h
  have hb1 : 2 ^ t - 1 < 2 ^ (t + 1) :=
    lt_of_le_of_lt (Nat.sub_le _ _) (Nat.pow_lt_pow_succ (by norm_num))
  have hb2 : 2 ^ t < 2 ^ (t + 1) := Nat.pow_lt_pow_succ (by norm_num)
  apply Nat.eq_of_testBit_eq
  intro j
  rw [gray_code, gray_code, h, hi]
  simp only [Nat.testBit_xor, Nat.testBit_shiftRight,
    Nat.testBit_mul_pow_two_add _ hb1, Nat.testBit_mul_pow_two_add _ hb2,
    Nat.testBit_two_pow, Nat.testBit_two_pow_sub_one]
  rcases lt_trichotomy j t with hj | hj | hj
  · have h1 : j < t + 1 := by omega
    have h2 : 1 + j < t + 1 := by omega
    by_cases h3 : 1 + j < t
    · simp [h1, h2, h3, hj, Nat.ne_of_gt hj, Nat.ne_of_gt (by omega : t > 1 + j)]
    · have h4 : t = 1 + j := by omega
      simp [h1, h2, h3, hj, Nat.ne_of_gt hj, h4, show j < 1 + j + 1 from by omega]
  · subst hj
    have h1 : j < j + 1 := by omega
    have h2 : ¬ 1 + j < j + 1 := by omega
    simp [h1, h2]
  · have h1 : ¬ j < t + 1 := by omega
    have h2 : ¬ 1 + j < t + 1 := by omega
    have h3 : t ≠ j := by omega
    simp [h1, h2, h3]

/-- Every positive natural splits around its lowest set bit. -/
lemma exists_lowbit_decomp (m : ℕ) (hm : m ≠ 0) :
    ∃ t a : ℕ, m = 2 ^ (t + 1) * a + 2 ^ t := by
  obtain ⟨k, o, ho, rfl⟩ := Nat.exists_eq_two_pow_mul_odd hm
  obtain ⟨a, rfl⟩ := ho
  exact ⟨k, a, by ring⟩

lemma log2_pow (t : ℕ) : Nat.log2 (2 ^ t) = t := by
  rw [Nat.log2_eq_log_two]
  exact Nat.log_pow (b := 2) (by norm_num) t

/-- C5: for every `length ≥ 1` and every `i ∈ [0, 2^length - 2]`, the Gray codes
of `i` and `i+1` differ in exactly one bit, and
`different_gray_codes_index(i, i+1, length)` equals
`length - 1 - floor(log2(gray_code i xor gray_code (i+1)))` (with the ℕ
subtraction exact, since the inner logarithm is `< length`) and is a single
valid index in the range `[0, length)`. -/
theorem claim_C5 (length i : ℕ) (hl : 1 ≤ length) (hi : i ≤ 2 ^ length - 2) :
    (∃! b : ℕ, (gray_code i).testBit b ≠ (gray_code (i + 1)).testBit b) ∧
    Nat.log2 (gray_code i ^^^ gray_code (i + 1)) < length ∧
    (different_gray_codes_index i (i + 1) length : ℤ) =
      (length : ℤ) - 1 - (Nat.log2 (gray_code i ^^^ gray_code (i + 1)) : ℤ) ∧
    different_gray_codes_index i (i + 1) length < length := by
  obtain ⟨t, a, hta⟩ := exists_lowbit_decomp (i + 1) (by omega)
  have hxor : gray_code i ^^^ gray_code (i + 1) = 2 ^ t := gray_succ_xor hta
  have hlen2 : 2 ≤ 2 ^ length := by
    calc 2 = 2 ^ 1 := by norm_num
    _ ≤ 2 ^ length := Nat.pow_le_pow_right (by norm_num) hl
  have hsucc : i + 1 < 2 ^ length := by omega
  have htpow : 2 ^ t < 2 ^ length := by
    have h1 : 2 ^ t ≤ i + 1 := by
      rw [hta]; omega
    omega
  have htl : t < length := by
    exact (Nat.pow_lt_pow_iff_right (by norm_num : 1 < 2)).mp htpow
  have hlog : Nat.log2 (gray_code i ^^^ gray_code (i + 1)) = t := by
    rw [hxor, log2_pow]
  refine ⟨⟨t, ?_, ?_⟩, ?_, ?_, ?_⟩
  · have h1 : (gray_code i ^^^ gray_code (i + 1)).testBit t = true := by
      rw [hxor]
      simp [Nat.testBit_two_pow]
    rw [Nat.testBit_xor] at h1
    intro hcontra
    rw [hcontra] at h1
    simp at h1
  · intro b hb
    have h1 : (gray_code i ^^^ gray_code (i + 1)).testBit b = true := by
      rw [Nat.testBit_xor]
      cases hgi : (gray_code i).testBit b <;> cases hgi2 : (gray_code (i + 1)).testBit b <;>
        simp_all
    rw [hxor, Nat.testBit_two_pow] at h1
    have h2 : t = b := by simpa using h1
    omega
  · omega
  · rw [different_gray_codes_index, hlog]
    omega
  · rw [different_gray_codes_index, hlog]
    omega

/-- Witness for `claim_C5` at `length = 2`, `i = 1`. -/
theorem claim_C5_witness :
    (∃! b : ℕ, (gray_code 1).testBit b ≠ (gray_code 2).testBit b) ∧
    Nat.log2 (gray_code 1 ^^^ gray_code 2) < 2 ∧
    (different_gray_codes_index 1 2 2 : ℤ) =
      (2 : ℤ) - 1 - (Nat.log2 (gray_code 1 ^^^ gray_code 2) : ℤ) ∧
    different_gray_codes_index 1 2 2 < 2 :=
  claim_C5 2 1 (by norm_num) (by norm_num)

/-! ## Pairwise combinators and the phase tree (`binarytree_vector`, mode `phase`) -/

/-- Apply a binary operation to consecutive disjoint pairs of a list
(the shape of the inner `for j in range(1, l + 1)` loops of
`binarytree_vector` in `BITBLE/anglecompute.py`). -/
def pairMap {α : Type} (f : α → α → α) : List α → List α
  | a :: b :: rest => f a b :: pairMap f rest
  | _ => []

lemma pairMap_length {α : Type} (f : α → α → α) :
    ∀ v : List α, (pairMap f v).length = v.length / 2
  | [] => by simp [pairMap]
  | [_] => by simp [pairMap]
  | a :: b :: rest => by
    simp only [pairMap, List.length_cons, pairMap_length f rest]
    omega

lemma pairMap_congr {α : Type} {f g : α → α → α} (h : ∀ a b, f a b = g a b) :
    ∀ v : List α, pairMap f v = pairMap g v
  | [] => by simp [pairMap]
  | [_] => by simp [pairMap]
  | a :: b :: rest => by
    simp only [pairMap, h a b, pairMap_congr h rest]

/-- Front half written by a phase round: `(temp[2j-2] + temp[2j-1]) / 2`. -/
def pairAvg {α : Type} [Field α] : List α → List α :=
  pairMap (fun a b => (a + b) / 2)

/-- Back half written by a phase round: `-temp[2j-2] + temp[2j-1]`. -/
def pairDiff {α : Type} [Field α] : List α → List α :=
  pairMap (fun a b => -a + b)

/-- Functional form of the in-place phase loop of `binarytree_vector`
(mode `phase`, `BITBLE/anglecompute.py` lines 93-101) for inputs of length
at least 2.  Round `i` writes averages into the front half and differences
into the back half of the first `2*l` slots; the back half written at round
`i` is never touched by later rounds (these only write the first `l` slots),
so the loop computes `phase_tree (front) ++ pairDiff v` recursively, and the
final `vector[0] = -temp[0] - temp[1]` (with `temp` holding the input pair of
the last round) is the head of the length-2 base case. -/
def phase_tree {α : Type} [Field α] : List α → List α
  | [] => []
  | [a] => [a]
  | [a, b] => [-a - b, -a + b]
  | a :: b :: c :: rest =>
    phase_tree (pairAvg (a :: b :: c :: rest)) ++ pairDiff (a :: b :: c :: rest)
termination_by v => v.length
decreasing_by
  simp only [pairAvg, pairMap_length, List.length_cons]
  omega

/-- Mode `phase` branch of `binarytree_vector` (`BITBLE/anglecompute.py`):
the returned array, on inputs of length `2^n` with `n ≥ 1`.  (On those
inputs the module-global scratch `temp` does not influence the result; the
stateful wrapper `binarytree_vector_phase_run` below models the global.) -/
def binarytree_vector_phase {α : Type} [Field α] (vector : List α) : List α :=
  phase_tree vector

/-- Value held by the module-global `temp` after the phase loop of
`binarytree_vector` runs on an input of length ≥ 2: the input pair of the
last round. -/
def phase_temp {α : Type} [Field α] : List α → α × α
  | [a, b] => (a, b)
  | a :: b :: c :: rest => phase_temp (pairAvg (a :: b :: c :: rest))
  | _ => (0, 0)
termination_by v => v.length
decreasing_by
  simp only [pairAvg, pairMap_length, List.length_cons]
  omega

/-- Stateful model of `binarytree_vector(vector, 'phase')`: the module-global
scratch `temp` (set by `temp = copy.deepcopy(vector[: 2 * l])` of the last
executed round, shared across calls via `global temp`) is threaded
explicitly.  `none` models the name being unbound (a fresh interpreter);
a length-1 input runs no rounds and evaluates `-temp[0] - temp[1]` from
whatever the previous call left behind (`NameError`, modelled as `none`, if
there was none). -/
def binarytree_vector_phase_run {α : Type} [Field α]
    (temp : Option (α × α)) (vector : List α) :
    Option (List α × (α × α)) :=
  if vector.length ≤ 1 then
    match vector, temp with
    | [_], some t => some ([-t.1 - t.2], t)
    | _, _ => none
  else
    some (phase_tree vector, phase_temp vector)

/-! ## The explicit phase reference matrix (`phase_angle_matrix_inverse`) -/

/-- Dot product of two lists (zip-truncating; all uses match lengths). -/
def dotL {α : Type} [Field α] : List α → List α → α
  | a :: as, b :: bs => a * b + dotL as bs
  | _, _ => 0

/-- Matrix-vector product, the `np.dot(matrix, vector)` of the reference
construction, with the matrix as a list of rows. -/
def matVec {α : Type} [Field α] (M : List (List α)) (v : List α) : List α :=
  M.map (fun row => dotL row v)

/-- Kronecker product of a matrix with the 1×2 row `[p, q]`
(`np.kron(matrix, [p, q])`). -/
def kron_row2 {α : Type} [Field α] (M : List (List α)) (p q : α) : List (List α) :=
  M.map (fun row => row.flatMap (fun x => [x * p, x * q]))

/-- Identity matrix `np.eye(k)` as a list of rows. -/
def eyeL {α : Type} [Field α] : ℕ → List (List α)
  | 0 => []
  | k + 1 => (1 :: List.replicate k 0) :: (eyeL k).map (fun row => 0 :: row)

/-- The `while k != N` doubling loop of `phase_angle_matrix_inverse`
(`ble/tools.py` lines 51-58) after `s` iterations: starting from
`[[-1, -1], [-1, 1]]`, stack `kron(matrix, [1/2, 1/2])` on top of
`kron(eye(k), [-1, 1])`. -/
def phase_matrix_steps {α : Type} [Field α] : ℕ → List (List α)
  | 0 => [[-1, -1], [-1, 1]]
  | s + 1 =>
    kron_row2 (phase_matrix_steps s) (1 / 2) (1 / 2) ++ kron_row2 (eyeL (2 ^ (s + 1))) (-1) 1

/-- Source `phase_angle_matrix_inverse(N)` (`ble/tools.py`): for `N = 2^n`
(`n ≥ 1`, the only inputs on which the Python loop terminates) the loop
doubles `k` from 2 to `N`, performing `log2 N - 1` iterations. -/
def phase_angle_matrix_inverse {α : Type} [Field α] (N : ℕ) : List (List α) :=
  phase_matrix_steps (Nat.log2 N - 1)

lemma dotL_replicate_zero {α : Type} [Field α] :
    ∀ (k : ℕ) (w : List α), dotL (List.replicate k 0) w = 0
  | 0, _ => by simp [dotL]
  | k + 1, [] => by simp [dotL]
  | k + 1, b :: bs => by
    simp [List.replicate, dotL, dotL_replicate_zero k bs]

/-- Expanding each entry of a row into `[x*p, x*q]` and dotting with `v` is
dotting the original row with the pairwise combination `p*a + q*b` of `v`. -/
lemma dotL_bind_pair {α : Type} [Field α] (p q : α) :
    ∀ (row : List α) (v : List α), v.length = 2 * row.length →
      dotL (row.flatMap (fun x => [x * p, x * q])) v =
        dotL row (pairMap (fun a b => p * a + q * b) v)
  | [], v => by
    intro hv
    have h0 : v = [] := List.eq_nil_of_length_eq_zero (by simpa using hv)
    subst h0
    simp [dotL]
  | r :: rs, v => by
    intro hv
    match v, hv with
    | a :: b :: rest, hv =>
      have hlen : rest.length = 2 * rs.length := by
        simp only [List.length_cons] at hv
        omega
      rw [List.flatMap_cons]
      simp only [List.cons_append, List.nil_append, List.append_nil, dotL, pairMap,
        List.append_eq]
      rw [dotL_bind_pair p q rs rest hlen]
      ring

lemma eyeL_width {α : Type} [Field α] :
    ∀ k : ℕ, ∀ row ∈ eyeL (α := α) k, row.length = k
  | 0 => by simp [eyeL]
  | k + 1 => by
    intro row hrow
    simp only [eyeL, List.mem_cons, List.mem_map] at hrow
    rcases hrow with h | ⟨r, hr, rfl⟩
    · subst h
      simp
    · simp [eyeL_width k r hr]

lemma flatMap_pair_length {α : Type} [Field α] (p q : α) :
    ∀ row : List α, (row.flatMap (fun x => [x * p, x * q])).length = 2 * row.length
  | [] => by simp
  | r :: rs => by
    simp [List.flatMap_cons, flatMap_pair_length p q rs]
    omega

lemma matVec_kron_row2 {α : Type} [Field α] (p q : α) (M : List (List α))
    (w : ℕ) (hM : ∀ row ∈ M, row.length = w) (v : List α) (hv : v.length = 2 * w) :
    matVec (kron_row2 M p q) v = matVec M (pairMap (fun a b => p * a + q * b) v) := by
  simp only [matVec, kron_row2, List.map_map]
  apply List.map_congr_left
  intro row hrow
  exact dotL_bind_pair p q row v (by rw [hv, hM row hrow])

lemma matVec_eye_kron {α : Type} [Field α] (p q : α) :
    ∀ (k : ℕ) (v : List α), v.length = 2 * k →
      matVec (kron_row2 (eyeL k) p q) v = pairMap (fun a b => p * a + q * b) v
  | 0, v => by
    intro hv
    have h0 : v = [] := List.eq_nil_of_length_eq_zero (by omega)
    subst h0
    simp [eyeL, kron_row2, matVec, pairMap]
  | k + 1, v => by
    intro hv
    match v, hv with
    | a :: b :: rest, hv =>
      have hlen : rest.length = 2 * k := by
        simp only [List.length_cons] at hv
        omega
      have hhead :
          dotL ((1 :: List.replicate k 0).flatMap fun x => [x * p, x * q]) (a :: b :: rest) =
            p * a + q * b := by
        rw [dotL_bind_pair p q _ _ (by simp; omega)]
        simp [dotL, dotL_replicate_zero]
      have hrow0 : ∀ row : List α,
          dotL ((0 :: row).flatMap fun x => [x * p, x * q]) (a :: b :: rest) =
            dotL (row.flatMap fun x => [x * p, x * q]) rest := by
        intro row
        rw [List.flatMap_cons]
        simp [dotL]
      simp only [eyeL, kron_row2, matVec, List.map_cons, List.map_map, pairMap] at *
      rw [hhead]
      congr 1
      have h2 := matVec_eye_kron p q k rest hlen
      simp only [kron_row2, matVec, List.map_map] at h2
      rw [← h2]
      apply List.map_congr_left
      intro row hrow
      exact hrow0 row

lemma phase_matrix_steps_width {α : Type} [Field α] :
    ∀ s : ℕ, ∀ row ∈ phase_matrix_steps (α := α) s, row.length = 2 ^ (s + 1)
  | 0 => by
    intro row hrow
    simp only [phase_matrix_steps, List.mem_cons, List.mem_singleton] at hrow
    rcases hrow with rfl | rfl | h
    · simp
    · simp
    · simp at h
  | s + 1 => by
    intro row hrow
    simp only [phase_matrix_steps, List.mem_append, kron_row2, List.mem_map] at hrow
    rcases hrow with ⟨r, hr, rfl⟩ | ⟨r, hr, rfl⟩
    · rw [flatMap_pair_length, phase_matrix_steps_width s r hr]
      ring
    · rw [flatMap_pair_length, eyeL_width _ r hr]
      ring

/-- Core equivalence: the fast in-place phase butterfly equals the explicit
recursively built matrix at every doubling stage. -/
lemma phase_tree_eq_matVec {α : Type} [Field α] :
    ∀ (s : ℕ) (v : List α), v.length = 2 ^ (s + 1) →
      phase_tree v = matVec (phase_matrix_steps s) v := by
  intro s
  induction s with
  | zero =>
    intro v hv
    match v, hv with
    | [a, b], _ =>
      simp [phase_tree, matVec, phase_matrix_steps, dotL]
      ring
  | succ k ih =>
    intro v hv
    have h4 : 4 ≤ v.length := by
      rw [hv]
      have h1 : 2 ^ 2 ≤ 2 ^ (k + 2) := Nat.pow_le_pow_right (by norm_num) (by omega)
      simpa using h1
    match v, h4 with
    | a :: b :: c :: rest, _ =>
      have hstep : phase_tree (a :: b :: c :: rest) =
          phase_tree (pairAvg (a :: b :: c :: rest)) ++ pairDiff (a :: b :: c :: rest) := by
        rw [phase_tree]
      rw [hstep]
      have hwidth := phase_matrix_steps_width (α := α) k
      have hv2 : (a :: b :: c :: rest).length = 2 * 2 ^ (k + 1) := by
        rw [hv]; ring
      rw [show phase_matrix_steps (α := α) (k + 1) =
            kron_row2 (phase_matrix_steps k) (1 / 2) (1 / 2) ++
              kron_row2 (eyeL (2 ^ (k + 1))) (-1) 1 from rfl]
      rw [show matVec
            (kron_row2 (phase_matrix_steps (α := α) k) (1 / 2) (1 / 2) ++
              kron_row2 (eyeL (2 ^ (k + 1))) (-1) 1) (a :: b :: c :: rest) =
          matVec (kron_row2 (phase_matrix_steps k) (1 / 2) (1 / 2)) (a :: b :: c :: rest) ++
            matVec (kron_row2 (eyeL (2 ^ (k + 1))) (-1) 1) (a :: b :: c :: rest) from
        List.map_append _ _ _]
      rw [matVec_kron_row2 _ _ _ _ hwidth _ hv2, matVec_eye_kron _ _ _ _ hv2]
      congr 1
      · rw [show pairMap (fun x y => 1 / 2 * x + 1 / 2 * y) (a :: b :: c :: rest) =
              pairAvg (a :: b :: c :: rest) from
          pairMap_congr (fun x y => by ring) _]
        apply ih
        rw [pairAvg, pairMap_length, hv]
        omega
      · exact pairMap_congr (fun x y => by ring) _

/-- C2: for every real vector of length `2^n` (`n ≥ 1`), the fast in-place
phase-tree butterfly (`binarytree_vector` with mode `phase`) returns the same
array as multiplying the input vector by the explicit reference matrix
`phase_angle_matrix_inverse(2^n)` built by stacking `kron(M, [1/2, 1/2])`
over `kron(I, [-1, 1])` seeded with `M = [[-1, -1], [-1, 1]]`.  The equality
is exact over any field, hence holds over ℝ (to any numerical tolerance). -/
theorem claim_C2 {α : Type} [Field α] (n : ℕ) (hn : 1 ≤ n) (v : List α)
    (hv : v.length = 2 ^ n) :
    binarytree_vector_phase v = matVec (phase_angle_matrix_inverse (2 ^ n)) v := by
  rw [binarytree_vector_phase, phase_angle_matrix_inverse, log2_pow]
  have hs : n - 1 + 1 = n := by omega
  rw [show phase_matrix_steps (α := α) (n - 1) = phase_matrix_steps (n - 1) from rfl]
  apply phase_tree_eq_matVec (n - 1)
  rw [hv, hs]

/-- Witness for `claim_C2` over ℚ at `n = 2`, `v = [1, 2, 3, 5]`. -/
theorem claim_C2_witness :
    binarytree_vector_phase (α := ℚ) [1, 2, 3, 5] =
      matVec (phase_angle_matrix_inverse (2 ^ 2)) [1, 2, 3, 5] :=
  claim_C2 2 (by norm_num) [1, 2, 3, 5] (by simp)

/-- C9 counterexample: two invocation histories whose final calls have equal
arguments (`mode='phase'`, the length-1 vector `[5]`, i.e. `n = 0`) but return
different results, because the length-1 call evaluates
`vector[0] = -temp[0] - temp[1]` from the module-global `temp` written by the
previous call. -/
theorem claim_C9_counterexample :
    binarytree_vector_phase_run (α := ℚ)
        ((binarytree_vector_phase_run (α := ℚ) none [1, 2]).map Prod.snd) [5] ≠
      binarytree_vector_phase_run (α := ℚ)
        ((binarytree_vector_phase_run (α := ℚ) none [2, 4]).map Prod.snd) [5] := by
  have h1 : binarytree_vector_phase_run (α := ℚ) none [1, 2] =
      some ([-3, 1], (1, 2)) := by
    norm_num [binarytree_vector_phase_run, phase_tree, phase_temp]
  have h2 : binarytree_vector_phase_run (α := ℚ) none [2, 4] =
      some ([-6, 2], (2, 4)) := by
    norm_num [binarytree_vector_phase_run, phase_tree, phase_temp]
  rw [h1, h2]
  norm_num [binarytree_vector_phase_run]

/-- C9 (amended): `binarytree_vector` with mode `phase` is deterministic and
reads no earlier call's data for inputs of length `2^n` with `n ≥ 1` (any
length ≥ 2): the result is a function of the argument alone, independent of
the module-global `temp`.  For a length-1 input (`n = 0`) the call runs no
butterfly round and returns `[-temp0 - temp1]` computed from the global
`temp` left behind by a previous call (a `NameError`, modelled as `none`,
if no previous call set it), so equal arguments can produce different
results depending on the call history. -/
theorem claim_C9_amended {α : Type} [Field α] (g1 g2 : Option (α × α))
    (v : List α) (hv : 2 ≤ v.length) (t : α × α) (a : α) :
    binarytree_vector_phase_run g1 v = binarytree_vector_phase_run g2 v ∧
    binarytree_vector_phase_run g1 v = some (binarytree_vector_phase v, phase_temp v) ∧
    binarytree_vector_phase_run (some t) [a] = some ([-t.1 - t.2], t) ∧
    binarytree_vector_phase_run none [a] = none := by
  unfold binarytree_vector_phase_run binarytree_vector_phase
  have h1 : ¬ v.length ≤ 1 := by omega
  simp [h1]

/-- Witness for `claim_C9_amended` over ℚ. -/
theorem claim_C9_amended_witness :
    binarytree_vector_phase_run (α := ℚ) none [1, 2] =
        binarytree_vector_phase_run (some (3, 4)) [1, 2] ∧
    binarytree_vector_phase_run (α := ℚ) none [1, 2] =
        some (binarytree_vector_phase [1, 2], phase_temp [1, 2]) ∧
    binarytree_vector_phase_run (α := ℚ) (some ((1 : ℚ), (2 : ℚ))) [5] =
        some ([-(1 : ℚ) - 2], (1, 2)) ∧
    binarytree_vector_phase_run (α := ℚ) none [5] = none :=
  claim_C9_amended none (some (3, 4)) [1, 2] (by simp) (1, 2) 5

/-! ## The norm binary tree (`angle_search_binary_tree`, `positive_transform`,
`binarytree_vector` mode `norm`) -/

/-- Source `angle_search_binary_tree(vector)` (`BITBLE/anglecompute.py`
lines 20-33).  The numeric primitives are parameters: `nrm a b` models
`np.linalg.norm([a, b])` and `acos` models `np.arccos`; each theorem
quantifies over them.  Inputs of length 0 or 1 make the Python recurse
forever; they get the junk value `([], [])` here and are excluded from
every theorem (all actual inputs have length `2^n`, `n ≥ 1`). -/
def angle_search_binary_tree {α : Type} [Field α] [DecidableEq α]
    (nrm : α → α → α) (acos : α → α) (vector : List α) : List α × List α :=
  if _h : vector.length < 3 then
    match vector with
    | [a, b] => ([nrm a b], [if nrm a b = 0 then 0 else acos (a / nrm a b)])
    | _ => ([], [])
  else
    let p1 := angle_search_binary_tree nrm acos (vector.take (vector.length / 2))
    let p2 := angle_search_binary_tree nrm acos (vector.drop (vector.length / 2))
    (p1.1 ++ p2.1, p1.2 ++ p2.2)
termination_by vector.length
decreasing_by
  · simp only [List.length_take]
    omega
  · simp only [List.length_drop]
    omega

/-- Source `positive_transform(vector)` (`BITBLE/anglecompute.py` lines
36-51), pair by pair.  `nrm a b` models `np.linalg.norm([a, b])` and
`ang a b` models `np.mod(np.angle(a/r + (b/r)*1j), 2*np.pi)` for
`r = nrm a b`; a pair that is entirely zero is mapped to amplitude 0 and
angle 0 without consulting either primitive. -/
def positive_transform {α : Type} [Field α] [DecidableEq α]
    (nrm ang : α → α → α) : List α → List α × List α
  | a :: b :: rest =>
    let p := positive_transform nrm ang rest
    if a = 0 ∧ b = 0 then (0 :: p.1, 0 :: p.2)
    else (nrm a b :: p.1, ang a b :: p.2)
  | _ => ([], [])

/-- Per-level norm/angle sizes of `angle_search_binary_tree` on power-of-two
inputs. -/
lemma angle_search_binary_tree_length_pow {α : Type} [Field α] [DecidableEq α]
    (nrm : α → α → α) (acos : α → α) :
    ∀ (n : ℕ) (v : List α), v.length = 2 ^ (n + 1) →
      (angle_search_binary_tree nrm acos v).1.length = 2 ^ n ∧
      (angle_search_binary_tree nrm acos v).2.length = 2 ^ n := by
  intro n
  induction n with
  | zero =>
    intro v hv
    match v, hv with
    | [a, b], _ =>
      rw [angle_search_binary_tree]
      norm_num
  | succ k ih =>
    intro v hv
    have h4 : ¬ v.length < 3 := by
      have h1 : 4 ≤ v.length := by
        rw [hv]
        calc (4 : ℕ) = 2 ^ 2 := by norm_num
        _ ≤ 2 ^ (k + 1 + 1) := Nat.pow_le_pow_right (by norm_num) (by omega)
      omega
    rw [angle_search_binary_tree]
    simp only [h4, dite_false]
    have htake : (v.take (v.length / 2)).length = 2 ^ (k + 1) := by
      simp only [List.length_take]
      omega
    have hdrop : (v.drop (v.length / 2)).length = 2 ^ (k + 1) := by
      simp only [List.length_drop]
      omega
    obtain ⟨ht1, ht2⟩ := ih _ htake
    obtain ⟨hd1, hd2⟩ := ih _ hdrop
    simp only [List.length_append, ht1, ht2, hd1, hd2]
    constructor <;> ring

/-- Generic halving bound for `angle_search_binary_tree`, used for the
termination of the `while len(norms) != 1` loop. -/
lemma angle_search_binary_tree_fst_le {α : Type} [Field α] [DecidableEq α]
    (nrm : α → α → α) (acos : α → α) :
    ∀ v : List α, (angle_search_binary_tree nrm acos v).1.length ≤ v.length / 2
  | [] => by rw [angle_search_binary_tree]; simp
  | [a] => by rw [angle_search_binary_tree]; simp
  | [a, b] => by rw [angle_search_binary_tree]; simp
  | a :: b :: c :: rest => by
    rw [angle_search_binary_tree]
    have h3 : ¬ (a :: b :: c :: rest).length < 3 := by
      simp only [List.length_cons, not_lt]
      omega
    simp only [h3, dite_false, List.length_append]
    have ih1 := angle_search_binary_tree_fst_le nrm acos
      ((a :: b :: c :: rest).take ((a :: b :: c :: rest).length / 2))
    have ih2 := angle_search_binary_tree_fst_le nrm acos
      ((a :: b :: c :: rest).drop ((a :: b :: c :: rest).length / 2))
    simp only [List.length_take, List.length_drop, List.length_cons] at ih1 ih2 ⊢
    omega
termination_by v => v.length
decreasing_by
  · simp only [List.length_take, List.length_cons]
    omega
  · simp only [List.length_drop, List.length_cons]
    omega

/-- The `while len(norms) != 1` accumulation loop of `binarytree_vector`
(mode `norm`, `BITBLE/anglecompute.py` lines 84-86): re-decompose the norm
vector and prepend each new layer of angles (`np.append(angle_list,
norm_angles)`).  A length-0 norm vector makes the Python loop spin forever;
it is given the junk value `norm_angles` here and excluded from theorems. -/
def binarytree_norm_loop {α : Type} [Field α] [DecidableEq α]
    (nrm : α → α → α) (acos : α → α) (norms norm_angles : List α) : List α :=
  if norms.length ≤ 1 then norm_angles
  else
    let p := angle_search_binary_tree nrm acos norms
    binarytree_norm_loop nrm acos p.1 (p.2 ++ norm_angles)
termination_by norms.length
decreasing_by
  have h1 := angle_search_binary_tree_fst_le nrm acos norms
  omega

/-- Mode `norm` branch of `binarytree_vector` with `is_real = False`
(`BITBLE/anglecompute.py` lines 79-89): leaf decomposition by
`angle_search_binary_tree`, the re-decomposition loop, then
`norm_angles * 2`. -/
def binarytree_vector_norm {α : Type} [Field α] [DecidableEq α]
    (nrm : α → α → α) (acos : α → α) (vector : List α) : List α :=
  let p := angle_search_binary_tree nrm acos vector
  (binarytree_norm_loop nrm acos p.1 p.2).map (fun x => x * 2)

/-- Mode `norm` branch of `binarytree_vector` with `is_real = True`: the leaf
layer comes from `positive_transform` instead. -/
def binarytree_vector_norm_real {α : Type} [Field α] [DecidableEq α]
    (nrm ang : α → α → α) (acos : α → α) (vector : List α) : List α :=
  let p := positive_transform nrm ang vector
  (binarytree_norm_loop nrm acos p.1 p.2).map (fun x => x * 2)

/-- Norm vector at tree level `k` below the input (level 0 is the input
itself). -/
def norms_iter {α : Type} [Field α] [DecidableEq α]
    (nrm : α → α → α) (acos : α → α) (v : List α) : ℕ → List α
  | 0 => v
  | k + 1 => (angle_search_binary_tree nrm acos (norms_iter nrm acos v k)).1

/-- Angle layer `k` of the norm tree of `v`: `k = 0` is the leaf layer
(pairs of the input), larger `k` is closer to the root. -/
def angles_layer {α : Type} [Field α] [DecidableEq α]
    (nrm : α → α → α) (acos : α → α) (v : List α) (k : ℕ) : List α :=
  (angle_search_binary_tree nrm acos (norms_iter nrm acos v k)).2

lemma norms_iter_shift {α : Type} [Field α] [DecidableEq α]
    (nrm : α → α → α) (acos : α → α) (v : List α) :
    ∀ k : ℕ, norms_iter nrm acos (angle_search_binary_tree nrm acos v).1 k =
      norms_iter nrm acos v (k + 1)
  | 0 => rfl
  | k + 1 => by
    simp only [norms_iter, norms_iter_shift nrm acos v k]

lemma reverse_range_succ_map_flatten {β : Type} (f : ℕ → List β) (m : ℕ) :
    ((List.range (m + 1)).reverse.map f).flatten =
      (((List.range m).reverse.map (fun k => f (k + 1))).flatten) ++ f 0 := by
  rw [List.range_succ_eq_map]
  simp only [List.reverse_cons, List.map_append, List.map_map, List.map_cons,
    List.map_nil, List.flatten_append, List.flatten_cons, List.flatten_nil,
    List.append_nil]
  rw [List.map_reverse, List.map_map, List.map_reverse]
  rfl

/-- The re-decomposition loop produces the angle layers of its input norm
vector ordered root-first (each new layer is prepended), in front of the
accumulator. -/
lemma binarytree_norm_loop_spec {α : Type} [Field α] [DecidableEq α]
    (nrm : α → α → α) (acos : α → α) :
    ∀ (m : ℕ) (norms acc : List α), norms.length = 2 ^ m →
      binarytree_norm_loop nrm acos norms acc =
        ((List.range m).reverse.map
          (fun k => (angle_search_binary_tree nrm acos
            (norms_iter nrm acos norms k)).2)).flatten ++ acc := by
  intro m
  induction m with
  | zero =>
    intro norms acc hlen
    rw [binarytree_norm_loop]
    simp [hlen]
  | succ j ih =>
    intro norms acc hlen
    have h2 : ¬ norms.length ≤ 1 := by
      rw [hlen]
      have h1 : 2 ≤ 2 ^ (j + 1) := by
        calc (2 : ℕ) = 2 ^ 1 := by norm_num
        _ ≤ 2 ^ (j + 1) := Nat.pow_le_pow_right (by norm_num) (by omega)
      omega
    rw [binarytree_norm_loop]
    simp only [h2, if_false]
    have hfst : (angle_search_binary_tree nrm acos norms).1.length = 2 ^ j :=
      (angle_search_binary_tree_length_pow nrm acos j norms hlen).1
    rw [ih _ _ hfst]
    rw [reverse_range_succ_map_flatten
      (fun k => (angle_search_binary_tree nrm acos (norms_iter nrm acos norms k)).2) j]
    simp only [norms_iter_shift nrm acos norms]
    simp only [norms_iter, List.append_assoc]

lemma norms_iter_length {α : Type} [Field α] [DecidableEq α]
    (nrm : α → α → α) (acos : α → α) (n : ℕ) (v : List α) (hv : v.length = 2 ^ n) :
    ∀ k : ℕ, k ≤ n → (norms_iter nrm acos v k).length = 2 ^ (n - k)
  | 0, _ => by simpa [norms_iter] using hv
  | k + 1, hk => by
    have hprev : (norms_iter nrm acos v k).length = 2 ^ (n - k) :=
      norms_iter_length nrm acos n v hv k (by omega)
    have hsplit : n - k = (n - k - 1) + 1 := by omega
    rw [hsplit] at hprev
    simp only [norms_iter]
    rw [(angle_search_binary_tree_length_pow nrm acos _ _ hprev).1]
    rfl

lemma sum_two_pow_desc :
    ∀ n : ℕ, ((List.range n).map (fun k => 2 ^ (n - 1 - k))).sum = 2 ^ n - 1
  | 0 => rfl
  | n + 1 => by
    rw [List.range_succ, List.map_append, List.sum_append]
    have h1 : (List.range n).map (fun k => 2 ^ (n + 1 - 1 - k)) =
        (List.range n).map (fun k => 2 * 2 ^ (n - 1 - k)) := by
      apply List.map_congr_left
      intro k hk
      rw [List.mem_range] at hk
      rw [show n + 1 - 1 - k = (n - 1 - k) + 1 from by omega, pow_succ]
      ring
    rw [h1]
    have h2 : ((List.range n).map (fun k => 2 * 2 ^ (n - 1 - k))).sum =
        2 * ((List.range n).map (fun k => 2 ^ (n - 1 - k))).sum := by
      rw [← List.sum_map_mul_left]
    rw [h2, sum_two_pow_desc n]
    have h3 : 1 ≤ 2 ^ n := Nat.one_le_two_pow
    simp only [List.map_cons, List.map_nil, List.sum_cons, List.sum_nil,
      show n + 1 - 1 - n = 0 from by omega, pow_zero]
    omega

/-- C6 (amended): for every vector of length `2^n` (`n ≥ 1`) and every
instantiation of the numeric primitives, `binarytree_vector(vector, 'norm')`
returns the norm-tree angle layers concatenated ROOT-first (the root angle at
index 0, the leaf layer last — each freshly computed layer is prepended by
`np.append(angle_list, norm_angles)`), with every angle doubled, the whole
output having `2^n - 1` entries. -/
theorem claim_C6_amended {α : Type} [Field α] [DecidableEq α]
    (nrm : α → α → α) (acos : α → α) (n : ℕ) (hn : 1 ≤ n)
    (v : List α) (hv : v.length = 2 ^ n) :
    binarytree_vector_norm nrm acos v =
      (((List.range n).reverse.map (angles_layer nrm acos v)).flatten).map
        (fun x => x * 2) ∧
    (binarytree_vector_norm nrm acos v).length = 2 ^ n - 1 := by
  obtain ⟨m, rfl⟩ : ∃ m, n = m + 1 := ⟨n - 1, by omega⟩
  have hfst : (angle_search_binary_tree nrm acos v).1.length = 2 ^ m :=
    (angle_search_binary_tree_length_pow nrm acos _ _ hv).1
  have hmain : binarytree_vector_norm nrm acos v =
      (((List.range (m + 1)).reverse.map (angles_layer nrm acos v)).flatten).map
        (fun x => x * 2) := by
    rw [binarytree_vector_norm]
    rw [binarytree_norm_loop_spec nrm acos m _ _ hfst]
    rw [reverse_range_succ_map_flatten (angles_layer nrm acos v) m]
    simp only [angles_layer, norms_iter_shift nrm acos v, norms_iter]
  refine ⟨hmain, ?_⟩
  rw [hmain]
  rw [List.length_map, List.length_flatten]
  have hlay : ∀ k ∈ (List.range (m + 1)).reverse,
      (angles_layer nrm acos v k).length = 2 ^ (m + 1 - 1 - k) := by
    intro k hk
    rw [List.mem_reverse, List.mem_range] at hk
    have hit : (norms_iter nrm acos v k).length = 2 ^ ((m - k) + 1) := by
      rw [norms_iter_length nrm acos (m + 1) v hv k (by omega)]
      congr 1
      omega
    rw [angles_layer, (angle_search_binary_tree_length_pow nrm acos _ _ hit).2,
      show m + 1 - 1 - k = m - k from by omega]
  rw [List.map_map]
  rw [show List.map (List.length ∘ angles_layer nrm acos v) (List.range (m + 1)).reverse =
        List.map (fun k => 2 ^ (m + 1 - 1 - k)) (List.range (m + 1)).reverse from
    List.map_congr_left (fun k hk => hlay k hk)]
  rw [List.map_reverse, List.sum_reverse, sum_two_pow_desc (m + 1)]

/-- C6 counterexample: with primitives instantiated over ℚ (`nrm a b := a + b`,
`acos := id`; the instantiation only makes the angle values concrete — the
layer ordering being refuted does not depend on it) and input `[1, 2, 3, 5]`
(`n = 2`), the output of `binarytree_vector(vector, 'norm')` is
`[6/11, 2/3, 3/4]` — root angle first — whereas the layers concatenated
leaf-first then root (doubled) are `[2/3, 3/4, 6/11]`.  The claimed leaf-first
output order is therefore wrong: `np.append(angle_list, norm_angles)`
prepends each new layer, so the root lands at index 0. -/
theorem claim_C6_counterexample :
    binarytree_vector_norm (α := ℚ) (fun a b => a + b) id [1, 2, 3, 5] ≠
      (((List.range 2).map (angles_layer (fun a b => a + b) id [1, 2, 3, 5])).flatten).map
        (fun x => x * 2) := by
  have e12 : angle_search_binary_tree (α := ℚ) (fun a b => a + b) id [1, 2] = ([3], [1/3]) := by
    rw [angle_search_binary_tree]
    norm_num
  have e35 : angle_search_binary_tree (α := ℚ) (fun a b => a + b) id [3, 5] = ([8], [3/8]) := by
    rw [angle_search_binary_tree]
    norm_num
  have e38 : angle_search_binary_tree (α := ℚ) (fun a b => a + b) id [3, 8] = ([11], [3/11]) := by
    rw [angle_search_binary_tree]
    norm_num
  have e1235 : angle_search_binary_tree (α := ℚ) (fun a b => a + b) id [1, 2, 3, 5] =
      ([3, 8], [1/3, 3/8]) := by
    rw [angle_search_binary_tree]
    norm_num
    rw [e12, e35]
    norm_num
  have l11 : binarytree_norm_loop (α := ℚ) (fun a b => a + b) id [11] [3/11, 1/3, 3/8] =
      [3/11, 1/3, 3/8] := by
    rw [binarytree_norm_loop]
    norm_num
  have l38 : binarytree_norm_loop (α := ℚ) (fun a b => a + b) id [3, 8] [1/3, 3/8] =
      [3/11, 1/3, 3/8] := by
    rw [binarytree_norm_loop]
    norm_num
    rw [e38]
    norm_num
    rw [l11]
  have lhs : binarytree_vector_norm (α := ℚ) (fun a b => a + b) id [1, 2, 3, 5] =
      [6/11, 2/3, 3/4] := by
    rw [binarytree_vector_norm]
    rw [e1235]
    norm_num
    rw [l38]
    norm_num
  have lay0 : angles_layer (α := ℚ) (fun a b => a + b) id [1, 2, 3, 5] 0 = [1/3, 3/8] := by
    rw [angles_layer]
    rw [show norms_iter (α := ℚ) (fun a b => a + b) id [1, 2, 3, 5] 0 = [1, 2, 3, 5] from rfl]
    rw [e1235]
  have lay1 : angles_layer (α := ℚ) (fun a b => a + b) id [1, 2, 3, 5] 1 = [3/11] := by
    rw [angles_layer]
    rw [show norms_iter (α := ℚ) (fun a b => a + b) id [1, 2, 3, 5] 1 =
          (angle_search_binary_tree (α := ℚ) (fun a b => a + b) id
            (norms_iter (fun a b => a + b) id [1, 2, 3, 5] 0)).1 from rfl]
    rw [show norms_iter (α := ℚ) (fun a b => a + b) id [1, 2, 3, 5] 0 = [1, 2, 3, 5] from rfl]
    rw [e1235, e38]
  rw [lhs, List.range_succ, List.range_succ]
  norm_num
  rw [lay0, lay1]
  norm_num

/-- Witness for `claim_C6_amended` over ℚ at `n = 2`, `v = [1, 2, 3, 5]`. -/
theorem claim_C6_amended_witness :
    binarytree_vector_norm (α := ℚ) (fun a b => a + b) id [1, 2, 3, 5] =
      (((List.range 2).reverse.map (angles_layer (fun a b => a + b) id [1, 2, 3, 5])).flatten).map
        (fun x => x * 2) ∧
    (binarytree_vector_norm (α := ℚ) (fun a b => a + b) id [1, 2, 3, 5]).length = 2 ^ 2 - 1 :=
  claim_C6_amended (fun a b => a + b) id 2 (by norm_num) [1, 2, 3, 5] (by norm_num)

/-- C7: decomposing zero-valued input yields norm 0 and angle 0 by the
explicit zero branches, never invoking the `arccos` / complex-angle
primitives (so no `NaN` can arise): the conclusion holds for EVERY
interpretation `acos` / `ang` of those primitives.  `angle_search_binary_tree`
on the 2-element zero vector returns norms `[0]`, angles `[0]` (using only
`np.linalg.norm([0,0]) = 0`, the hypothesis on `nrm`), and
`positive_transform` maps the all-zero vector of any length `2^n` (`n ≥ 1`)
to all-zero amplitudes and angles without consulting `nrm` or `ang`. -/
theorem claim_C7 {α : Type} [Field α] [DecidableEq α]
    (nrm ang : α → α → α) (acos : α → α) (h0 : nrm 0 0 = 0) (n : ℕ) (hn : 1 ≤ n) :
    angle_search_binary_tree nrm acos [0, 0] = ([0], [0]) ∧
    positive_transform nrm ang (List.replicate (2 ^ n) 0) =
      (List.replicate (2 ^ (n - 1)) 0, List.replicate (2 ^ (n - 1)) 0) := by
  constructor
  · rw [angle_search_binary_tree]
    norm_num [h0]
  · have key : ∀ m : ℕ, positive_transform nrm ang (List.replicate (2 * m) 0) =
        (List.replicate m 0, List.replicate m 0) := by
      intro m
      induction m with
      | zero => simp [positive_transform]
      | succ j ihj =>
        have hrep : List.replicate (2 * (j + 1)) (0 : α) =
            0 :: 0 :: List.replicate (2 * j) 0 := by
          rw [show 2 * (j + 1) = (2 * j) + 1 + 1 from by ring]
          simp [List.replicate]
        rw [hrep]
        simp only [positive_transform, ihj, and_self, if_true]
        simp [List.replicate]
    have h2n : (2 : ℕ) ^ n = 2 * 2 ^ (n - 1) := by
      rw [← pow_succ']
      congr 1
      omega
    rw [h2n]
    exact key (2 ^ (n - 1))

/-- Witness for `claim_C7` over ℚ with `nrm a b := a + b`,
`ang a b := 7`, `acos := id`, `n = 2`. -/
theorem claim_C7_witness :
    angle_search_binary_tree (α := ℚ) (fun a b => a + b) id [0, 0] = ([0], [0]) ∧
    positive_transform (α := ℚ) (fun a b => a + b) (fun _ _ => 7)
        (List.replicate (2 ^ 2) 0) =
      (List.replicate (2 ^ (2 - 1)) 0, List.replicate (2 ^ (2 - 1)) 0) :=
  claim_C7 (fun a b => a + b) (fun _ _ => 7) id (by norm_num) 2 (by norm_num)

/-! ## Gate emission (`qgate`, `ble/mindquantum/qgates.py`) -/

/-- Emitted gate record: kind, target qubit, control qubits, optional angle
(mirroring `GATE.on(target, controls)` / `R(angle).on(target)`). -/
abbrev Gate (α : Type) : Type := String × ℕ × List ℕ × Option α

/-- Gate kinds accepted by the `if gate == ... elif ...` dispatch of `qgate`. -/
def supported_gates : List String := ["X", "Y", "Z", "H", "SWAP", "RX", "RY", "RZ"]

/-- The comprehension
`[control_qubits[index] for index, state in enumerate(control_states) if state == 0]`
of `qgate` with running index `i`: evaluated left to right, the first
indexing of `control_qubits` out of range raises `IndexError` (modelled as
`none`) and no list is produced. -/
def qubits_state0_scan (control_qubits : List ℕ) : List ℤ → ℕ → Option (List ℕ)
  | [], _ => some []
  | s :: rest, i =>
    if s = 0 then
      match control_qubits[i]? with
      | some q => (qubits_state0_scan control_qubits rest (i + 1)).map (fun l => q :: l)
      | none => none
    else qubits_state0_scan control_qubits rest (i + 1)

/-- Source `qgate(gate, circuit, target_qubit, control_qubits, control_states,
rotation_angle)` (`ble/mindquantum/qgates.py` lines 54-90), controlled branch
(`control_qubits` and `control_states` given as lists).  Returns the gates
appended to `circuit` together with the error raised, if any: X-conjugation
of the state-0 controls around the controlled gate; an unsupported kind
raises `ValueError` after the leading X gates are already appended; there is
no length check between `control_qubits` and `control_states`. -/
def qgate {α : Type} (gate : String) (target_qubit : ℕ) (control_qubits : List ℕ)
    (control_states : List ℤ) (rotation_angle : Option α) :
    List (Gate α) × Option String :=
  match qubits_state0_scan control_qubits control_states 0 with
  | none => ([], some "IndexError")
  | some qs0 =>
    let pre : List (Gate α) := qs0.map (fun q => ("X", q, ([] : List ℕ), none))
    if gate ∈ supported_gates then
      let ang : Option α :=
        if gate = "RX" ∨ gate = "RY" ∨ gate = "RZ" then rotation_angle else none
      (pre ++ [(gate, target_qubit, control_qubits, ang)] ++ pre, none)
    else (pre, some "ValueError")

/-- C8 counterexample: `qgate('X', circuit, target=5, control_qubits=[0, 1],
control_states=[1])` has a 2-vs-1 length mismatch, yet no error is signaled
and the controlled gate is appended. -/
theorem claim_C8_counterexample :
    qgate (α := ℚ) "X" 5 [0, 1] [1] none =
        ([("X", 5, [0, 1], (none : Option ℚ))], none) ∧
      ([0, 1] : List ℕ).length ≠ ([1] : List ℤ).length := by
  constructor
  · rfl
  · decide

lemma qubits_state0_scan_ok (cq : List ℕ) :
    ∀ (cs : List ℤ) (i : ℕ), (∀ j, j < cs.length → cs.getD j 1 = 0 → i + j < cq.length) →
      ∃ l, qubits_state0_scan cq cs i = some l := by
  intro cs
  induction cs with
  | nil =>
    intro i _
    exact ⟨[], rfl⟩
  | cons s rest ih =>
    intro i h
    rw [qubits_state0_scan]
    by_cases hs : s = 0
    · have hi : i < cq.length := by
        have h1 := h 0 (by simp) (by simp [hs])
        omega
      have hq : cq[i]? = some cq[i] := List.getElem?_eq_getElem hi
      obtain ⟨l, hl⟩ := ih (i + 1) (fun j hj hz => by
        have h2 := h (j + 1) (by simp only [List.length_cons]; omega) (by simpa using hz)
        omega)
      refine ⟨cq[i] :: l, ?_⟩
      simp [hs, hq, hl]
    · have hnext := ih (i + 1) (fun j hj hz => by
        have h2 := h (j + 1) (by simp only [List.length_cons]; omega) (by simpa using hz)
        omega)
      simpa [hs] using hnext

lemma qubits_state0_scan_err (cq : List ℕ) :
    ∀ (cs : List ℤ) (i : ℕ), (∃ j, j < cs.length ∧ cs.getD j 1 = 0 ∧ cq.length ≤ i + j) →
      qubits_state0_scan cq cs i = none := by
  intro cs
  induction cs with
  | nil =>
    intro i h
    obtain ⟨j, hj, _, _⟩ := h
    simp at hj
  | cons s rest ih =>
    intro i h
    obtain ⟨j, hj, hz, hge⟩ := h
    rw [qubits_state0_scan]
    by_cases hs : s = 0
    · rcases Nat.eq_zero_or_pos j with rfl | hjpos
      · have hnone : cq[i]? = none := by
          rw [List.getElem?_eq_none_iff]
          omega
        simp [hs, hnone]
      · match cq[i]? with
        | none => simp [hs]
        | some q =>
          have hrest : qubits_state0_scan cq rest (i + 1) = none := by
            apply ih
            refine ⟨j - 1, by simp at hj; omega, ?_, by omega⟩
            have hz2 : (s :: rest).getD ((j - 1) + 1) 1 = 0 := by
              rw [show (j - 1) + 1 = j from by omega]
              exact hz
            simpa using hz2
          simp [hs, hrest]
    · rw [if_neg hs]
      apply ih
      have hjpos : 1 ≤ j := by
        rcases Nat.eq_zero_or_pos j with rfl | h1
        · simp at hz
          exact absurd hz hs
        · exact h1
      refine ⟨j - 1, by simp at hj; omega, ?_, by omega⟩
      have hz2 : (s :: rest).getD ((j - 1) + 1) 1 = 0 := by
        rw [show (j - 1) + 1 = j from by omega]
        exact hz
      simpa using hz2

/-- C8 (amended): `qgate` performs no length check between `control_qubits`
and `control_states`.  A call (here with the supported kind `X`) is silently
accepted — no error, and the controlled gate is appended — whenever every
0-valued entry of `control_states` has an index within `control_qubits`;
this includes every mismatch in which `control_states` is shorter, or longer
with the extra entries nonzero.  Only a 0-valued entry at an out-of-range
index is signaled (`IndexError` from the state-0 comprehension), and that
happens before any gate is appended. -/
theorem claim_C8_amended {α : Type} (t : ℕ) (cq : List ℕ) (cs : List ℤ)
    (ang : Option α) :
    ((∀ j, j < cs.length → cs.getD j 1 = 0 → j < cq.length) →
      (qgate "X" t cq cs ang).2 = none ∧ (qgate "X" t cq cs ang).1 ≠ []) ∧
    ((∃ j, j < cs.length ∧ cs.getD j 1 = 0 ∧ cq.length ≤ j) →
      qgate "X" t cq cs ang = ([], some "IndexError")) := by
  constructor
  · intro h
    obtain ⟨l, hl⟩ := qubits_state0_scan_ok cq cs 0 (fun j hj hz => by
      have := h j hj hz
      omega)
    rw [qgate, hl]
    have hx : ("X" : String) ∈ supported_gates := by
      rw [supported_gates]
      simp
    simp [hx]
  · intro h
    obtain ⟨j, hj, hz, hge⟩ := h
    have hnone : qubits_state0_scan cq cs 0 = none :=
      qubits_state0_scan_err cq cs 0 ⟨j, hj, hz, by omega⟩
    rw [qgate, hnone]

/-- Witness for `claim_C8_amended` at `t = 5`, `cq = [0, 1]`, `cs = [1]`. -/
theorem claim_C8_amended_witness :
    ((∀ j, j < ([1] : List ℤ).length → ([1] : List ℤ).getD j 1 = 0 → j < ([0, 1] : List ℕ).length) →
      (qgate (α := ℚ) "X" 5 [0, 1] [1] none).2 = none ∧
        (qgate (α := ℚ) "X" 5 [0, 1] [1] none).1 ≠ []) ∧
    ((∃ j, j < ([1] : List ℤ).length ∧ ([1] : List ℤ).getD j 1 = 0 ∧ ([0, 1] : List ℕ).length ≤ j) →
      qgate (α := ℚ) "X" 5 [0, 1] [1] none = ([], some "IndexError")) :=
  claim_C8_amended 5 [0, 1] [1] none

/-! ## The Gray-code compressed uniformly controlled rotation
(`compress_uniformly_rotation`, `ble/mindquantum/qgates.py`) -/

/-- Membership toggle on the pending-CNOT list `cnot_gate_ctrl_qubits`:
`append` if absent, `remove` (first occurrence) if present. -/
def cur_toggle (l : List ℕ) (q : ℕ) : List ℕ :=
  if q ∈ l then l.erase q else l ++ [q]

/-- Flush of the pending-CNOT list: one `X.on(target, control_qubits[q])`
per pending entry (`q` is always in range on the inputs covered by the
theorems; out-of-range defaults to control 0). -/
def cur_flush {α : Type} (target : ℕ) (cq : List ℕ) (pending : List ℕ) :
    List (Gate α) :=
  pending.map (fun q => ("X", target, [cq.getD q 0], (none : Option α)))

/-- Body of the `for i in range(len(rotation_angles))` loop of
`compress_uniformly_rotation` (`ble/mindquantum/qgates.py` lines 128-151),
with `r` the number of remaining iterations (`r = len - i` throughout):
if `abs(angles[i]) > epsilon`, flush the pending CNOTs and emit one
(uncontrolled) rotation; then toggle the Gray-adjacency control index
(wrapping to control 0 after the last angle); after the loop, flush the
remaining pending CNOTs. -/
def compress_loop {α : Type} [LinearOrderedField α] (gate : String) (target : ℕ)
    (cq : List ℕ) (angles : List α) (eps : α) : ℕ → ℕ → List ℕ → List (Gate α)
  | 0, _, pending => cur_flush target cq pending
  | r + 1, i, pending =>
    let a := angles.getD i 0
    let emitted : List (Gate α) :=
      if eps < |a| then
        cur_flush target cq pending ++ [(gate, target, [], some a)]
      else []
    let pending2 : List ℕ := if eps < |a| then [] else pending
    let ctrl_qubit : ℕ :=
      if i ≠ angles.length - 1 then different_gray_codes_index i (i + 1) cq.length
      else 0
    emitted ++ compress_loop gate target cq angles eps r (i + 1) (cur_toggle pending2 ctrl_qubit)

/-- Source `compress_uniformly_rotation(gate, target_qubit, control_qubits,
rotation_angles, epsilon)` without the optional outer `gate_ctrl_qubits`
wrapping (`None` case): the returned circuit as a gate list. -/
def compress_uniformly_rotation {α : Type} [LinearOrderedField α] (gate : String)
    (target_qubit : ℕ) (control_qubits : List ℕ) (rotation_angles : List α)
    (epsilon : α) : List (Gate α) :=
  compress_loop gate target_qubit control_qubits rotation_angles epsilon
    rotation_angles.length 0 []

/-- Number of gates of a given kind in a circuit. -/
def count_kind {α : Type} (k : String) (gates : List (Gate α)) : ℕ :=
  (gates.filter (fun g => g.1 == k)).length

/-- Number of angles kept by the `abs(angle) > epsilon` test. -/
def kept_count {α : Type} [LinearOrderedField α] (eps : α) (angles : List α) : ℕ :=
  (angles.filter (fun a => decide (eps < |a|))).length

/-- C3 counterexample: `k = 3` controls, angles
`[1, 0, 0, 0, 0, 1, 0, 0]` in Gray order, `epsilon = 1/2`: only `m = 2`
angles exceed epsilon, yet the compiled circuit contains 6 controlled-X
gates, refuting the claimed bound `m + 1 = 3` (toggles accumulated between
two elided angles need not pair-cancel: a single flush can emit up to `k`
CNOTs). -/
theorem claim_C3_counterexample :
    count_kind "X" (compress_uniformly_rotation (α := ℚ) "RY" 3 [0, 1, 2]
        [1, 0, 0, 0, 0, 1, 0, 0] (1 / 2)) = 6 ∧
    kept_count (1 / 2 : ℚ) [1, 0, 0, 0, 0, 1, 0, 0] = 2 ∧
    ¬ count_kind "X" (compress_uniformly_rotation (α := ℚ) "RY" 3 [0, 1, 2]
        [1, 0, 0, 0, 0, 1, 0, 0] (1 / 2)) ≤
      kept_count (1 / 2 : ℚ) [1, 0, 0, 0, 0, 1, 0, 0] + 1 := by
  have d0 : different_gray_codes_index 0 1 3 = 2 := by
    rw [different_gray_codes_index, show gray_code 0 ^^^ gray_code 1 = 1 from by decide]
    simp [Nat.log2]
  have d1 : different_gray_codes_index 1 2 3 = 1 := by
    rw [different_gray_codes_index, show gray_code 1 ^^^ gray_code 2 = 2 from by decide]
    simp [Nat.log2]
  have d2 : different_gray_codes_index 2 3 3 = 2 := by
    rw [different_gray_codes_index, show gray_code 2 ^^^ gray_code 3 = 1 from by decide]
    simp [Nat.log2]
  have d3 : different_gray_codes_index 3 4 3 = 0 := by
    rw [different_gray_codes_index, show gray_code 3 ^^^ gray_code 4 = 4 from by decide]
    simp [Nat.log2]
  have d4 : different_gray_codes_index 4 5 3 = 2 := by
    rw [different_gray_codes_index, show gray_code 4 ^^^ gray_code 5 = 1 from by decide]
    simp [Nat.log2]
  have d5 : different_gray_codes_index 5 6 3 = 1 := by
    rw [different_gray_codes_index, show gray_code 5 ^^^ gray_code 6 = 2 from by decide]
    simp [Nat.log2]
  have d6 : different_gray_codes_index 6 7 3 = 2 := by
    rw [different_gray_codes_index, show gray_code 6 ^^^ gray_code 7 = 1 from by decide]
    simp [Nat.log2]
  have hcirc : compress_uniformly_rotation (α := ℚ) "RY" 3 [0, 1, 2]
      [1, 0, 0, 0, 0, 1, 0, 0] (1 / 2) =
      [("RY", 3, [], some 1), ("X", 3, [1], none), ("X", 3, [0], none),
        ("X", 3, [2], none), ("RY", 3, [], some 1), ("X", 3, [1], none),
        ("X", 3, [2], none), ("X", 3, [0], none)] := by
    norm_num [compress_uniformly_rotation, compress_loop, cur_toggle, cur_flush,
      d0, d1, d2, d3, d4, d5, d6]
  rw [hcirc]
  refine ⟨by simp [count_kind], by norm_num [kept_count, List.filter], ?_⟩
  simp [count_kind, kept_count, List.filter]
  norm_num

lemma count_kind_append {α : Type} (k : String) (A B : List (Gate α)) :
    count_kind k (A ++ B) = count_kind k A + count_kind k B := by
  simp [count_kind, List.filter_append]

lemma count_kind_flush_x {α : Type} (target : ℕ) (cq pending : List ℕ) :
    count_kind "X" (cur_flush (α := α) target cq pending) = pending.length := by
  simp only [count_kind, cur_flush, List.filter_map]
  rw [List.filter_eq_self.mpr (fun a _ => by simp)]
  simp

lemma count_kind_flush_ne {α : Type} (k : String) (hk : k ≠ "X")
    (target : ℕ) (cq pending : List ℕ) :
    count_kind k (cur_flush (α := α) target cq pending) = 0 := by
  simp only [count_kind, cur_flush, List.filter_map]
  rw [List.filter_eq_nil_iff.mpr (fun a _ => by
    simp only [Function.comp]
    simp
    exact fun h => hk h.symm)]
  simp

lemma cur_toggle_nodup {p : List ℕ} (hp : p.Nodup) (q : ℕ) :
    (cur_toggle p q).Nodup := by
  rw [cur_toggle]
  by_cases hq : q ∈ p
  · simp [hq, hp.erase q]
  · simp only [hq, if_false]
    rw [List.nodup_append]
    exact ⟨hp, List.nodup_singleton q, by simpa using hq⟩

lemma cur_toggle_bound {p : List ℕ} {k : ℕ} (hp : ∀ x ∈ p, x < k) {q : ℕ}
    (hq : q < k) : ∀ x ∈ cur_toggle p q, x < k := by
  intro x hx
  rw [cur_toggle] at hx
  by_cases hmem : q ∈ p
  · simp only [hmem, if_true] at hx
    exact hp x (List.mem_of_mem_erase hx)
  · simp only [hmem, if_false, List.mem_append, List.mem_singleton] at hx
    rcases hx with hx | rfl
    · exact hp x hx
    · exact hq

lemma pending_length_le {p : List ℕ} {k : ℕ} (hnd : p.Nodup)
    (hb : ∀ x ∈ p, x < k) : p.length ≤ k := by
  have h1 : p.length = p.toFinset.card := (List.toFinset_card_of_nodup hnd).symm
  rw [h1]
  have h2 : p.toFinset ⊆ Finset.range k := by
    intro x hx
    rw [List.mem_toFinset] at hx
    rw [Finset.mem_range]
    exact hb x hx
  calc p.toFinset.card ≤ (Finset.range k).card := Finset.card_le_card h2
  _ = k := Finset.card_range k

/-- Range bound of the Gray adjacency index, standalone form (the content of
the range part of C5, reused by the gate-count lemmas). -/
lemma different_gray_codes_index_lt {length i : ℕ} (hl : 1 ≤ length)
    (hi : i ≤ 2 ^ length - 2) :
    different_gray_codes_index i (i + 1) length < length := by
  obtain ⟨t, a, hta⟩ := exists_lowbit_decomp (i + 1) (by omega)
  have hxor : gray_code i ^^^ gray_code (i + 1) = 2 ^ t := gray_succ_xor hta
  have hlen2 : 2 ≤ 2 ^ length := by
    calc (2 : ℕ) = 2 ^ 1 := by norm_num
    _ ≤ 2 ^ length := Nat.pow_le_pow_right (by norm_num) hl
  have htpow : 2 ^ t < 2 ^ length := by
    have h1 : 2 ^ t ≤ i + 1 := by
      rw [hta]
      omega
    omega
  have htl : t < length := (Nat.pow_lt_pow_iff_right (by norm_num : 1 < 2)).mp htpow
  rw [different_gray_codes_index, hxor, log2_pow]
  omega

lemma kept_count_cons {α : Type} [LinearOrderedField α] (eps a : α) (l : List α) :
    kept_count eps (a :: l) = (if eps < |a| then 1 else 0) + kept_count eps l := by
  by_cases h : eps < |a| <;> simp [kept_count, List.filter_cons, h, Nat.add_comm]

lemma drop_take_succ_slice {α : Type} (angles : List α) (i r : ℕ)
    (h : i < angles.length) (d : α) :
    (angles.drop i).take (r + 1) = angles.getD i d :: (angles.drop (i + 1)).take r := by
  rw [List.drop_eq_getElem_cons h, List.take_succ_cons, List.getD_eq_getElem angles d h]

/-- Gate counts of the compression loop: exactly one rotation per kept angle
in the remaining slice, and at most `k` CNOTs per flush — one flush per kept
angle plus the final one. -/
lemma compress_loop_count {α : Type} [LinearOrderedField α] (gate : String)
    (hg : gate ≠ "X") (target : ℕ) (cq : List ℕ) (hk : 1 ≤ cq.length)
    (angles : List α) (hlen : angles.length = 2 ^ cq.length) (eps : α) :
    ∀ (r i : ℕ) (pending : List ℕ), i + r = angles.length → pending.Nodup →
      (∀ q ∈ pending, q < cq.length) →
      count_kind gate (compress_loop gate target cq angles eps r i pending) =
        kept_count eps ((angles.drop i).take r) ∧
      count_kind "X" (compress_loop gate target cq angles eps r i pending) ≤
        kept_count eps ((angles.drop i).take r) * cq.length + cq.length := by
  intro r
  induction r with
  | zero =>
    intro i pending _ hnd hb
    rw [compress_loop]
    constructor
    · rw [count_kind_flush_ne gate hg]
      simp [kept_count]
    · rw [count_kind_flush_x]
      have h1 := pending_length_le hnd hb
      simp only [List.take_zero]
      simp [kept_count]
      omega
  | succ r ih =>
    intro i pending hi hnd hb
    have hilt : i < angles.length := by omega
    have hctrl : (if i ≠ angles.length - 1 then
        different_gray_codes_index i (i + 1) cq.length else 0) < cq.length := by
      by_cases hlast : i ≠ angles.length - 1
      · rw [if_pos hlast]
        have h2 : 2 ≤ 2 ^ cq.length := by
          calc (2 : ℕ) = 2 ^ 1 := by norm_num
          _ ≤ 2 ^ cq.length := Nat.pow_le_pow_right (by norm_num) hk
        exact different_gray_codes_index_lt hk (by omega)
      · rw [if_neg hlast]
        omega
    rw [compress_loop]
    have hslice := drop_take_succ_slice angles i r hilt 0
    by_cases hkept : eps < |angles.getD i 0|
    · simp only [hkept, if_true]
      have htog : cur_toggle [] (if i ≠ angles.length - 1 then
          different_gray_codes_index i (i + 1) cq.length else 0) =
          [if i ≠ angles.length - 1 then
            different_gray_codes_index i (i + 1) cq.length else 0] := by
        rw [cur_toggle]
        simp
      rw [htog]
      obtain ⟨ihrot, ihx⟩ := ih (i + 1) [_] (by omega) (List.nodup_singleton _)
        (by intro q hq; rw [List.mem_singleton] at hq; subst hq; exact hctrl)
      rw [hslice, kept_count_cons]
      simp only [hkept, if_true]
      constructor
      · rw [count_kind_append, count_kind_append, count_kind_flush_ne gate hg, ihrot]
        simp [count_kind]
      · rw [count_kind_append, count_kind_append, count_kind_flush_x]
        have hcx1 : count_kind "X" [(gate, target, ([] : List ℕ),
            some (angles.getD i 0))] = 0 := by
          simp [count_kind]
          exact fun h => hg h
        rw [hcx1]
        have hple := pending_length_le hnd hb
        have hrest := ihx
        nlinarith [hrest, hple]
    · simp only [hkept, if_false]
      obtain ⟨ihrot, ihx⟩ := ih (i + 1) (cur_toggle pending _) (by omega)
        (cur_toggle_nodup hnd _) (cur_toggle_bound hb hctrl)
      rw [hslice, kept_count_cons]
      simp only [hkept, if_false]
      constructor
      · simpa using ihrot
      · simpa using ihx

/-- C3 (amended): for every `k ≥ 1`, every angle array of length `2^k` and
every `epsilon ≥ 0`, the circuit built by `compress_uniformly_rotation`
contains at most `m` rotation gates and at most `(m + 1) * k` controlled-X
gates, where `m` is the number of angles with `|angle| > epsilon` (each of
the at most `m + 1` flushes emits at most `k` CNOTs; the per-flush count is
not 1, as `claim_C3_counterexample` shows). -/
theorem claim_C3_amended {α : Type} [LinearOrderedField α] (gate : String)
    (hg : gate ≠ "X") (target k : ℕ) (hk : 1 ≤ k) (cq : List ℕ)
    (hcq : cq.length = k) (angles : List α) (hlen : angles.length = 2 ^ k)
    (eps : α) (heps : 0 ≤ eps) :
    count_kind gate (compress_uniformly_rotation gate target cq angles eps) ≤
      kept_count eps angles ∧
    count_kind "X" (compress_uniformly_rotation gate target cq angles eps) ≤
      (kept_count eps angles + 1) * k := by
  subst hcq
  obtain ⟨h1, h2⟩ := compress_loop_count gate hg target cq hk angles hlen eps
    angles.length 0 [] (by omega) List.nodup_nil (by simp)
  rw [compress_uniformly_rotation]
  simp only [List.drop_zero, List.take_length] at h1 h2
  constructor
  · omega
  · calc count_kind "X" (compress_loop gate target cq angles eps angles.length 0 []) ≤
        kept_count eps angles * cq.length + cq.length := h2
    _ = (kept_count eps angles + 1) * cq.length := by ring

/-- Witness for `claim_C3_amended` over ℚ: `gate = RY`, `k = 1`,
`cq = [0]`, `angles = [1, 2]`, `epsilon = 0`. -/
theorem claim_C3_amended_witness :
    count_kind "RY" (compress_uniformly_rotation (α := ℚ) "RY" 0 [0] [1, 2] 0) ≤
      kept_count (0 : ℚ) [1, 2] ∧
    count_kind "X" (compress_uniformly_rotation (α := ℚ) "RY" 0 [0] [1, 2] 0) ≤
      (kept_count (0 : ℚ) [1, 2] + 1) * 1 :=
  claim_C3_amended "RY" (by simp) 0 1 (by norm_num) [0] (by simp) [1, 2] (by simp)
    0 (by norm_num)

lemma cur_flush_length {α : Type} (target : ℕ) (cq pending : List ℕ) :
    (cur_flush (α := α) target cq pending).length = pending.length := by
  simp [cur_flush]

lemma card_le_card_add_symmDiff {s1 s2 : Finset ℕ} :
    s2.card ≤ s1.card + (symmDiff s1 s2).card := by
  have hsub : s2 ⊆ s1 ∪ symmDiff s1 s2 := by
    intro x hx
    rw [Finset.mem_union, Finset.mem_symmDiff]
    by_cases h1 : x ∈ s1
    · exact Or.inl h1
    · exact Or.inr (Or.inr ⟨hx, h1⟩)
  calc s2.card ≤ (s1 ∪ symmDiff s1 s2).card := Finset.card_le_card hsub
  _ ≤ s1.card + (symmDiff s1 s2).card := Finset.card_union_le _ _

lemma toFinset_cur_toggle {p : List ℕ} (hp : p.Nodup) (t : ℕ) :
    (cur_toggle p t).toFinset = symmDiff p.toFinset {t} := by
  rw [cur_toggle]
  by_cases hmem : t ∈ p
  · rw [if_pos hmem]
    ext x
    rw [List.mem_toFinset, hp.mem_erase_iff, Finset.mem_symmDiff]
    constructor
    · intro ⟨hxt, hxp⟩
      exact Or.inl ⟨by rwa [List.mem_toFinset], by simpa using hxt⟩
    · intro h
      rcases h with ⟨hxs, hxt⟩ | ⟨hxt, hxs⟩
      · exact ⟨by simpa using hxt, by rwa [List.mem_toFinset] at hxs⟩
      · rw [Finset.mem_singleton] at hxt
        subst hxt
        exact absurd (by rwa [List.mem_toFinset] : x ∈ p.toFinset) hxs
  · rw [if_neg hmem]
    ext x
    rw [List.toFinset_append, Finset.mem_union, List.mem_toFinset, List.mem_toFinset,
      Finset.mem_symmDiff]
    constructor
    · intro h
      rcases h with hxp | hxt
      · exact Or.inl ⟨by rwa [List.mem_toFinset], by
          rw [Finset.mem_singleton]
          rintro rfl
          exact hmem hxp⟩
      · rw [List.mem_singleton] at hxt
        subst hxt
        exact Or.inr ⟨Finset.mem_singleton_self x, by
          rw [List.mem_toFinset]
          exact hmem⟩
    · intro h
      rcases h with ⟨hxs, _⟩ | ⟨hxt, _⟩
      · exact Or.inl (by rwa [List.mem_toFinset] at hxs)
      · rw [Finset.mem_singleton] at hxt
        subst hxt
        exact Or.inr (List.mem_singleton_self _)

lemma symmDiff_toggle_pair {a b : Finset ℕ} {t : Finset ℕ} :
    symmDiff (symmDiff a t) (symmDiff b t) = symmDiff a b := by
  rw [symmDiff_assoc]
  congr 1
  rw [symmDiff_comm b t, ← symmDiff_assoc, symmDiff_self, bot_symmDiff]

lemma symmDiff_absorb {s t : Finset ℕ} :
    symmDiff t (symmDiff s t) = s := by
  rw [symmDiff_comm s t, ← symmDiff_assoc, symmDiff_self, bot_symmDiff]

/-- Monotone compression at the loop level, via the potential
`|pending1 Δ pending2|`: the circuit emitted at the larger threshold, from
pending state `p2`, is never more than the circuit emitted at the smaller
threshold from `p1` plus the symmetric difference of the pending sets. -/
lemma compress_loop_mono {α : Type} [LinearOrderedField α] (gate : String)
    (target : ℕ) (cq : List ℕ) (angles : List α) (e1 e2 : α) (h12 : e1 ≤ e2) :
    ∀ (r i : ℕ) (p1 p2 : List ℕ), p1.Nodup → p2.Nodup →
      (compress_loop gate target cq angles e2 r i p2).length ≤
        (compress_loop gate target cq angles e1 r i p1).length +
          (symmDiff p1.toFinset p2.toFinset).card := by
  intro r
  induction r with
  | zero =>
    intro i p1 p2 h1 h2
    rw [compress_loop, compress_loop, cur_flush_length, cur_flush_length]
    rw [← List.toFinset_card_of_nodup h1, ← List.toFinset_card_of_nodup h2]
    exact card_le_card_add_symmDiff
  | succ r ih =>
    intro i p1 p2 h1 h2
    rw [compress_loop, compress_loop]
    set t := (if i ≠ angles.length - 1 then
      different_gray_codes_index i (i + 1) cq.length else 0) with ht
    have htognil : cur_toggle [] t = [t] := by
      rw [cur_toggle]
      simp
    by_cases hk2 : e2 < |angles.getD i 0|
    · have hk1 : e1 < |angles.getD i 0| := lt_of_le_of_lt h12 hk2
      simp only [hk1, hk2, if_true, List.append_assoc, List.length_append,
        cur_flush_length, List.length_cons, List.length_nil, htognil]
      have hrec := ih (i + 1) [t] [t] (List.nodup_singleton t) (List.nodup_singleton t)
      rw [symmDiff_self] at hrec
      simp only [Finset.bot_eq_empty, Finset.card_empty, Nat.add_zero] at hrec
      have hlen : p2.length ≤ p1.length + (symmDiff p1.toFinset p2.toFinset).card := by
        rw [← List.toFinset_card_of_nodup h1, ← List.toFinset_card_of_nodup h2]
        exact card_le_card_add_symmDiff
      omega
    · by_cases hk1 : e1 < |angles.getD i 0|
      · simp only [hk1, hk2, if_true, if_false, List.append_assoc, List.length_append,
          cur_flush_length, List.length_cons, List.length_nil, List.nil_append, htognil]
        have hrec := ih (i + 1) [t] (cur_toggle p2 t)
          (List.nodup_singleton t) (cur_toggle_nodup h2 t)
        rw [toFinset_cur_toggle h2] at hrec
        have hfin : ([t] : List ℕ).toFinset = ({t} : Finset ℕ) := by simp
        rw [hfin, symmDiff_comm p2.toFinset ({t} : Finset ℕ),
          symmDiff_symmDiff_cancel_left] at hrec
        have hcard : p2.toFinset.card = p2.length := List.toFinset_card_of_nodup h2
        have hlen : p2.length ≤ p1.length + (symmDiff p1.toFinset p2.toFinset).card := by
          rw [← List.toFinset_card_of_nodup h1, ← List.toFinset_card_of_nodup h2]
          exact card_le_card_add_symmDiff
        omega
      · simp only [hk1, hk2, if_false, List.nil_append]
        have hrec := ih (i + 1) (cur_toggle p1 t) (cur_toggle p2 t)
          (cur_toggle_nodup h1 t) (cur_toggle_nodup h2 t)
        rw [toFinset_cur_toggle h1, toFinset_cur_toggle h2, symmDiff_toggle_pair] at hrec
        exact hrec

/-! ## The scaled fast Walsh-Hadamard transform, Gray permutation and Mikko
matrix (`sfwht`, `gray_permutation`, `mikko_matrix` in `ble/tools.py`) -/

/-- Interleave two lists (even positions from the first, odd from the
second). -/
def interleave {α : Type} : List α → List α → List α
  | x :: xs, y :: ys => x :: y :: interleave xs ys
  | xs, [] => xs
  | [], ys => ys

lemma interleave_length {α : Type} :
    ∀ (A B : List α), (interleave A B).length = A.length + B.length
  | x :: xs, y :: ys => by
    simp only [interleave, List.length_cons, interleave_length xs ys]
    omega
  | [], [] => by simp [interleave]
  | [], y :: ys => by simp [interleave]
  | x :: xs, [] => by simp [interleave]

/-- Source `sfwht(input_array)` (`ble/tools.py` lines 97-124), on a column
vector.  The source's triple loop processes rounds `h = 1 .. log2 n`; round
1 replaces each adjacent pair `(x, y)` by `((x+y)/2, (x-y)/2)` — averages at
even slots, half-differences at odd slots — and every later round `h ≥ 2`
combines slots at even distance `2^(h-1)`, hence acts independently on the
even-indexed and odd-indexed subsequences, where it is exactly round `h - 1`
of the half-size transform.  The loop is therefore this recursion: butterfly
the adjacent pairs, transform the two halves, interleave. -/
def sfwht {α : Type} [Field α] (input_array : List α) : List α :=
  if _h : input_array.length ≤ 1 then input_array
  else
    interleave (sfwht (pairMap (fun x y => (x + y) / 2) input_array))
      (sfwht (pairMap (fun x y => (x - y) / 2) input_array))
termination_by input_array.length
decreasing_by
  · rw [pairMap_length]
    omega
  · rw [pairMap_length]
    omega

lemma sfwht_length_pow {α : Type} [Field α] :
    ∀ (n : ℕ) (v : List α), v.length = 2 ^ n → (sfwht v).length = 2 ^ n := by
  intro n
  induction n with
  | zero =>
    intro v hv
    rw [sfwht]
    simp [hv]
  | succ k ih =>
    intro v hv
    have h2 : 2 ≤ v.length := by
      rw [hv]
      calc (2 : ℕ) = 2 ^ 1 := by norm_num
      _ ≤ 2 ^ (k + 1) := Nat.pow_le_pow_right (by norm_num) (by omega)
    rw [sfwht]
    simp only [show ¬ v.length ≤ 1 from by omega, dite_false]
    rw [interleave_length,
      ih _ (by rw [pairMap_length, hv, Nat.pow_succ]; omega),
      ih _ (by rw [pairMap_length, hv, Nat.pow_succ]; omega)]
    rw [Nat.pow_succ]
    omega

/-- Source `gray_permutation(input_array)` (`ble/tools.py` lines 127-148):
`new_array[i] = input_array[gray_code(i)]` (indices in range for
power-of-two lengths; out of range defaults to 0). -/
def gray_permutation {α : Type} [Field α] (input_array : List α) : List α :=
  (List.range input_array.length).map (fun i => input_array.getD (gray_code i) 0)

/-- Source `uniformly_rotation_angles(angles)`
(`BITBLE/anglecompute.py` lines 153-172):
`gray_permutation(sfwht(angles))` (the `reshape((-1, 1))` is the identity on
a column vector). -/
def uniformly_rotation_angles {α : Type} [Field α] (angles : List α) : List α :=
  gray_permutation (sfwht angles)

/-- Parity accumulator of `mikko_matrix`: `n` rounds of XOR-ing bit 0 and
shifting right (`mikko_matrix ^= B & 1; B >>= 1`). -/
def bparity : ℕ → ℕ → Bool
  | 0, _ => false
  | n + 1, x => xor (x.testBit 0) (bparity n (x >>> 1))

/-- Source `mikko_matrix(n)` (`ble/tools.py` lines 63-94):
`B[i][j] = i & gray_code(j)`, then `n` rounds of XOR-accumulating `B & 1`
and shifting, then the map `0 ↦ 1, 1 ↦ -1` (`-1 * m + (m == 0)`). -/
def mikko_matrix (n : ℕ) : List (List ℤ) :=
  (List.range (2 ^ n)).map (fun i =>
    (List.range (2 ^ n)).map (fun j =>
      if bparity n (i &&& gray_code j) then -1 else 1))

/-- Transpose of a square matrix given as a list of rows (`np.transpose`). -/
def mat_transpose (M : List (List ℤ)) : List (List ℤ) :=
  (List.range M.length).map (fun i => M.map (fun row => row.getD i 0))

/-- Integer matrix times a vector over a field (`np.dot(M, x)` with `M`
integral). -/
def matVecZ {α : Type} [Field α] (M : List (List ℤ)) (v : List α) : List α :=
  M.map (fun row => dotL (row.map (fun z => (Int.cast z : α))) v)

/-- Position-indexed weighted sum `Σ_j g (j0 + offset) * v[offset]`. -/
def posSum {α : Type} [Field α] (g : ℕ → α) : ℕ → List α → α
  | _, [] => 0
  | j, a :: rest => g j * a + posSum g (j + 1) rest

/-- Sign `(-1)^parity(i & j)` over the low `n` bits. -/
def sgnb {α : Type} [Field α] (n i j : ℕ) : α :=
  if bparity n (i &&& j) then -1 else 1

lemma land_shiftRight (a b k : ℕ) :
    (a &&& b) >>> k = (a >>> k) &&& (b >>> k) := by
  apply Nat.eq_of_testBit_eq
  intro j
  simp [Nat.testBit_shiftRight, Nat.testBit_land]

lemma testBit_zero_two_mul_add (i s : ℕ) (hs : s < 2) :
    (2 * i + s).testBit 0 = decide (s = 1) := by
  rw [Nat.testBit_zero]
  have h1 : (2 * i + s) % 2 = s := by omega
  rw [h1]

lemma shiftRight_one_two_mul_add (i s : ℕ) (hs : s < 2) :
    (2 * i + s) >>> 1 = i := by
  rw [Nat.shiftRight_one]
  omega

lemma bparity_pair (n i j s c : ℕ) (hs : s < 2) (hc : c < 2) :
    bparity (n + 1) ((2 * i + s) &&& (2 * j + c)) =
      xor (decide (s = 1) && decide (c = 1)) (bparity n (i &&& j)) := by
  rw [bparity]
  congr 1
  · rw [Nat.testBit_land, testBit_zero_two_mul_add i s hs, testBit_zero_two_mul_add j c hc]
  · rw [land_shiftRight, shiftRight_one_two_mul_add i s hs, shiftRight_one_two_mul_add j c hc]

lemma sgnb_pair_left {α : Type} [Field α] (n i j s : ℕ) (hs : s < 2) :
    sgnb (α := α) (n + 1) (2 * i + s) (2 * j) = sgnb n i j := by
  rw [sgnb, sgnb, show (2 * j : ℕ) = 2 * j + 0 from by ring,
    bparity_pair n i j s 0 hs (by norm_num)]
  simp

lemma sgnb_pair_right {α : Type} [Field α] (n i j s : ℕ) (hs : s < 2) :
    sgnb (α := α) (n + 1) (2 * i + s) (2 * j + 1) =
      (if s = 1 then -1 else 1) * sgnb n i j := by
  rw [sgnb, sgnb, bparity_pair n i j s 1 hs (by norm_num)]
  rcases (by omega : s = 0 ∨ s = 1) with rfl | rfl
  · simp
  · cases hb : bparity n (i &&& j) <;> simp [hb]

lemma posSum_pair {α : Type} [Field α] (n i s : ℕ) (hs : s < 2) :
    ∀ (v : List α) (j : ℕ), v.length % 2 = 0 →
      posSum (sgnb (n + 1) (2 * i + s)) (2 * j) v =
        posSum (sgnb n i) j (pairMap (fun a b => a + (if s = 1 then -b else b)) v)
  | [], _, _ => by simp [posSum, pairMap]
  | [a], _, h => by simp at h
  | a :: b :: rest, j, h => by
    simp only [posSum, pairMap]
    rw [show 2 * j + 1 + 1 = 2 * (j + 1) from by ring]
    rw [posSum_pair n i s hs rest (j + 1) (by simp only [List.length_cons] at h; omega)]
    rw [sgnb_pair_left n i j s hs, sgnb_pair_right n i j s hs]
    rcases (by omega : s = 0 ∨ s = 1) with rfl | rfl
    · simp
      ring
    · simp
      ring

lemma posSum_pairMap_half {α : Type} [Field α] (g : ℕ → α) (f : α → α → α) :
    ∀ (v : List α) (j : ℕ),
      posSum g j (pairMap (fun a b => f a b / 2) v) =
        posSum g j (pairMap f v) / 2
  | [], _ => by simp [posSum, pairMap]
  | [a], _ => by simp [posSum, pairMap]
  | a :: b :: rest, j => by
    simp only [posSum, pairMap]
    rw [posSum_pairMap_half g f rest (j + 1)]
    ring

lemma interleave_getD_even {α : Type} [Field α] :
    ∀ (A B : List α) (i : ℕ), A.length = B.length → i < A.length →
      (interleave A B).getD (2 * i) 0 = A.getD i 0
  | [], _, i, h, hi => by simp at hi
  | x :: xs, [], i, h, hi => by simp at h
  | x :: xs, y :: ys, 0, h, hi => by simp [interleave]
  | x :: xs, y :: ys, i + 1, h, hi => by
    rw [show 2 * (i + 1) = (2 * i + 1) + 1 from by ring]
    simp only [interleave, List.getD_cons_succ]
    rw [interleave_getD_even xs ys i (by simpa using h) (by simpa using hi)]

lemma interleave_getD_odd {α : Type} [Field α] :
    ∀ (A B : List α) (i : ℕ), A.length = B.length → i < B.length →
      (interleave A B).getD (2 * i + 1) 0 = B.getD i 0
  | [], _, i, h, hi => by
    simp only [List.length_nil] at h
    rw [← h] at hi
    simp at hi
  | x :: xs, [], i, h, hi => by simp at hi
  | x :: xs, y :: ys, 0, h, hi => by simp [interleave]
  | x :: xs, y :: ys, i + 1, h, hi => by
    rw [show 2 * (i + 1) + 1 = (2 * i + 1) + 1 + 1 from by ring]
    simp only [interleave, List.getD_cons_succ]
    rw [interleave_getD_odd xs ys i (by simpa using h) (by simpa using hi)]

/-- Closed form of `sfwht` on length-`2^n` inputs: entry `i` is
`2^(-n) · Σ_j (-1)^(parity(i & j)) v_j`. -/
lemma sfwht_spec {α : Type} [Field α] :
    ∀ (n : ℕ) (v : List α), v.length = 2 ^ n →
      ∀ i, i < 2 ^ n →
        (sfwht v).getD i 0 = (2 ^ n : α)⁻¹ * posSum (sgnb n i) 0 v := by
  intro n
  induction n with
  | zero =>
    intro v hv i hi
    have hi0 : i = 0 := by omega
    subst hi0
    match v, hv with
    | [a], _ =>
      rw [sfwht]
      simp [posSum, sgnb, bparity]
  | succ k ih =>
    intro v hv i hi
    have hpow : (2 : ℕ) ^ (k + 1) = 2 ^ k * 2 := by rw [Nat.pow_succ]
    have h2 : ¬ v.length ≤ 1 := by
      rw [hv, hpow]
      have h1 : 1 ≤ 2 ^ k := Nat.one_le_two_pow
      omega
    rw [sfwht]
    simp only [h2, dite_false]
    have hlv : v.length % 2 = 0 := by
      rw [hv, hpow]
      omega
    have hlen2 : (pairMap (fun x y => (x + y) / 2) v).length = 2 ^ k := by
      rw [pairMap_length, hv, hpow]
      omega
    have hlen3 : (pairMap (fun x y => (x - y) / 2) v).length = 2 ^ k := by
      rw [pairMap_length, hv, hpow]
      omega
    have hA : (sfwht (pairMap (fun x y => (x + y) / 2) v)).length = 2 ^ k :=
      sfwht_length_pow k _ hlen2
    have hB : (sfwht (pairMap (fun x y => (x - y) / 2) v)).length = 2 ^ k :=
      sfwht_length_pow k _ hlen3
    obtain ⟨i', s, hs, rfl⟩ : ∃ i' s, s < 2 ∧ i = 2 * i' + s :=
      ⟨i / 2, i % 2, by omega, by omega⟩
    have hi' : i' < 2 ^ k := by
      rw [hpow] at hi
      omega
    rcases (by omega : s = 0 ∨ s = 1) with rfl | rfl
    · rw [show 2 * i' + 0 = 2 * i' from by ring]
      rw [interleave_getD_even _ _ i' (by rw [hA, hB]) (by rw [hA]; exact hi')]
      rw [ih _ hlen2 i' hi']
      rw [posSum_pairMap_half (sgnb k i') (fun a b => a + b)]
      rw [show pairMap (fun a b => (a + b)) v =
            pairMap (fun a b => a + (if (0 : ℕ) = 1 then -b else b)) v from
        pairMap_congr (fun a b => by norm_num) v]
      rw [← posSum_pair k i' 0 (by norm_num) v 0 hlv]
      rw [show 2 * (0 : ℕ) = 0 from by ring, show 2 * i' + 0 = 2 * i' from by ring]
      rw [pow_succ, mul_inv, div_eq_mul_inv]
      ring
    · rw [interleave_getD_odd _ _ i' (by rw [hA, hB]) (by rw [hB]; exact hi')]
      rw [ih _ hlen3 i' hi']
      rw [posSum_pairMap_half (sgnb k i') (fun a b => a - b)]
      rw [show pairMap (fun a b => (a - b)) v =
            pairMap (fun a b => a + (if (1 : ℕ) = 1 then -b else b)) v from
        pairMap_congr (fun a b => by norm_num; ring) v]
      rw [← posSum_pair k i' 1 (by norm_num) v 0 hlv]
      rw [show 2 * (0 : ℕ) = 0 from by ring]
      rw [pow_succ, mul_inv, div_eq_mul_inv]
      ring

lemma getD_range_map {β : Type} (g : ℕ → β) (N k : ℕ) (d : β) (hk : k < N) :
    ((List.range N).map g).getD k d = g k := by
  rw [List.getD_eq_getElem _ d (by simpa using hk)]
  simp

lemma dotL_range_map {α : Type} [Field α] (g : ℕ → α) :
    ∀ (N j0 : ℕ) (x : List α), x.length = N →
      dotL ((List.range' j0 N).map g) x = posSum g j0 x := by
  intro N
  induction N with
  | zero =>
    intro j0 x hx
    have h0 : x = [] := List.eq_nil_of_length_eq_zero hx
    subst h0
    simp [dotL, posSum]
  | succ m ihm =>
    intro j0 x hx
    match x, hx with
    | a :: rest, hx =>
      rw [List.range'_succ]
      simp only [List.map_cons, dotL, posSum]
      rw [ihm (j0 + 1) rest (by simpa using hx)]

lemma gray_code_lt {n x : ℕ} (hx : x < 2 ^ n) : gray_code x < 2 ^ n := by
  rw [gray_code]
  apply Nat.xor_lt_two_pow hx
  calc x >>> 1 = x / 2 := Nat.shiftRight_one x
  _ ≤ x := Nat.div_le_self x 2
  _ < 2 ^ n := hx

/-- C10: for every `n ≥ 1` and every vector `x` of length `2^n`,
`uniformly_rotation_angles(x) = gray_permutation(sfwht(x))` equals the
commented-out reference computation `2^(-n) * mikko_matrix(n)^T * x`: the
butterfly-plus-Gray-permutation pipeline and the Mikko matrix product are
the same linear map (exactly, over any field, hence over ℝ). -/
theorem claim_C10 {α : Type} [Field α] (n : ℕ) (hn : 1 ≤ n) (x : List α)
    (hx : x.length = 2 ^ n) :
    uniformly_rotation_angles x =
      (matVecZ (mat_transpose (mikko_matrix n)) x).map
        (fun y => (2 ^ n : α)⁻¹ * y) := by
  rw [uniformly_rotation_angles, gray_permutation, sfwht_length_pow n x hx]
  have hmlen : (mikko_matrix n).length = 2 ^ n := by
    simp [mikko_matrix]
  rw [matVecZ, mat_transpose, hmlen, List.map_map, List.map_map]
  apply List.map_congr_left
  intro i hi
  rw [List.mem_range] at hi
  have hgray : gray_code i < 2 ^ n := gray_code_lt hi
  rw [sfwht_spec n x hx (gray_code i) hgray]
  simp only [Function.comp]
  have hcol : (mikko_matrix n).map (fun row => row.getD i 0) =
      (List.range (2 ^ n)).map
        (fun j => if bparity n (j &&& gray_code i) then (-1 : ℤ) else 1) := by
    rw [mikko_matrix, List.map_map]
    apply List.map_congr_left
    intro j hj
    simp only [Function.comp]
    exact getD_range_map _ _ _ _ hi
  rw [hcol]
  have hfinal : dotL (((List.range (2 ^ n)).map
      (fun j => if bparity n (j &&& gray_code i) then (-1 : ℤ) else 1)).map
        (fun z => (Int.cast z : α))) x = posSum (sgnb n (gray_code i)) 0 x := by
    rw [List.map_map]
    have hfun : ((fun z => (Int.cast z : α)) ∘
        fun j => if bparity n (j &&& gray_code i) then (-1 : ℤ) else 1) =
        fun j => sgnb (α := α) n (gray_code i) j := by
      funext j
      simp only [Function.comp, sgnb, Nat.land_comm j (gray_code i)]
      split <;> simp
    rw [hfun, List.range_eq_range', dotL_range_map (sgnb n (gray_code i)) (2 ^ n) 0 x hx]
  rw [hfinal]

/-- Witness for `claim_C10` over ℚ at `n = 1`, `x = [1, 2]`. -/
theorem claim_C10_witness :
    uniformly_rotation_angles (α := ℚ) [1, 2] =
      (matVecZ (mat_transpose (mikko_matrix 1)) [1, 2]).map
        (fun y => (2 ^ 1 : ℚ)⁻¹ * y) :=
  claim_C10 1 (by norm_num) [1, 2] (by simp)

/-! ## Compressed state preparation
(`compressed_state_preparation`, `BITBLE/mindquantum/statepreparation.py`) -/

/-- The `for layer in range(1, n)` loop of `compressed_state_preparation`:
for each layer, transform the slice
`angles[angle_index : angle_index + 2^layer]` into Gray order and compile it
with `compress_uniformly_rotation` on controls `target_qubits[:layer]` and
target `target_qubits[layer]`; `rem` is the number of layers left. -/
def csp_layers {α : Type} [LinearOrderedField α] (gate : String)
    (target_qubits : List ℕ) (angles : List α) (eps : α) :
    ℕ → ℕ → ℕ → List (Gate α)
  | _, 0, _ => []
  | layer, rem + 1, angle_index =>
    compress_uniformly_rotation gate (target_qubits.getD layer 0)
      (target_qubits.take layer)
      (uniformly_rotation_angles ((angles.drop angle_index).take (2 ^ layer))) eps ++
      csp_layers gate target_qubits angles eps (layer + 1) rem (angle_index + 2 ^ layer)

/-- Source `compressed_state_preparation(state, target_qubits,
is_real=True, epsilon)` (`BITBLE/mindquantum/statepreparation.py` lines
112-146, without the optional outer `control_qubits` wrapping): root RY if
its angle survives the threshold, then the compressed RY layers.  The numeric
primitives of the angle computation are parameters as before. -/
def compressed_state_preparation_real {α : Type} [LinearOrderedField α]
    [DecidableEq α] (nrm ang : α → α → α) (acos : α → α) (state : List α)
    (target_qubits : List ℕ) (epsilon : α) : List (Gate α) :=
  let norm_angles := binarytree_vector_norm_real nrm ang acos state
  (if epsilon < |norm_angles.getD 0 0| then
    [("RY", target_qubits.getD 0 0, ([] : List ℕ), some (norm_angles.getD 0 0))]
  else []) ++
    csp_layers "RY" target_qubits norm_angles epsilon 1 (target_qubits.length - 1) 1

/-- Source `compressed_state_preparation(state, target_qubits,
is_real=False, epsilon)` (same function, complex branch): the angle inputs
are `state_norm = np.abs(state)` and `state_phase = np.angle(state)`; root
RZ (phase tree entry 0), root RY, compressed RY layers, the second phase
entry as an RZ, then the compressed RZ layers. -/
def compressed_state_preparation_complex {α : Type} [LinearOrderedField α]
    [DecidableEq α] (nrm : α → α → α) (acos : α → α)
    (state_norm state_phase : List α) (target_qubits : List ℕ) (epsilon : α) :
    List (Gate α) :=
  let norm_angles := binarytree_vector_norm nrm acos state_norm
  let phase_angles := binarytree_vector_phase state_phase
  (if epsilon < |phase_angles.getD 0 0| then
    [("RZ", target_qubits.getD 0 0, ([] : List ℕ), some (phase_angles.getD 0 0))]
  else []) ++
  (if epsilon < |norm_angles.getD 0 0| then
    [("RY", target_qubits.getD 0 0, ([] : List ℕ), some (norm_angles.getD 0 0))]
  else []) ++
  csp_layers "RY" target_qubits norm_angles epsilon 1 (target_qubits.length - 1) 1 ++
  (if epsilon < |phase_angles.getD 1 0| then
    [("RZ", target_qubits.getD 0 0, ([] : List ℕ), some (phase_angles.getD 1 0))]
  else []) ++
  csp_layers "RZ" target_qubits phase_angles epsilon 1 (target_qubits.length - 1) 2

lemma compress_uniformly_rotation_mono {α : Type} [LinearOrderedField α]
    (gate : String) (t : ℕ) (cq : List ℕ) (angles : List α) {e1 e2 : α}
    (h12 : e1 ≤ e2) :
    (compress_uniformly_rotation gate t cq angles e2).length ≤
      (compress_uniformly_rotation gate t cq angles e1).length := by
  have h := compress_loop_mono gate t cq angles e1 e2 h12 angles.length 0 [] []
    List.nodup_nil List.nodup_nil
  rw [symmDiff_self] at h
  simpa [compress_uniformly_rotation, Finset.bot_eq_empty] using h

lemma csp_layers_mono {α : Type} [LinearOrderedField α] (gate : String)
    (tq : List ℕ) (angles : List α) {e1 e2 : α} (h12 : e1 ≤ e2) :
    ∀ (rem layer idx : ℕ),
      (csp_layers gate tq angles e2 layer rem idx).length ≤
        (csp_layers gate tq angles e1 layer rem idx).length := by
  intro rem
  induction rem with
  | zero =>
    intro layer idx
    simp [csp_layers]
  | succ r ih =>
    intro layer idx
    rw [csp_layers, csp_layers, List.length_append, List.length_append]
    have h1 := compress_uniformly_rotation_mono gate (tq.getD layer 0) (tq.take layer)
      (uniformly_rotation_angles ((angles.drop idx).take (2 ^ layer))) h12
    have h2 := ih (layer + 1) (idx + 2 ^ layer)
    omega

lemma root_gate_mono {α : Type} [LinearOrderedField α] {e1 e2 : α}
    (h12 : e1 ≤ e2) (g : Gate α) (a : α) :
    (if e2 < |a| then [g] else []).length ≤ (if e1 < |a| then [g] else []).length := by
  by_cases h2 : e2 < |a|
  · simp [h2, lt_of_le_of_lt h12 h2]
  · simp only [h2, if_false]
    by_cases h1 : e1 < |a| <;> simp [h1]

/-- C4: for a fixed input vector and fixed target qubits (and any
instantiation of the numeric primitives), the total gate count of
`compressed_state_preparation` — in both its `is_real` branches — and of
`compress_uniformly_rotation` on a fixed angle array is non-increasing in
`epsilon`. -/
theorem claim_C4 {α : Type} [LinearOrderedField α] [DecidableEq α]
    (nrm ang : α → α → α) (acos : α → α) (state state_norm state_phase : List α)
    (target_qubits : List ℕ) (gate : String) (t : ℕ) (cq : List ℕ)
    (angles : List α) (e1 e2 : α) (h0 : 0 ≤ e1) (h12 : e1 ≤ e2) :
    (compressed_state_preparation_real nrm ang acos state target_qubits e2).length ≤
      (compressed_state_preparation_real nrm ang acos state target_qubits e1).length ∧
    (compressed_state_preparation_complex nrm acos state_norm state_phase
        target_qubits e2).length ≤
      (compressed_state_preparation_complex nrm acos state_norm state_phase
        target_qubits e1).length ∧
    (compress_uniformly_rotation gate t cq angles e2).length ≤
      (compress_uniformly_rotation gate t cq angles e1).length := by
  refine ⟨?_, ?_, compress_uniformly_rotation_mono gate t cq angles h12⟩
  · rw [compressed_state_preparation_real, compressed_state_preparation_real]
    simp only [List.length_append]
    have h1 := root_gate_mono (α := α) h12
      ("RY", target_qubits.getD 0 0, ([] : List ℕ),
        some ((binarytree_vector_norm_real nrm ang acos state).getD 0 0))
      ((binarytree_vector_norm_real nrm ang acos state).getD 0 0)
    have h2 := csp_layers_mono "RY" target_qubits
      (binarytree_vector_norm_real nrm ang acos state) h12
      (target_qubits.length - 1) 1 1
    omega
  · rw [compressed_state_preparation_complex, compressed_state_preparation_complex]
    simp only [List.length_append]
    have h1 := root_gate_mono (α := α) h12
      ("RZ", target_qubits.getD 0 0, ([] : List ℕ),
        some ((binarytree_vector_phase state_phase).getD 0 0))
      ((binarytree_vector_phase state_phase).getD 0 0)
    have h2 := root_gate_mono (α := α) h12
      ("RY", target_qubits.getD 0 0, ([] : List ℕ),
        some ((binarytree_vector_norm nrm acos state_norm).getD 0 0))
      ((binarytree_vector_norm nrm acos state_norm).getD 0 0)
    have h3 := csp_layers_mono "RY" target_qubits
      (binarytree_vector_norm nrm acos state_norm) h12
      (target_qubits.length - 1) 1 1
    have h4 := root_gate_mono (α := α) h12
      ("RZ", target_qubits.getD 0 0, ([] : List ℕ),
        some ((binarytree_vector_phase state_phase).getD 1 0))
      ((binarytree_vector_phase state_phase).getD 1 0)
    have h5 := csp_layers_mono "RZ" target_qubits
      (binarytree_vector_phase state_phase) h12
      (target_qubits.length - 1) 1 2
    omega

/-- Witness for `claim_C4` over ℚ. -/
theorem claim_C4_witness :
    (compressed_state_preparation_real (α := ℚ) (fun a b => a + b) (fun _ _ => 7)
        id [1, 2] [0] 1).length ≤
      (compressed_state_preparation_real (α := ℚ) (fun a b => a + b) (fun _ _ => 7)
        id [1, 2] [0] 0).length ∧
    (compressed_state_preparation_complex (α := ℚ) (fun a b => a + b) id
        [1, 2] [3, 4] [0] 1).length ≤
      (compressed_state_preparation_complex (α := ℚ) (fun a b => a + b) id
        [1, 2] [3, 4] [0] 0).length ∧
    (compress_uniformly_rotation (α := ℚ) "RY" 0 [0] [1, 2] 1).length ≤
      (compress_uniformly_rotation (α := ℚ) "RY" 0 [0] [1, 2] 0).length :=
  claim_C4 (fun a b => a + b) (fun _ _ => 7) id [1, 2] [1, 2] [3, 4] [0] "RY" 0 [0]
    [1, 2] 0 1 (by norm_num) (by norm_num)

/-! ## Quantum-state semantics of the emitted circuits
(`mindquantum` gate conventions, `get_prepared_state`,
`tools.reverse_index_bits`) -/

/-- `n`-bit index reversal, one bit at a time from the high end: the model of
`tools.reverse_index_bits` (`ble/tools.py` lines 151-170), which rewrites
entry `index` of an array of length `2^n` to position
`int(bin(index)[2:].zfill(n)[::-1], 2)`; bit `q` of `idx` lands at position
`n - 1 - q`. -/
def revBits : ℕ → ℕ → ℕ
  | 0, _ => 0
  | l + 1, idx => 2 * revBits l idx + (if idx.testBit l then 1 else 0)

lemma revBits_lt (l idx : ℕ) : revBits l idx < 2 ^ l := by
  induction l with
  | zero => simp [revBits]
  | succ k ih =>
    rw [revBits, pow_succ]
    by_cases h : idx.testBit k <;> simp [h] <;> omega

lemma testBit_revBits (l idx : ℕ) :
    ∀ b, (revBits l idx).testBit b = if b < l then idx.testBit (l - 1 - b) else false := by
  induction l with
  | zero => intro b; simp [revBits, Nat.testBit_lt_two_pow]
  | succ k ih =>
    intro b
    match b with
    | 0 =>
      rw [revBits, Nat.testBit_zero]
      by_cases h : idx.testBit k <;> simp [h, Nat.mul_add_mod]
    | b + 1 =>
      rw [revBits, show 2 * revBits k idx + (if idx.testBit k then 1 else 0) =
        2 * revBits k idx + (if idx.testBit k then 1 else 0) from rfl]
      have hdiv : (2 * revBits k idx + (if idx.testBit k then 1 else 0)) / 2 =
          revBits k idx := by
        by_cases h : idx.testBit k <;> simp [h] <;> omega
      rw [Nat.testBit_succ, hdiv, ih b]
      by_cases hb : b < k
      · simp [hb, show b + 1 < k + 1 from by omega,
          show k - 1 - b = k + 1 - 1 - (b + 1) from by omega]
      · simp [hb, show ¬ b + 1 < k + 1 from by omega]

lemma revBits_congr (l idx idx' : ℕ)
    (h : ∀ j, j < l → idx.testBit j = idx'.testBit j) :
    revBits l idx = revBits l idx' := by
  induction l with
  | zero => rfl
  | succ k ih =>
    rw [revBits, revBits, h k (by omega), ih (fun j hj => h j (by omega))]

lemma revBits_revBits (l idx : ℕ) (h : idx < 2 ^ l) :
    revBits l (revBits l idx) = idx := by
  apply Nat.eq_of_testBit_eq
  intro b
  rw [testBit_revBits]
  by_cases hb : b < l
  · rw [if_pos hb, testBit_revBits, if_pos (by omega),
      show l - 1 - (l - 1 - b) = b from by omega]
  · rw [if_neg hb]
    exact (Nat.testBit_lt_two_pow (lt_of_lt_of_le h
      (Nat.pow_le_pow_right (by norm_num) (by omega)))).symm

/-- A 2×2 matrix over `F`: the block of a single-target gate on one pair of
basis states. -/
@[ext] structure M2 (F : Type) where
  a : F
  b : F
  c : F
  d : F

/-- Matrix product. -/
def M2.mul {F : Type} [Field F] (M N : M2 F) : M2 F :=
  ⟨M.a * N.a + M.b * N.c, M.a * N.b + M.b * N.d,
   M.c * N.a + M.d * N.c, M.c * N.b + M.d * N.d⟩

/-- Identity block. -/
def M2.one {F : Type} [Field F] : M2 F := ⟨1, 0, 0, 1⟩

/-- The X (bit-flip) block. -/
def M2.xm {F : Type} [Field F] : M2 F := ⟨0, 1, 1, 0⟩

/-- Action of a block on a pair of amplitudes. -/
def M2.act {F : Type} [Field F] (M : M2 F) (p : F × F) : F × F :=
  (M.a * p.1 + M.b * p.2, M.c * p.1 + M.d * p.2)

/-- `X^b` for a Boolean exponent. -/
def xpow {F : Type} [Field F] : Bool → M2 F
  | true => M2.xm
  | false => M2.one

lemma M2.mul_assoc {F : Type} [Field F] (A B C : M2 F) :
    (A.mul B).mul C = A.mul (B.mul C) := by
  ext <;> simp [M2.mul] <;> ring

lemma M2.one_mul {F : Type} [Field F] (A : M2 F) : M2.one.mul A = A := by
  ext <;> simp [M2.mul, M2.one]

lemma M2.mul_one {F : Type} [Field F] (A : M2 F) : A.mul M2.one = A := by
  ext <;> simp [M2.mul, M2.one]

lemma M2.act_one {F : Type} [Field F] (p : F × F) : M2.one.act p = p := by
  simp [M2.act, M2.one]

lemma M2.act_mul {F : Type} [Field F] (A B : M2 F) (p : F × F) :
    (A.mul B).act p = A.act (B.act p) := by
  simp [M2.act, M2.mul]
  constructor <;> ring

lemma M2.xm_mul_xm {F : Type} [Field F] : (M2.xm (F := F)).mul M2.xm = M2.one := by
  ext <;> simp [M2.mul, M2.xm, M2.one]

lemma xpow_xor {F : Type} [Field F] (x y : Bool) :
    xpow (F := F) (xor x y) = (xpow x).mul (xpow y) := by
  cases x <;> cases y <;>
    simp [xpow, M2.one_mul, M2.mul_one, M2.xm_mul_xm]

lemma M2.act_zero {F : Type} [Field F] (A : M2 F) : A.act (0, 0) = (0, 0) := by
  simp [M2.act]

/-- Semantics of one emitted gate on a state vector, written as a function
from basis-state index to amplitude.  Conventions are mindquantum's: qubit
`q` is bit `q` of the basis index; a gate with control qubits acts on the
rows whose control bits are all 1; `RY(θ)` is
`[[cos(θ/2), -sin(θ/2)], [sin(θ/2), cos(θ/2)]]` and `RZ(θ)` is
`diag(exp(-iθ/2), exp(iθ/2))` on the target bit.  The numeric primitives
are parameters: `co θ`, `si θ`, `em θ`, `ep θ` model `cos(θ/2)`,
`sin(θ/2)`, `exp(-iθ/2)`, `exp(iθ/2)`; the theorems instantiate them over
`ℂ`.  The emitted circuits contain only `RY`, `RZ` and (controlled) `X`
gates; other kinds are left untouched. -/
def apply_gate {α F : Type} [Field F] (co si em ep : α → F) (g : Gate α)
    (s : ℕ → F) : ℕ → F := fun idx =>
  if g.2.2.1.all (fun c => idx.testBit c) then
    if g.1 = "X" then s (idx ^^^ 2 ^ g.2.1)
    else if g.1 = "RY" then
      match g.2.2.2 with
      | some θ =>
        if idx.testBit g.2.1 then si θ * s (idx ^^^ 2 ^ g.2.1) + co θ * s idx
        else co θ * s idx - si θ * s (idx ^^^ 2 ^ g.2.1)
      | none => s idx
    else if g.1 = "RZ" then
      match g.2.2.2 with
      | some θ => (if idx.testBit g.2.1 then ep θ else em θ) * s idx
      | none => s idx
    else s idx
  else s idx

/-- A circuit applied gate by gate, first gate first. -/
def apply_circuit {α F : Type} [Field F] (co si em ep : α → F) :
    List (Gate α) → (ℕ → F) → ℕ → F
  | [], s => s
  | g :: rest, s => apply_circuit co si em ep rest (apply_gate co si em ep g s)

/-- The all-zero input state `|0...0>`. -/
def e0 {F : Type} [Field F] : ℕ → F := fun idx => if idx = 0 then 1 else 0

/-- Source `get_prepared_state(unitary)`
(`BITBLE/mindquantum/statepreparation.py` lines 181-197) on `n` qubits: the
first column of the circuit unitary (the image of the all-zero state), read
back through `tools.reverse_index_bits`; since `new_array[reverse(i)] =
array[i]` and `revBits n` is an involution below `2^n`, entry `j` of the
result is entry `revBits n j` of the column. -/
def get_prepared_state {F : Type} (n : ℕ) (column : ℕ → F) : ℕ → F :=
  fun j => column (revBits n j)

lemma apply_circuit_append {α F : Type} [Field F] (co si em ep : α → F)
    (A B : List (Gate α)) (s : ℕ → F) :
    apply_circuit co si em ep (A ++ B) s =
      apply_circuit co si em ep B (apply_circuit co si em ep A s) := by
  induction A generalizing s with
  | nil => rfl
  | cons g rest ih =>
    simp only [List.cons_append, apply_circuit]
    exact ih _

lemma apply_gate_mul_left {α F : Type} [Field F] (co si em ep : α → F)
    (g : Gate α) (k : F) (s : ℕ → F) :
    apply_gate co si em ep g (fun idx => k * s idx) =
      fun idx => k * apply_gate co si em ep g s idx := by
  funext idx
  rw [apply_gate, apply_gate]
  rcases g with ⟨kind, q, cs, ang⟩
  by_cases hcs : cs.all (fun c => idx.testBit c)
  · simp only [hcs, if_true]
    by_cases hx : kind = "X"
    · simp [hx]
    · by_cases hry : kind = "RY"
      · simp only [hx, hry, if_false, if_true]
        match ang with
        | some θ => by_cases hb : idx.testBit q <;> simp [hb] <;> ring
        | none => rfl
      · by_cases hrz : kind = "RZ"
        · simp only [hx, hry, hrz, if_false, if_true]
          match ang with
          | some θ => by_cases hb : idx.testBit q <;> simp [hb] <;> ring
          | none => rfl
        · simp [hx, hry, hrz]
  · simp [hcs]

lemma apply_circuit_mul_left {α F : Type} [Field F] (co si em ep : α → F)
    (C : List (Gate α)) (k : F) (s : ℕ → F) :
    apply_circuit co si em ep C (fun idx => k * s idx) =
      fun idx => k * apply_circuit co si em ep C s idx := by
  induction C generalizing s with
  | nil => rfl
  | cons g rest ih =>
    simp only [apply_circuit, apply_gate_mul_left, ih]

lemma testBit_xor_two_pow_self (idx t : ℕ) :
    (idx ^^^ 2 ^ t).testBit t = ! idx.testBit t := by
  rw [Nat.testBit_xor, Nat.testBit_two_pow_self, Bool.xor_true]

lemma testBit_xor_two_pow_ne (idx t c : ℕ) (h : c ≠ t) :
    (idx ^^^ 2 ^ t).testBit c = idx.testBit c := by
  have ht : t ≠ c := fun hh => h hh.symm
  simp [Nat.testBit_xor, Nat.testBit_two_pow, ht]

lemma xor_two_pow_cancel (idx t : ℕ) : idx ^^^ 2 ^ t ^^^ 2 ^ t = idx :=
  Nat.xor_cancel_right _ idx

/-- Two states are equal once they agree on every target-bit pair. -/
lemma state_eq_of_pairs {F : Type} [Field F] (t : ℕ) (s₁ s₂ : ℕ → F)
    (h : ∀ idx, idx.testBit t = false →
      s₁ idx = s₂ idx ∧ s₁ (idx ^^^ 2 ^ t) = s₂ (idx ^^^ 2 ^ t)) :
    s₁ = s₂ := by
  funext idx
  cases hb : idx.testBit t
  · exact (h idx hb).1
  · have hb' : (idx ^^^ 2 ^ t).testBit t = false := by
      rw [testBit_xor_two_pow_self, hb, Bool.not_true]
    have h2 := (h _ hb').2
    rwa [xor_two_pow_cancel] at h2

/-! ## Semantics of the compressed uniformly controlled rotation -/

/-- Parity of the set control bits of `idx` over a pending-CNOT list. -/
def cnot_parity (idx : ℕ) (cq : List ℕ) (p : List ℕ) : Bool :=
  decide ((p.filter (fun q => idx.testBit (cq.getD q 0))).length % 2 = 1)

lemma cnot_parity_nil (idx : ℕ) (cq : List ℕ) : cnot_parity idx cq [] = false := by
  simp [cnot_parity]

lemma cnot_parity_cons (idx : ℕ) (cq : List ℕ) (q : ℕ) (p : List ℕ) :
    cnot_parity idx cq (q :: p) =
      xor (idx.testBit (cq.getD q 0)) (cnot_parity idx cq p) := by
  by_cases hq : idx.testBit (cq.getD q 0)
  · have hf : (q :: p).filter (fun q => idx.testBit (cq.getD q 0)) =
        q :: p.filter (fun q => idx.testBit (cq.getD q 0)) :=
      List.filter_cons_of_pos (by simpa using hq)
    rw [cnot_parity, hf, List.length_cons, cnot_parity, hq, Bool.true_xor]
    rcases Nat.mod_two_eq_zero_or_one
        ((p.filter (fun q => idx.testBit (cq.getD q 0))).length) with h | h <;>
      · rw [Nat.add_mod, h]
        norm_num
  · have hf : (q :: p).filter (fun q => idx.testBit (cq.getD q 0)) =
        p.filter (fun q => idx.testBit (cq.getD q 0)) :=
      List.filter_cons_of_neg (by simpa using hq)
    rw [cnot_parity, hf, cnot_parity,
      show idx.testBit (cq.getD q 0) = false from by simpa using hq, Bool.false_xor]

lemma cnot_parity_append (idx : ℕ) (cq : List ℕ) (p r : List ℕ) :
    cnot_parity idx cq (p ++ r) =
      xor (cnot_parity idx cq p) (cnot_parity idx cq r) := by
  induction p with
  | nil => simp [cnot_parity_nil]
  | cons q rest ih =>
    rw [List.cons_append, cnot_parity_cons, cnot_parity_cons, ih, Bool.xor_assoc]

lemma cnot_parity_toggle (idx : ℕ) (cq : List ℕ) (p : List ℕ) (c : ℕ) :
    cnot_parity idx cq (cur_toggle p c) =
      xor (idx.testBit (cq.getD c 0)) (cnot_parity idx cq p) := by
  rw [cur_toggle]
  by_cases hc : c ∈ p
  · rw [if_pos hc]
    have hperm : p.Perm (c :: p.erase c) := List.perm_cons_erase hc
    have hlen : (p.filter (fun q => idx.testBit (cq.getD q 0))).length =
        ((c :: p.erase c).filter (fun q => idx.testBit (cq.getD q 0))).length :=
      (hperm.filter _).length_eq
    have h1 : cnot_parity idx cq p = cnot_parity idx cq (c :: p.erase c) := by
      rw [cnot_parity, cnot_parity, hlen]
    rw [h1, cnot_parity_cons]
    cases idx.testBit (cq.getD c 0) <;>
      cases cnot_parity idx cq (p.erase c) <;> simp
  · rw [if_neg hc, cnot_parity_append, cnot_parity_cons, cnot_parity_nil]
    cases idx.testBit (cq.getD c 0) <;> cases cnot_parity idx cq p <;> simp

lemma apply_X_pair {α F : Type} [Field F] (co si em ep : α → F) (c t : ℕ)
    (hct : c ≠ t) (s : ℕ → F) (idx : ℕ) (hbit : idx.testBit t = false) :
    (apply_gate co si em ep ("X", t, [c], (none : Option α)) s idx,
      apply_gate co si em ep ("X", t, [c], (none : Option α)) s (idx ^^^ 2 ^ t)) =
      (xpow (idx.testBit c)).act (s idx, s (idx ^^^ 2 ^ t)) := by
  have hc1 : (idx ^^^ 2 ^ t).testBit c = idx.testBit c :=
    testBit_xor_two_pow_ne idx t c hct
  have ht : t ≠ c := fun hh => hct hh.symm
  rw [apply_gate, apply_gate]
  by_cases hc : idx.testBit c
  · simp [hc, hc1, xpow, M2.xm, M2.act, xor_two_pow_cancel,
      Nat.testBit_two_pow, ht]
  · simp [hc, hc1, xpow, M2.one, M2.act, Nat.testBit_two_pow, ht]

lemma cur_flush_apply {α F : Type} [Field F] (co si em ep : α → F) (t : ℕ)
    (cq : List ℕ) (hcq : ∀ q, cq.getD q 0 ≠ t) :
    ∀ (p : List ℕ) (s : ℕ → F) (idx : ℕ), idx.testBit t = false →
      (apply_circuit co si em ep (cur_flush t cq p) s idx,
        apply_circuit co si em ep (cur_flush t cq p) s (idx ^^^ 2 ^ t)) =
        (xpow (cnot_parity idx cq p)).act (s idx, s (idx ^^^ 2 ^ t)) := by
  intro p
  induction p with
  | nil =>
    intro s idx hbit
    simp [cur_flush, apply_circuit, cnot_parity_nil, xpow, M2.act_one]
  | cons q rest ih =>
    intro s idx hbit
    have hmap : cur_flush (α := α) t cq (q :: rest) =
        ("X", t, [cq.getD q 0], (none : Option α)) :: cur_flush t cq rest := by
      simp [cur_flush]
    rw [hmap, apply_circuit]
    rw [ih (apply_gate co si em ep ("X", t, [cq.getD q 0], none) s) idx hbit]
    rw [show (apply_gate co si em ep ("X", t, [cq.getD q 0], (none : Option α)) s idx,
        apply_gate co si em ep ("X", t, [cq.getD q 0], (none : Option α)) s (idx ^^^ 2 ^ t)) =
        (xpow (idx.testBit (cq.getD q 0))).act (s idx, s (idx ^^^ 2 ^ t)) from
      apply_X_pair co si em ep _ t (hcq q) s idx hbit]
    rw [← M2.act_mul, ← xpow_xor, cnot_parity_cons, Bool.xor_comm]

/-- The uncompressed reference block: step `i` contributes the rotation
`R(angles[i])` followed by the Gray-adjacency CNOT block `X^(control bit)`;
`r` steps remain. -/
def idealM {α F : Type} [Field α] [Field F] (R : α → M2 F) (angles : List α)
    (cq : List ℕ) (idx : ℕ) : ℕ → ℕ → M2 F
  | 0, _ => M2.one
  | r + 1, i =>
    (idealM R angles cq idx r (i + 1)).mul
      ((xpow (idx.testBit (cq.getD (if i ≠ angles.length - 1 then
          different_gray_codes_index i (i + 1) cq.length else 0) 0))).mul
        (R (angles.getD i 0)))

/-- The compressed loop acts on each target-bit pair exactly as the
uncompressed reference block times the pending-CNOT parity flip: CNOT
elision (the toggle list) and rotation elision (`R 0 = I` at `epsilon = 0`)
preserve the block semantics. -/
lemma compress_loop_apply {α F : Type} [LinearOrderedField α] [Field F]
    (co si em ep : α → F) (R : α → M2 F) (gate : String) (t : ℕ) (cq : List ℕ)
    (hcq : ∀ q, cq.getD q 0 ≠ t) (hR0 : R 0 = M2.one)
    (hgate : ∀ (θ : α) (s : ℕ → F) (idx : ℕ), idx.testBit t = false →
      (apply_gate co si em ep (gate, t, [], some θ) s idx,
        apply_gate co si em ep (gate, t, [], some θ) s (idx ^^^ 2 ^ t)) =
        (R θ).act (s idx, s (idx ^^^ 2 ^ t)))
    (angles : List α) :
    ∀ (r i : ℕ) (p : List ℕ) (s : ℕ → F) (idx : ℕ), idx.testBit t = false →
      (apply_circuit co si em ep (compress_loop gate t cq angles 0 r i p) s idx,
        apply_circuit co si em ep (compress_loop gate t cq angles 0 r i p) s
          (idx ^^^ 2 ^ t)) =
        ((idealM R angles cq idx r i).mul (xpow (cnot_parity idx cq p))).act
          (s idx, s (idx ^^^ 2 ^ t)) := by
  intro r
  induction r with
  | zero =>
    intro i p s idx hbit
    rw [show compress_loop gate t cq angles 0 0 i p = cur_flush t cq p from rfl]
    rw [cur_flush_apply co si em ep t cq hcq p s idx hbit]
    rw [show idealM R angles cq idx 0 i = M2.one from rfl, M2.one_mul]
  | succ r ih =>
    intro i p s idx hbit
    rw [show compress_loop gate t cq angles 0 (r + 1) i p =
      (if (0 : α) < |angles.getD i 0| then
        cur_flush t cq p ++ [(gate, t, [], some (angles.getD i 0))] else []) ++
        compress_loop gate t cq angles 0 r (i + 1)
          (cur_toggle (if (0 : α) < |angles.getD i 0| then [] else p)
            (if i ≠ angles.length - 1 then
              different_gray_codes_index i (i + 1) cq.length else 0)) from rfl]
    set ctrl := if i ≠ angles.length - 1 then
      different_gray_codes_index i (i + 1) cq.length else 0 with hctrl
    set a := angles.getD i 0 with ha
    by_cases hkeep : (0 : α) < |a|
    · rw [if_pos hkeep, if_pos hkeep]
      rw [apply_circuit_append, apply_circuit_append]
      set s1 := apply_circuit co si em ep (cur_flush t cq p) s with hs1
      set s2 := apply_circuit co si em ep [(gate, t, [], some a)] s1 with hs2
      have hpair1 : (s1 idx, s1 (idx ^^^ 2 ^ t)) =
          (xpow (cnot_parity idx cq p)).act (s idx, s (idx ^^^ 2 ^ t)) :=
        cur_flush_apply co si em ep t cq hcq p s idx hbit
      have hpair2 : (s2 idx, s2 (idx ^^^ 2 ^ t)) =
          (R a).act (s1 idx, s1 (idx ^^^ 2 ^ t)) := by
        rw [hs2, show apply_circuit co si em ep [(gate, t, [], some a)] s1 =
          apply_gate co si em ep (gate, t, [], some a) s1 from rfl]
        exact hgate a s1 idx hbit
      rw [ih (i + 1) (cur_toggle [] ctrl) s2 idx hbit]
      have htog : cur_toggle [] ctrl = [ctrl] := by simp [cur_toggle]
      rw [htog, hpair2, hpair1]
      rw [← M2.act_mul, ← M2.act_mul]
      rw [show cnot_parity idx cq [ctrl] = xor (idx.testBit (cq.getD ctrl 0)) false from
        by rw [cnot_parity_cons, cnot_parity_nil], Bool.xor_false]
      rw [show idealM R angles cq idx (r + 1) i =
        (idealM R angles cq idx r (i + 1)).mul
          ((xpow (idx.testBit (cq.getD ctrl 0))).mul (R a)) from rfl]
      rw [M2.mul_assoc, M2.mul_assoc]
      rw [← M2.mul_assoc (xpow (idx.testBit (cq.getD ctrl 0))) (R a)
        (xpow (cnot_parity idx cq p))]
      rw [← M2.mul_assoc (idealM R angles cq idx r (i + 1))
        ((xpow (idx.testBit (cq.getD ctrl 0))).mul (R a)) (xpow (cnot_parity idx cq p))]
    · rw [if_neg hkeep, if_neg hkeep, List.nil_append]
      have ha0 : a = 0 := by
        have h1 : |a| ≤ 0 := not_lt.mp hkeep
        have h2 : (0 : α) ≤ |a| := abs_nonneg a
        exact abs_eq_zero.mp (le_antisymm h1 h2)
      rw [ih (i + 1) (cur_toggle p ctrl) s idx hbit]
      rw [cnot_parity_toggle]
      rw [show idealM R angles cq idx (r + 1) i =
        (idealM R angles cq idx r (i + 1)).mul
          ((xpow (idx.testBit (cq.getD ctrl 0))).mul (R a)) from rfl]
      rw [ha0, hR0, M2.mul_one, xpow_xor, M2.mul_assoc]

/-- Control-bit parity accumulated over steps `i, ..., i+r-1` of the Gray
cycle (the exponent of `X` in the normal form of the reference block). -/
def Epar (cq : List ℕ) (N idx : ℕ) : ℕ → ℕ → Bool
  | 0, _ => false
  | r + 1, i =>
    xor (idx.testBit (cq.getD (if i ≠ N - 1 then
      different_gray_codes_index i (i + 1) cq.length else 0) 0))
      (Epar cq N idx r (i + 1))

/-- Signed angle sum of the reference block in normal form: each step's
angle enters with the sign given by the control-bit parity of the steps
before it. -/
def Ssum {α : Type} [Field α] (cq : List ℕ) (angles : List α) (idx : ℕ) :
    ℕ → ℕ → α
  | 0, _ => 0
  | r + 1, i =>
    angles.getD i 0 +
      (if idx.testBit (cq.getD (if i ≠ angles.length - 1 then
          different_gray_codes_index i (i + 1) cq.length else 0) 0) then
        -Ssum cq angles idx r (i + 1) else Ssum cq angles idx r (i + 1))

lemma xpow_mul_xm {F : Type} [Field F] (e : Bool) :
    (xpow (F := F) e).mul M2.xm = xpow (xor true e) := by
  cases e <;> simp [xpow, M2.one_mul, M2.mul_one, M2.xm_mul_xm]

/-- Normal form `X^E · R(S)` of the reference block. -/
lemma idealM_closed {α F : Type} [Field α] [Field F] (R : α → M2 F)
    (hRmul : ∀ x y, (R x).mul (R y) = R (x + y)) (hR0 : R 0 = M2.one)
    (hXR : ∀ x, M2.xm.mul (R x) = (R (-x)).mul M2.xm)
    (angles : List α) (cq : List ℕ) (idx : ℕ) :
    ∀ r i, idealM R angles cq idx r i =
      (xpow (Epar cq angles.length idx r i)).mul (R (Ssum cq angles idx r i)) := by
  have hswap : ∀ x : α, (R x).mul M2.xm = M2.xm.mul (R (-x)) := by
    intro x
    rw [hXR (-x), neg_neg]
  intro r
  induction r with
  | zero =>
    intro i
    rw [show idealM R angles cq idx 0 i = M2.one from rfl,
      show Epar cq angles.length idx 0 i = false from rfl,
      show Ssum cq angles idx 0 i = (0 : α) from rfl, hR0,
      show xpow (F := F) false = M2.one from rfl, M2.one_mul]
  | succ r ih =>
    intro i
    rw [show idealM R angles cq idx (r + 1) i =
      (idealM R angles cq idx r (i + 1)).mul
        ((xpow (idx.testBit (cq.getD (if i ≠ angles.length - 1 then
            different_gray_codes_index i (i + 1) cq.length else 0) 0))).mul
          (R (angles.getD i 0))) from rfl, ih]
    rw [show Epar cq angles.length idx (r + 1) i =
      xor (idx.testBit (cq.getD (if i ≠ angles.length - 1 then
        different_gray_codes_index i (i + 1) cq.length else 0) 0))
        (Epar cq angles.length idx r (i + 1)) from rfl]
    rw [show Ssum cq angles idx (r + 1) i =
      angles.getD i 0 +
        (if idx.testBit (cq.getD (if i ≠ angles.length - 1 then
            different_gray_codes_index i (i + 1) cq.length else 0) 0) then
          -Ssum cq angles idx r (i + 1) else Ssum cq angles idx r (i + 1)) from rfl]
    set b := idx.testBit (cq.getD (if i ≠ angles.length - 1 then
      different_gray_codes_index i (i + 1) cq.length else 0) 0) with hb
    set E := Epar cq angles.length idx r (i + 1) with hE
    set S := Ssum cq angles idx r (i + 1) with hS
    set a := angles.getD i 0 with ha
    cases b
    · rw [show xpow (F := F) false = M2.one from rfl, M2.one_mul, if_neg (by simp)]
      rw [M2.mul_assoc, hRmul, Bool.false_xor, add_comm S a]
    · rw [show xpow (F := F) true = M2.xm from rfl, if_pos rfl]
      calc ((xpow E).mul (R S)).mul (M2.xm.mul (R a))
          = (xpow E).mul ((R S).mul (M2.xm.mul (R a))) := by
            rw [M2.mul_assoc]
        _ = (xpow E).mul (((R S).mul M2.xm).mul (R a)) := by
            rw [M2.mul_assoc]
        _ = (xpow E).mul ((M2.xm.mul (R (-S))).mul (R a)) := by
            rw [hswap]
        _ = (xpow E).mul (M2.xm.mul ((R (-S)).mul (R a))) := by
            rw [M2.mul_assoc]
        _ = (xpow E).mul (M2.xm.mul (R (-S + a))) := by
            rw [hRmul]
        _ = ((xpow E).mul M2.xm).mul (R (-S + a)) := by
            rw [M2.mul_assoc]
        _ = (xpow (xor true E)).mul (R (a + -S)) := by
            rw [xpow_mul_xm, add_comm]

lemma getD_range (n i : ℕ) (h : i < n) : (List.range n).getD i 0 = i := by
  rw [List.getD_eq_getElem _ _ (by simpa using h)]
  simp

/-- One Gray-cycle step below the wrap: the flipped bit `t` is the 2-adic
valuation of `i + 1`, and `different_gray_codes_index` returns `l - 1 - t`. -/
lemma gray_step (l i : ℕ) (hi : i + 1 < 2 ^ l) :
    ∃ t, t < l ∧ gray_code (i + 1) = gray_code i ^^^ 2 ^ t ∧
      different_gray_codes_index i (i + 1) l = l - 1 - t := by
  obtain ⟨t, a, hta⟩ := exists_lowbit_decomp (i + 1) (by omega)
  have hxor : gray_code i ^^^ gray_code (i + 1) = 2 ^ t := gray_succ_xor hta
  have htl : t < l := by
    have h1 : 2 ^ t ≤ i + 1 := by rw [hta]; omega
    have h2 : 2 ^ t < 2 ^ l := by omega
    exact (Nat.pow_lt_pow_iff_right (by norm_num : 1 < 2)).mp h2
  refine ⟨t, htl, ?_, ?_⟩
  · rw [← hxor, ← Nat.xor_assoc, Nat.xor_self, Nat.zero_xor]
  · rw [different_gray_codes_index, hxor, log2_pow]

lemma bparity_zero : ∀ n, bparity n 0 = false
  | 0 => rfl
  | n + 1 => by
    rw [bparity]
    simp [bparity_zero n]

lemma bparity_xor : ∀ (n a b : ℕ),
    bparity n (a ^^^ b) = xor (bparity n a) (bparity n b)
  | 0, _, _ => rfl
  | n + 1, a, b => by
    rw [bparity, bparity, bparity, Nat.testBit_xor, xor_shiftRight_distrib,
      bparity_xor n (a >>> 1) (b >>> 1)]
    cases a.testBit 0 <;> cases b.testBit 0 <;>
      cases bparity n (a >>> 1) <;> cases bparity n (b >>> 1) <;> simp

lemma land_two_pow (t x : ℕ) :
    2 ^ t &&& x = if x.testBit t then 2 ^ t else 0 := by
  apply Nat.eq_of_testBit_eq
  intro j
  cases h : x.testBit t
  · simp only [h, if_false, Nat.testBit_land, Nat.zero_testBit]
    by_cases hj : j = t
    · subst hj
      simp [h]
    · have ht : ¬ t = j := fun hh => hj hh.symm
      simp [Nat.testBit_two_pow, ht]
  · simp only [h, if_true, Nat.testBit_land]
    by_cases hj : j = t
    · subst hj
      simp [h]
    · have ht : ¬ t = j := fun hh => hj hh.symm
      simp [Nat.testBit_two_pow, ht]

lemma bparity_two_pow : ∀ (l t : ℕ), t < l → bparity l (2 ^ t) = true
  | 0, t, h => by omega
  | l + 1, 0, _ => by
    rw [bparity]
    simp [bparity_zero l]
  | l + 1, t + 1, h => by
    rw [bparity]
    have h1 : ((2 : ℕ) ^ (t + 1)).testBit 0 = false := by
      simp [Nat.testBit_zero, pow_succ, Nat.mul_mod_left]
    have h2 : (2 : ℕ) ^ (t + 1) >>> 1 = 2 ^ t := by
      rw [Nat.shiftRight_one, pow_succ]
      omega
    rw [h1, h2, bparity_two_pow l t (by omega)]
    simp

lemma bparity_land_two_pow (l t C : ℕ) (ht : t < l) :
    bparity l (2 ^ t &&& C) = C.testBit t := by
  rw [land_two_pow]
  cases h : C.testBit t
  · simp [bparity_zero]
  · simp [bparity_two_pow l t ht]

lemma gray_last (l : ℕ) (hl : 1 ≤ l) : gray_code (2 ^ l - 1) = 2 ^ (l - 1) := by
  have h2 : (2 : ℕ) ^ l = 2 * 2 ^ (l - 1) := by
    nth_rewrite 1 [show l = l - 1 + 1 from by omega]
    rw [pow_succ]
    ring
  have hsh : (2 ^ l - 1) >>> 1 = 2 ^ (l - 1) - 1 := by
    rw [Nat.shiftRight_one]
    omega
  rw [gray_code, hsh]
  apply Nat.eq_of_testBit_eq
  intro j
  rw [Nat.testBit_xor, Nat.testBit_two_pow_sub_one, Nat.testBit_two_pow_sub_one,
    Nat.testBit_two_pow]
  rcases lt_trichotomy j (l - 1) with hj | hj | hj
  · simp [show j < l from by omega, hj, show ¬ l - 1 = j from by omega]
  · simp [show j < l from by omega, show ¬ j < l - 1 from by omega,
      show l - 1 = j from by omega]
  · simp [show ¬ j < l from by omega, show ¬ j < l - 1 from by omega,
      show ¬ l - 1 = j from by omega]

/-- Control bit consumed at Gray step `i` equals the change of the
control-pattern parity of the Gray code across the step (wrapping to Gray
code 0 after the last step). -/
lemma gray_window_step (l : ℕ) (hl : 1 ≤ l) (idx i : ℕ) (hi : i < 2 ^ l) :
    idx.testBit ((List.range l).getD (if i ≠ 2 ^ l - 1 then
        different_gray_codes_index i (i + 1) l else 0) 0) =
      xor (bparity l ((if i + 1 = 2 ^ l then 0 else gray_code (i + 1)) &&& revBits l idx))
        (bparity l (gray_code i &&& revBits l idx)) := by
  by_cases hlast : i = 2 ^ l - 1
  · have h2 : 2 ≤ 2 ^ l := by
      calc (2 : ℕ) = 2 ^ 1 := by norm_num
      _ ≤ 2 ^ l := Nat.pow_le_pow_right (by norm_num) hl
    rw [if_neg (by omega : ¬ i ≠ 2 ^ l - 1), if_pos (by omega : i + 1 = 2 ^ l)]
    rw [getD_range l 0 (by omega), hlast, gray_last l hl, Nat.zero_and,
      bparity_zero, Bool.false_xor,
      bparity_land_two_pow l (l - 1) (revBits l idx) (by omega)]
    rw [testBit_revBits, if_pos (by omega : l - 1 < l),
      show l - 1 - (l - 1) = 0 from by omega]
  · have hi1 : i + 1 < 2 ^ l := by omega
    obtain ⟨t, htl, hg, hd⟩ := gray_step l i hi1
    rw [if_pos hlast, if_neg (by omega : ¬ i + 1 = 2 ^ l), hd,
      getD_range l (l - 1 - t) (by omega), hg, Nat.and_xor_distrib_right,
      bparity_xor, bparity_land_two_pow l t (revBits l idx) htl]
    rw [testBit_revBits, if_pos htl]
    cases h1 : bparity l (gray_code i &&& revBits l idx) <;>
      cases h2 : idx.testBit (l - 1 - t) <;> simp [h1, h2]

/-- The accumulated control parity over a window of the Gray cycle is the
parity difference of the endpoint Gray codes. -/
lemma Epar_range_eval (l : ℕ) (hl : 1 ≤ l) (idx : ℕ) :
    ∀ r i, i + r ≤ 2 ^ l →
      Epar (List.range l) (2 ^ l) idx r i =
        xor (bparity l ((if i + r = 2 ^ l then 0 else gray_code (i + r)) &&& revBits l idx))
          (bparity l ((if i = 2 ^ l then 0 else gray_code i) &&& revBits l idx)) := by
  intro r
  induction r with
  | zero =>
    intro i _
    rw [show Epar (List.range l) (2 ^ l) idx 0 i = false from rfl, Nat.add_zero,
      Bool.xor_self]
  | succ r ih =>
    intro i hir
    have hilt : i < 2 ^ l := by omega
    rw [show Epar (List.range l) (2 ^ l) idx (r + 1) i =
      xor (idx.testBit ((List.range l).getD (if i ≠ 2 ^ l - 1 then
        different_gray_codes_index i (i + 1) (List.range l).length else 0) 0))
        (Epar (List.range l) (2 ^ l) idx r (i + 1)) from rfl]
    rw [List.length_range, ih (i + 1) (by omega),
      gray_window_step l hl idx i hilt, if_neg (by omega : ¬ i = 2 ^ l),
      show i + 1 + r = i + (r + 1) from by omega]
    cases bparity l ((if i + (r + 1) = 2 ^ l then 0 else gray_code (i + (r + 1))) &&& revBits l idx) <;>
      cases bparity l ((if i + 1 = 2 ^ l then 0 else gray_code (i + 1)) &&& revBits l idx) <;>
      cases bparity l (gray_code i &&& revBits l idx) <;> simp

/-- The signed angle sum, written against the accumulated parities. -/
lemma Ssum_eq_sum_Epar {α : Type} [Field α] (cq : List ℕ) (angles : List α)
    (idx : ℕ) :
    ∀ r i, Ssum cq angles idx r i =
      ∑ j in Finset.range r,
        (if Epar cq angles.length idx j i then (-1 : α) else 1) *
          angles.getD (i + j) 0 := by
  intro r
  induction r with
  | zero => intro i; simp [show Ssum cq angles idx 0 i = (0 : α) from rfl]
  | succ r ih =>
    intro i
    set b := idx.testBit (cq.getD (if i ≠ angles.length - 1 then
      different_gray_codes_index i (i + 1) cq.length else 0) 0) with hbdef
    rw [show Ssum cq angles idx (r + 1) i = angles.getD i 0 +
      (if b then -Ssum cq angles idx r (i + 1) else Ssum cq angles idx r (i + 1))
      from rfl]
    rw [Finset.sum_range_succ']
    have h0 : Epar cq angles.length idx 0 i = false := rfl
    have hstep : ∀ j, Epar cq angles.length idx (j + 1) i =
        xor b (Epar cq angles.length idx j (i + 1)) := fun j => rfl
    have hsum : ∀ j, (if Epar cq angles.length idx (j + 1) i then (-1 : α) else 1) *
        angles.getD (i + (j + 1)) 0 =
        (if b then (-1 : α) else 1) *
          ((if Epar cq angles.length idx j (i + 1) then (-1 : α) else 1) *
            angles.getD (i + 1 + j) 0) := by
      intro j
      rw [hstep j, show i + (j + 1) = i + 1 + j from by omega]
      cases b <;> cases Epar cq angles.length idx j (i + 1) <;> simp <;> ring
    rw [Finset.sum_congr rfl (fun j _ => hsum j), ← Finset.mul_sum, ← ih (i + 1)]
    have h0' : (if Epar cq angles.length idx 0 i then (-1 : α) else 1) = 1 := by
      rw [h0]
      simp
    rw [h0', one_mul, Nat.add_zero]
    cases b <;> simp <;> ring

/-! ## Recovery of the original angles from the Gray-ordered transform -/

lemma posSum_eq_sum {α : Type} [Field α] (g : ℕ → α) :
    ∀ (v : List α) (j0 : ℕ),
      posSum g j0 v = ∑ j in Finset.range v.length, g (j0 + j) * v.getD j 0
  | [], _ => by simp [posSum]
  | a :: rest, j0 => by
    rw [posSum, List.length_cons, Finset.sum_range_succ',
      posSum_eq_sum g rest (j0 + 1)]
    simp only [List.getD_cons_succ, List.getD_cons_zero, Nat.add_zero]
    rw [add_comm]
    congr 1
    apply Finset.sum_congr rfl
    intro j _
    rw [show j0 + (j + 1) = j0 + 1 + j from by omega]

lemma getD_replicate_zero {α : Type} [Field α] (k j : ℕ) :
    (List.replicate k (0 : α)).getD j 0 = 0 := by
  by_cases h : j < k
  · rw [List.getD_eq_getElem _ _ (by simpa using h)]
    simp
  · exact List.getD_eq_default _ _ (by simpa using not_lt.mp h)

lemma getD_replicate_one {α : Type} [Field α] (k j : ℕ) (h : j < k) :
    (List.replicate k (1 : α)).getD j 0 = 1 := by
  rw [List.getD_eq_getElem _ _ (by simpa using h)]
  simp

lemma pairMap_replicate {α : Type} (f : α → α → α) (c : α) :
    ∀ m, pairMap f (List.replicate m c) = List.replicate (m / 2) (f c c)
  | 0 => by simp [pairMap]
  | 1 => by simp [pairMap]
  | m + 2 => by
    rw [show List.replicate (m + 2) c = c :: c :: List.replicate m c from rfl,
      pairMap, pairMap_replicate f c m,
      show (m + 2) / 2 = m / 2 + 1 from by omega]
    rfl

lemma interleave_replicate_zero {α : Type} [Field α] :
    ∀ k : ℕ, interleave (List.replicate k (0 : α)) (List.replicate k 0) =
      List.replicate (2 * k) 0
  | 0 => by simp [interleave]
  | k + 1 => by
    rw [show List.replicate (k + 1) (0 : α) = 0 :: List.replicate k 0 from rfl,
      interleave, interleave_replicate_zero k,
      show 2 * (k + 1) = 2 * k + 1 + 1 from by omega]
    rfl

lemma sfwht_replicate_zero {α : Type} [LinearOrderedField α] :
    ∀ n : ℕ, sfwht (List.replicate (2 ^ n) (0 : α)) = List.replicate (2 ^ n) 0
  | 0 => by
    rw [sfwht]
    simp
  | n + 1 => by
    have h2 : ¬ (List.replicate (2 ^ (n + 1)) (0 : α)).length ≤ 1 := by
      simp only [List.length_replicate]
      have h1 : 2 ≤ 2 ^ (n + 1) := by
        calc (2 : ℕ) = 2 ^ 1 := by norm_num
        _ ≤ 2 ^ (n + 1) := Nat.pow_le_pow_right (by norm_num) (by omega)
      omega
    rw [sfwht]
    simp only [h2, dite_false]
    rw [pairMap_replicate, pairMap_replicate,
      show (2 : ℕ) ^ (n + 1) / 2 = 2 ^ n from by
        rw [pow_succ]; omega]
    rw [show ((0 : α) + 0) / 2 = 0 from by norm_num,
      show ((0 : α) - 0) / 2 = 0 from by norm_num,
      sfwht_replicate_zero n, interleave_replicate_zero,
      show 2 * 2 ^ n = 2 ^ (n + 1) from by rw [pow_succ]; ring]

lemma sfwht_replicate_one {α : Type} [LinearOrderedField α] :
    ∀ (n : ℕ) (d : ℕ),
      (sfwht (List.replicate (2 ^ n) (1 : α))).getD d 0 =
        if d = 0 then 1 else 0
  | 0, d => by
    rw [sfwht]
    match d with
    | 0 => simp
    | d + 1 => simp
  | n + 1, d => by
    have h2 : ¬ (List.replicate (2 ^ (n + 1)) (1 : α)).length ≤ 1 := by
      simp only [List.length_replicate]
      have h1 : 2 ≤ 2 ^ (n + 1) := by
        calc (2 : ℕ) = 2 ^ 1 := by norm_num
        _ ≤ 2 ^ (n + 1) := Nat.pow_le_pow_right (by norm_num) (by omega)
      omega
    rw [sfwht]
    simp only [h2, dite_false]
    rw [pairMap_replicate, pairMap_replicate,
      show (2 : ℕ) ^ (n + 1) / 2 = 2 ^ n from by
        rw [pow_succ]; omega,
      show ((1 : α) + 1) / 2 = 1 from by norm_num,
      show ((1 : α) - 1) / 2 = 0 from by norm_num,
      sfwht_replicate_zero n]
    have hA : (sfwht (List.replicate (2 ^ n) (1 : α))).length = 2 ^ n :=
      sfwht_length_pow n _ (by simp)
    obtain ⟨d', s, hs, rfl⟩ : ∃ d' s, s < 2 ∧ d = 2 * d' + s :=
      ⟨d / 2, d % 2, by omega, by omega⟩
    rcases (by omega : s = 0 ∨ s = 1) with rfl | rfl
    · rw [Nat.add_zero]
      by_cases hd : d' < 2 ^ n
      · rw [interleave_getD_even _ _ d' (by simp [hA]) (by omega : d' < _)]
        rw [sfwht_replicate_one n d']
        by_cases h0 : d' = 0 <;> simp [h0]
      · rw [List.getD_eq_default _ _ (by
          rw [interleave_length, hA, List.length_replicate]; omega)]
        rw [if_neg (by
          have h1 : 1 ≤ 2 ^ n := Nat.one_le_two_pow
          omega)]
    · by_cases hd : d' < 2 ^ n
      · rw [interleave_getD_odd _ _ d' (by simp [hA]) (by
          rw [List.length_replicate]; omega)]
        rw [getD_replicate_zero, if_neg (by omega)]
      · rw [List.getD_eq_default _ _ (by
          rw [interleave_length, hA, List.length_replicate]; omega)]
        rw [if_neg (by omega)]

/-- Hadamard-type orthogonality: the signed sums of `(-1)^popcount(x & d)`
over a full power-of-two range vanish except at `d = 0`. -/
lemma sum_sgnb {α : Type} [LinearOrderedField α] (l d : ℕ) (hd : d < 2 ^ l) :
    ∑ x in Finset.range (2 ^ l), sgnb (α := α) l x d =
      if d = 0 then (2 ^ l : α) else 0 := by
  have hspec := sfwht_spec l (List.replicate (2 ^ l) (1 : α)) (by simp) d hd
  rw [sfwht_replicate_one l d, posSum_eq_sum, List.length_replicate] at hspec
  have hsum : ∑ j in Finset.range (2 ^ l),
      sgnb (α := α) l d (0 + j) * (List.replicate (2 ^ l) (1 : α)).getD j 0 =
      ∑ j in Finset.range (2 ^ l), sgnb (α := α) l d j := by
    apply Finset.sum_congr rfl
    intro j hj
    rw [Finset.mem_range] at hj
    rw [getD_replicate_one _ _ hj, mul_one, Nat.zero_add]
  rw [hsum] at hspec
  have hflip : ∑ j in Finset.range (2 ^ l), sgnb (α := α) l d j =
      ∑ x in Finset.range (2 ^ l), sgnb (α := α) l x d := by
    apply Finset.sum_congr rfl
    intro j _
    rw [sgnb, sgnb, Nat.land_comm]
  rw [hflip] at hspec
  have h2 : (2 ^ l : α) ≠ 0 := by positivity
  have hmul := congrArg (fun z => (2 ^ l : α) * z) hspec
  simp only at hmul
  rw [← mul_assoc, mul_inv_cancel₀ h2, one_mul] at hmul
  rw [← hmul]
  by_cases h0 : d = 0 <;> simp [h0]

lemma gray_code_inj {a b : ℕ} (h : gray_code a = gray_code b) : a = b := by
  have hb : ∀ j, (a ^^^ b).testBit j = ((a ^^^ b) >>> 1).testBit j := by
    intro j
    have hj := congrArg (fun x => x.testBit j) h
    simp only [gray_code, Nat.testBit_xor, Nat.testBit_shiftRight] at hj
    simp only [Nat.testBit_xor, Nat.testBit_shiftRight]
    cases h1 : a.testBit j <;> cases h2 : b.testBit j <;>
      cases h3 : a.testBit (1 + j) <;> cases h4 : b.testBit (1 + j) <;>
      simp_all
  have hy : a ^^^ b = (a ^^^ b) >>> 1 := Nat.eq_of_testBit_eq hb
  rw [Nat.shiftRight_one] at hy
  have hy0 : a ^^^ b = 0 := by omega
  exact Nat.xor_eq_zero.mp hy0

lemma sgnb_mul {α : Type} [Field α] (l x C m : ℕ) :
    sgnb (α := α) l x C * sgnb l x m = sgnb l x (C ^^^ m) := by
  rw [sgnb, sgnb, sgnb, Nat.and_xor_distrib_left, bparity_xor]
  cases h1 : bparity l (x &&& C) <;> cases h2 : bparity l (x &&& m) <;>
    simp [h1, h2]

/-- Reindexing a sum over the full range by the Gray permutation. -/
lemma sum_gray_reindex {α : Type} [Field α] (l : ℕ) (f : ℕ → α) :
    ∑ x in Finset.range (2 ^ l), f (gray_code x) =
      ∑ y in Finset.range (2 ^ l), f y := by
  have hmaps : ∀ x ∈ Finset.range (2 ^ l), gray_code x ∈ Finset.range (2 ^ l) := by
    intro x hx
    rw [Finset.mem_range] at hx ⊢
    exact gray_code_lt hx
  have hinj : ∀ x ∈ Finset.range (2 ^ l), ∀ y ∈ Finset.range (2 ^ l),
      gray_code x = gray_code y → x = y := fun x _ y _ h => gray_code_inj h
  have hsurj : ∀ y ∈ Finset.range (2 ^ l), ∃ x, ∃ hx : x ∈ Finset.range (2 ^ l),
      gray_code x = y := by
    intro y hy
    obtain ⟨x, hx, hfx⟩ := Finset.surj_on_of_inj_on_of_card_le
      (s := Finset.range (2 ^ l)) (t := Finset.range (2 ^ l))
      (f := fun x _ => gray_code x) (fun x hx => hmaps x hx)
      (fun x y hx hy h => hinj x hx y hy h) (le_refl _) y hy
    exact ⟨x, hx, hfx.symm⟩
  exact Finset.sum_bij (fun a _ => gray_code a) hmaps hinj hsurj (fun a _ => rfl)

lemma uniformly_rotation_angles_length {α : Type} [Field α] (l : ℕ)
    (θs : List α) (hθ : θs.length = 2 ^ l) :
    (uniformly_rotation_angles θs).length = 2 ^ l := by
  rw [uniformly_rotation_angles, gray_permutation, List.length_map,
    List.length_range, sfwht_length_pow l θs hθ]

/-- Over the full Gray cycle every control bit is toggled an even number of
times: the residual `X` exponent vanishes. -/
lemma Epar_full_eval (l : ℕ) (hl : 1 ≤ l) (idx : ℕ) :
    Epar (List.range l) (2 ^ l) idx (2 ^ l) 0 = false := by
  rw [Epar_range_eval l hl idx (2 ^ l) 0 (by omega), Nat.zero_add, if_pos rfl,
    if_neg (by have h1 : 1 ≤ 2 ^ l := Nat.one_le_two_pow; omega : ¬ (0 : ℕ) = 2 ^ l),
    show gray_code 0 = 0 from rfl]
  simp [bparity_zero]

/-- The total signed angle collected on the control pattern of `idx` is the
original angle at index `revBits l idx`: the sign pattern is the row of the
Hadamard-type matrix that inverts `sfwht`-then-`gray_permutation`. -/
lemma Ssum_full_eval {α : Type} [LinearOrderedField α] (l : ℕ) (hl : 1 ≤ l)
    (θs : List α) (hθ : θs.length = 2 ^ l) (idx : ℕ) :
    Ssum (List.range l) (uniformly_rotation_angles θs) idx (2 ^ l) 0 =
      θs.getD (revBits l idx) 0 := by
  have hN := uniformly_rotation_angles_length l θs hθ
  have hslen := sfwht_length_pow l θs hθ
  set C := revBits l idx with hC
  have hC2 : C < 2 ^ l := revBits_lt l idx
  rw [Ssum_eq_sum_Epar, hN]
  have hterm : ∀ j, j < 2 ^ l →
      (if Epar (List.range l) (2 ^ l) idx j 0 then (-1 : α) else 1) *
        (uniformly_rotation_angles θs).getD (0 + j) 0 =
      (2 ^ l : α)⁻¹ * ∑ m in Finset.range (2 ^ l),
        sgnb l (gray_code j) (C ^^^ m) * θs.getD m 0 := by
    intro j hj
    have hEj : Epar (List.range l) (2 ^ l) idx j 0 =
        bparity l (gray_code j &&& C) := by
      rw [Epar_range_eval l hl idx j 0 (by omega), Nat.zero_add,
        if_neg (by omega : ¬ j = 2 ^ l),
        if_neg (by have h1 : 1 ≤ 2 ^ l := Nat.one_le_two_pow
                   omega : ¬ (0 : ℕ) = 2 ^ l),
        show gray_code 0 = 0 from rfl, Nat.zero_and, bparity_zero, Bool.xor_false]
    have hgetd : (uniformly_rotation_angles θs).getD (0 + j) 0 =
        (2 ^ l : α)⁻¹ * posSum (sgnb l (gray_code j)) 0 θs := by
      rw [Nat.zero_add, uniformly_rotation_angles, gray_permutation, hslen,
        getD_range_map _ _ _ _ hj, sfwht_spec l θs hθ (gray_code j) (gray_code_lt hj)]
    rw [hEj, hgetd, posSum_eq_sum, hθ]
    rw [show (if bparity l (gray_code j &&& C) then (-1 : α) else 1) =
      sgnb l (gray_code j) C from rfl]
    rw [← mul_assoc, mul_comm (sgnb (α := α) l (gray_code j) C) ((2 ^ l : α)⁻¹),
      mul_assoc, Finset.mul_sum]
    congr 1
    apply Finset.sum_congr rfl
    intro m _
    rw [Nat.zero_add, ← mul_assoc, sgnb_mul]
  rw [Finset.sum_congr rfl (fun j hj => hterm j (Finset.mem_range.mp hj)),
    ← Finset.mul_sum]
  rw [show (∑ j in Finset.range (2 ^ l), ∑ m in Finset.range (2 ^ l),
      sgnb (α := α) l (gray_code j) (C ^^^ m) * θs.getD m 0) =
    ∑ j in Finset.range (2 ^ l), (fun x => ∑ m in Finset.range (2 ^ l),
      sgnb (α := α) l x (C ^^^ m) * θs.getD m 0) (gray_code j) from rfl]
  rw [sum_gray_reindex l (fun x => ∑ m in Finset.range (2 ^ l),
    sgnb (α := α) l x (C ^^^ m) * θs.getD m 0)]
  rw [Finset.sum_comm]
  have hinner : ∀ m, m < 2 ^ l →
      ∑ x in Finset.range (2 ^ l), sgnb (α := α) l x (C ^^^ m) * θs.getD m 0 =
      (if C = m then (2 ^ l : α) else 0) * θs.getD m 0 := by
    intro m hm
    rw [← Finset.sum_mul, sum_sgnb l (C ^^^ m) (Nat.xor_lt_two_pow hC2 hm)]
    simp only [Nat.xor_eq_zero]
  rw [Finset.sum_congr rfl (fun m hm => hinner m (Finset.mem_range.mp hm))]
  have hsplit : ∀ m ∈ Finset.range (2 ^ l),
      (if C = m then (2 ^ l : α) else 0) * θs.getD m 0 =
      if C = m then (2 ^ l : α) * θs.getD m 0 else 0 := by
    intro m _
    by_cases h : C = m <;> simp [h]
  rw [Finset.sum_congr rfl hsplit,
    Finset.sum_ite_eq (Finset.range (2 ^ l)) C
      (fun m => (2 ^ l : α) * θs.getD m 0),
    if_pos (Finset.mem_range.mpr hC2)]
  rw [← mul_assoc, inv_mul_cancel₀ (by positivity : (2 ^ l : α) ≠ 0), one_mul]

/-- Block semantics of the whole compressed uniformly controlled rotation at
`epsilon = 0`, for an abstract rotation family `R`: on the target-bit pair of
any `idx`, the circuit built from the Gray-transformed angles applies exactly
`R(theta[revBits l idx])`, the rotation selected by the control pattern. -/
theorem compress_apply {α F : Type} [LinearOrderedField α] [Field F]
    (co si em ep : α → F) (R : α → M2 F) (gate : String) (l : ℕ) (hl : 1 ≤ l)
    (hR0 : R 0 = M2.one)
    (hRmul : ∀ x y, (R x).mul (R y) = R (x + y))
    (hXR : ∀ x, M2.xm.mul (R x) = (R (-x)).mul M2.xm)
    (hgate : ∀ (θ : α) (s : ℕ → F) (idx : ℕ), idx.testBit l = false →
      (apply_gate co si em ep (gate, l, [], some θ) s idx,
        apply_gate co si em ep (gate, l, [], some θ) s (idx ^^^ 2 ^ l)) =
        (R θ).act (s idx, s (idx ^^^ 2 ^ l)))
    (θs : List α) (hθ : θs.length = 2 ^ l) (s : ℕ → F) (idx : ℕ)
    (hbit : idx.testBit l = false) :
    (apply_circuit co si em ep (compress_uniformly_rotation gate l (List.range l)
        (uniformly_rotation_angles θs) 0) s idx,
      apply_circuit co si em ep (compress_uniformly_rotation gate l (List.range l)
        (uniformly_rotation_angles θs) 0) s (idx ^^^ 2 ^ l)) =
      (R (θs.getD (revBits l idx) 0)).act (s idx, s (idx ^^^ 2 ^ l)) := by
  have hcq : ∀ q, (List.range l).getD q 0 ≠ l := by
    intro q
    by_cases hq : q < l
    · rw [getD_range l q hq]
      omega
    · rw [List.getD_eq_default _ _ (by simpa using not_lt.mp hq)]
      omega
  have hN := uniformly_rotation_angles_length l θs hθ
  rw [compress_uniformly_rotation]
  rw [compress_loop_apply co si em ep R gate l (List.range l) hcq hR0 hgate
    (uniformly_rotation_angles θs) (uniformly_rotation_angles θs).length 0 [] s idx hbit]
  rw [cnot_parity_nil, show xpow (F := F) false = M2.one from rfl, M2.mul_one]
  rw [idealM_closed R hRmul hR0 hXR]
  rw [hN, Epar_full_eval l hl idx, Ssum_full_eval l hl θs hθ idx]
  rw [show xpow (F := F) false = M2.one from rfl, M2.one_mul]

/-! ## Structure of the angle arrays as binary-tree layers -/

lemma getD_append_left {α : Type} (l1 l2 : List α) (i : ℕ) (h : i < l1.length)
    (d : α) : (l1 ++ l2).getD i d = l1.getD i d := by
  rw [List.getD_eq_getElem _ _ (by simp; omega), List.getD_eq_getElem _ _ h]
  exact List.getElem_append_left h

lemma pairMap_append {α : Type} (f : α → α → α) :
    ∀ (u v : List α), u.length % 2 = 0 →
      pairMap f (u ++ v) = pairMap f u ++ pairMap f v
  | [], v, _ => by simp [pairMap]
  | [a], v, h => by simp at h
  | a :: b :: rest, v, h => by
    simp only [List.cons_append, pairMap, List.length_cons] at *
    exact congrArg (List.cons (f a b)) (pairMap_append f rest v (by omega))

lemma getD_pairMap {α : Type} [Field α] (f : α → α → α) :
    ∀ (w : List α) (c : ℕ), 2 * c + 1 < w.length →
      (pairMap f w).getD c 0 = f (w.getD (2 * c) 0) (w.getD (2 * c + 1) 0)
  | [], c, h => by simp at h
  | [a], c, h => by simp at h
  | a :: b :: rest, 0, h => by simp [pairMap]
  | a :: b :: rest, c + 1, h => by
    rw [pairMap, List.getD_cons_succ,
      getD_pairMap f rest c (by simp only [List.length_cons] at h; omega),
      show 2 * (c + 1) = (2 * c + 1) + 1 from by ring]
    simp only [List.getD_cons_succ]

/-- On power-of-two inputs, `angle_search_binary_tree` is exactly the
pairwise map: norms `nrm(v[2j], v[2j+1])` and the guarded `arccos` angles,
in pair order (the recursion splits halves down to adjacent pairs). -/
lemma asbt_eq_pairMap {α : Type} [Field α] [DecidableEq α]
    (nrm : α → α → α) (acos : α → α) :
    ∀ (m : ℕ) (w : List α), w.length = 2 ^ (m + 1) →
      angle_search_binary_tree nrm acos w =
        (pairMap nrm w,
          pairMap (fun a b => if nrm a b = 0 then 0 else acos (a / nrm a b)) w) := by
  intro m
  induction m with
  | zero =>
    intro w hw
    match w, hw with
    | [a, b], _ =>
      rw [angle_search_binary_tree]
      simp [pairMap]
  | succ k ih =>
    intro w hw
    have h4 : ¬ w.length < 3 := by
      have h1 : 4 ≤ w.length := by
        rw [hw]
        calc (4 : ℕ) = 2 ^ 2 := by norm_num
        _ ≤ 2 ^ (k + 1 + 1) := Nat.pow_le_pow_right (by norm_num) (by omega)
      omega
    rw [angle_search_binary_tree]
    simp only [h4, dite_false]
    have hhalf : w.length / 2 = 2 ^ (k + 1) := by
      rw [hw, pow_succ]
      omega
    have htake : (w.take (w.length / 2)).length = 2 ^ (k + 1) := by
      simp only [List.length_take]
      omega
    have hdrop : (w.drop (w.length / 2)).length = 2 ^ (k + 1) := by
      simp only [List.length_drop]
      omega
    rw [ih _ htake, ih _ hdrop]
    have heven : (w.take (w.length / 2)).length % 2 = 0 := by
      rw [htake, pow_succ]
      omega
    rw [← pairMap_append nrm _ _ heven, ← pairMap_append _ _ _ heven,
      List.take_append_drop]

/-- Each level of the norm tree is the pairwise-`nrm` map of the level
below it. -/
lemma norms_iter_succ_eq {α : Type} [Field α] [DecidableEq α]
    (nrm : α → α → α) (acos : α → α) (n : ℕ) (v : List α) (hv : v.length = 2 ^ n)
    (k : ℕ) (hk : k ≤ n - 1) (hn : 1 ≤ n) :
    norms_iter nrm acos v (k + 1) = pairMap nrm (norms_iter nrm acos v k) ∧
    angles_layer nrm acos v k =
      pairMap (fun a b => if nrm a b = 0 then 0 else acos (a / nrm a b))
        (norms_iter nrm acos v k) := by
  have hlen : (norms_iter nrm acos v k).length = 2 ^ (n - k - 1 + 1) := by
    rw [norms_iter_length nrm acos n v hv k (by omega)]
    congr 1
    omega
  have hspec := asbt_eq_pairMap nrm acos (n - k - 1) _ hlen
  constructor
  · rw [show norms_iter nrm acos v (k + 1) =
      (angle_search_binary_tree nrm acos (norms_iter nrm acos v k)).1 from rfl,
      hspec]
  · rw [angles_layer, hspec]

/-- Dropping `2^l - 1` entries of a root-first layer concatenation removes
exactly the `l` layers closest to the root. -/
lemma flatten_rev_drop {β : Type} (g : ℕ → List β) (n : ℕ)
    (hlen : ∀ k, k < n → (g k).length = 2 ^ (n - 1 - k)) :
    ∀ l, l ≤ n →
      ((((List.range n).reverse.map g).flatten).drop (2 ^ l - 1)) =
        ((List.range (n - l)).reverse.map g).flatten := by
  intro l
  induction l with
  | zero => intro _; simp
  | succ j ih =>
    intro hj
    have h2 : (2 : ℕ) ^ (j + 1) = 2 * 2 ^ j := by
      rw [pow_succ]; ring
    have h1 : 1 ≤ 2 ^ j := Nat.one_le_two_pow
    rw [show 2 ^ (j + 1) - 1 = (2 ^ j - 1) + 2 ^ j from by omega,
      ← List.drop_drop, ih (by omega)]
    rw [show n - j = (n - j - 1) + 1 from by omega,
      show (List.range (n - j - 1 + 1)).reverse =
        (n - j - 1) :: (List.range (n - j - 1)).reverse from by
          rw [List.range_succ, List.reverse_append, List.reverse_singleton]
          rfl,
      List.map_cons, List.flatten_cons]
    rw [show (2 : ℕ) ^ j = (g (n - j - 1)).length from by
      rw [hlen (n - j - 1) (by omega)]
      congr 1
      omega]
    rw [List.drop_left]
    congr 2

/-- The layer-`l` slice of the root-first concatenation. -/
lemma flatten_rev_slice {β : Type} (g : ℕ → List β) (n : ℕ) (l : ℕ) (hl : l < n)
    (hlen : ∀ k, k < n → (g k).length = 2 ^ (n - 1 - k)) :
    ((((List.range n).reverse.map g).flatten).drop (2 ^ l - 1)).take (2 ^ l) =
      g (n - 1 - l) := by
  rw [flatten_rev_drop g n hlen l (by omega)]
  rw [show n - l = (n - l - 1) + 1 from by omega,
    show (List.range (n - l - 1 + 1)).reverse =
      (n - l - 1) :: (List.range (n - l - 1)).reverse from by
        rw [List.range_succ, List.reverse_append, List.reverse_singleton]
        rfl,
    List.map_cons, List.flatten_cons]
  rw [show (2 : ℕ) ^ l = (g (n - l - 1)).length from by
    rw [hlen (n - l - 1) (by omega)]
    congr 1
    omega]
  rw [List.take_left]
  congr 1
  omega

/-- Iterated pair averaging: level `k` of the phase tree above the input. -/
def avgIter {α : Type} [Field α] (v : List α) : ℕ → List α
  | 0 => v
  | k + 1 => pairAvg (avgIter v k)

lemma avgIter_length {α : Type} [Field α] (n : ℕ) (v : List α)
    (hv : v.length = 2 ^ n) :
    ∀ k, k ≤ n → (avgIter v k).length = 2 ^ (n - k)
  | 0, _ => by simpa [avgIter] using hv
  | k + 1, hk => by
    have hprev : (avgIter v k).length = 2 ^ (n - k) :=
      avgIter_length n v hv k (by omega)
    rw [show avgIter v (k + 1) = pairAvg (avgIter v k) from rfl, pairAvg,
      pairMap_length, hprev]
    have h2 : (2 : ℕ) ^ (n - k) = 2 * 2 ^ (n - (k + 1)) := by
      rw [← pow_succ']
      congr 1
      omega
    omega

lemma avgIter_shift {α : Type} [Field α] (v : List α) :
    ∀ k, avgIter (pairAvg v) k = avgIter v (k + 1)
  | 0 => rfl
  | k + 1 => by
    rw [show avgIter (pairAvg v) (k + 1) = pairAvg (avgIter (pairAvg v) k) from rfl,
      avgIter_shift v k]
    rfl

lemma phase_tree_length {α : Type} [Field α] :
    ∀ (n : ℕ) (v : List α), v.length = 2 ^ n → (phase_tree v).length = 2 ^ n := by
  intro n
  induction n with
  | zero =>
    intro v hv
    match v, hv with
    | [a], _ => simp [phase_tree]
  | succ k ih =>
    intro v hv
    cases k with
    | zero =>
      match v, hv with
      | [a, b], _ => simp [phase_tree]
    | succ m =>
      have h4 : 4 ≤ v.length := by
        rw [hv]
        calc (4 : ℕ) = 2 ^ 2 := by norm_num
        _ ≤ 2 ^ (m + 1 + 1) := Nat.pow_le_pow_right (by norm_num) (by omega)
      rcases v with _ | ⟨a, _ | ⟨b, _ | ⟨c, rest⟩⟩⟩
      · simp at h4
      · simp at h4
      · simp at h4
      · rw [phase_tree, List.length_append]
        have havg : (pairAvg (a :: b :: c :: rest)).length = 2 ^ (m + 1) := by
          rw [pairAvg, pairMap_length, hv, pow_succ]
          omega
        rw [ih _ havg, pairDiff, pairMap_length, hv, pow_succ]
        omega

/-- Recursive shape of the phase tree on inputs of length at least 4. -/
lemma phase_tree_decomp {α : Type} [Field α] (n : ℕ) (hn : 2 ≤ n) (v : List α)
    (hv : v.length = 2 ^ n) :
    phase_tree v = phase_tree (pairAvg v) ++ pairDiff v := by
  have h4 : 4 ≤ v.length := by
    rw [hv]
    calc (4 : ℕ) = 2 ^ 2 := by norm_num
    _ ≤ 2 ^ n := Nat.pow_le_pow_right (by norm_num) hn
  rcases v with _ | ⟨a, _ | ⟨b, _ | ⟨c, rest⟩⟩⟩
  · simp at h4
  · simp at h4
  · simp at h4
  · rw [phase_tree]

/-- The layer-`l` slice of the phase-tree output (positions `2^l` to
`2^(l+1)`) is the pairwise difference of the level above it. -/
lemma phase_tree_slice {α : Type} [Field α] :
    ∀ (n : ℕ) (v : List α), v.length = 2 ^ n → ∀ l, 1 ≤ l → l ≤ n - 1 →
      ((phase_tree v).drop (2 ^ l)).take (2 ^ l) =
        pairDiff (avgIter v (n - 1 - l)) := by
  intro n
  induction n with
  | zero => intro v hv l hl1 hl2; omega
  | succ k ih =>
    intro v hv l hl1 hl2
    cases k with
    | zero => omega
    | succ m =>
      have hdec := phase_tree_decomp (m + 2) (by omega) v hv
      have havg : (pairAvg v).length = 2 ^ (m + 1) := by
        rw [pairAvg, pairMap_length, hv, pow_succ]
        omega
      have hP : (phase_tree (pairAvg v)).length = 2 ^ (m + 1) :=
        phase_tree_length (m + 1) _ havg
      by_cases hlast : l = m + 1
      · subst hlast
        rw [hdec, show (2 : ℕ) ^ (m + 1) = (phase_tree (pairAvg v)).length from
          hP.symm, List.drop_left, show m + 2 - 1 - (m + 1) = 0 from by omega,
          show avgIter v 0 = v from rfl]
        apply List.take_all_of_le
        rw [pairDiff, pairMap_length, hv, hP, pow_succ]
        omega
      · have hlm : l ≤ m := by omega
        have h2l : (2 : ℕ) ^ l ≤ 2 ^ m := Nat.pow_le_pow_right (by norm_num) hlm
        have h2l1 : (2 : ℕ) ^ (m + 1) = 2 * 2 ^ m := by
          rw [pow_succ]; ring
        rw [hdec, List.drop_append_of_le_length (by rw [hP]; omega),
          List.take_append_of_le_length (by
            rw [List.length_drop, hP]
            omega)]
        rw [ih (pairAvg v) havg l hl1 (by omega), avgIter_shift,
          show m + 2 - 1 - l = m + 1 - 1 - l + 1 from by omega]

/-- The two root entries of the phase tree against the top pair of averages. -/
lemma phase_tree_root {α : Type} [Field α] :
    ∀ (n : ℕ), 1 ≤ n → ∀ v : List α, v.length = 2 ^ n →
      (phase_tree v).getD 0 0 =
        -((avgIter v (n - 1)).getD 0 0) - (avgIter v (n - 1)).getD 1 0 ∧
      (phase_tree v).getD 1 0 =
        -((avgIter v (n - 1)).getD 0 0) + (avgIter v (n - 1)).getD 1 0 := by
  intro n
  induction n with
  | zero => intro h; omega
  | succ k ih =>
    intro _ v hv
    cases k with
    | zero =>
      match v, hv with
      | [a, b], _ => simp [phase_tree, avgIter]
    | succ m =>
      have hdec := phase_tree_decomp (m + 2) (by omega) v hv
      have havg : (pairAvg v).length = 2 ^ (m + 1) := by
        rw [pairAvg, pairMap_length, hv, pow_succ]
        omega
      have hP : (phase_tree (pairAvg v)).length = 2 ^ (m + 1) :=
        phase_tree_length (m + 1) _ havg
      have h2 : 2 ≤ (phase_tree (pairAvg v)).length := by
        rw [hP]
        calc (2 : ℕ) = 2 ^ 1 := by norm_num
        _ ≤ 2 ^ (m + 1) := Nat.pow_le_pow_right (by norm_num) (by omega)
      obtain ⟨ih0, ih1⟩ := ih (by omega) (pairAvg v) havg
      rw [hdec, getD_append_left _ _ 0 (by omega), getD_append_left _ _ 1 (by omega),
        ih0, ih1, avgIter_shift, show m + 1 - 1 + 1 = m + 2 - 1 from by omega]
      exact ⟨rfl, rfl⟩

/-- Source `positive_transform` written as two pairwise maps. -/
lemma positive_transform_eq {α : Type} [Field α] [DecidableEq α]
    (nrm ang : α → α → α) :
    ∀ v : List α, positive_transform nrm ang v =
      (pairMap (fun a b => if a = 0 ∧ b = 0 then 0 else nrm a b) v,
        pairMap (fun a b => if a = 0 ∧ b = 0 then 0 else ang a b) v)
  | [] => by simp [positive_transform, pairMap]
  | [a] => by simp [positive_transform, pairMap]
  | a :: b :: rest => by
    rw [positive_transform, positive_transform_eq nrm ang rest]
    by_cases h : a = 0 ∧ b = 0
    · obtain ⟨ha, hb⟩ := h
      subst ha
      subst hb
      simp [pairMap]
    · rw [if_neg h, pairMap, pairMap, if_neg h, if_neg h]

/-- Telescoping of the phase contributions down the phase tree: after the
root term and the first `l` layer terms the accumulated phase is the
level-`l` average at the bit-reversed index. -/
lemma phase_telescope_aux {α : Type} [LinearOrderedField α] (n : ℕ) (hn : 1 ≤ n)
    (v : List α) (hv : v.length = 2 ^ n) (idx : ℕ) :
    ∀ l, l ≤ n →
      -((phase_tree v).getD 0 0) / 2 +
        ∑ j in Finset.range l, (if idx.testBit j then (1 : α) else -1) *
          (pairDiff (avgIter v (n - 1 - j))).getD (revBits j idx) 0 / 2 =
      (avgIter v (n - l)).getD (revBits l idx) 0 := by
  intro l
  induction l with
  | zero =>
    intro _
    obtain ⟨h0, _⟩ := phase_tree_root n hn v hv
    have hlen1 : (avgIter v (n - 1)).length = 2 ^ 1 := by
      rw [avgIter_length n v hv (n - 1) (by omega)]
      congr 1
      omega
    have havn : avgIter v n = pairAvg (avgIter v (n - 1)) := by
      conv_lhs => rw [show n = n - 1 + 1 from by omega]
      rfl
    have hAvg : (pairAvg (avgIter v (n - 1))).getD 0 0 =
        ((avgIter v (n - 1)).getD 0 0 + (avgIter v (n - 1)).getD 1 0) / 2 := by
      rw [pairAvg, getD_pairMap _ _ 0 (by rw [hlen1]; norm_num)]
    simp only [Finset.sum_range_zero, add_zero]
    rw [show n - 0 = n from by omega, show revBits 0 idx = 0 from rfl, havn,
      hAvg, h0]
    ring
  | succ l ih =>
    intro hl1
    rw [Finset.sum_range_succ, ← add_assoc, ih (by omega)]
    set c := revBits l idx with hc
    have hcb : c < 2 ^ l := revBits_lt l idx
    have hWlen : (avgIter v (n - 1 - l)).length = 2 ^ (l + 1) := by
      rw [avgIter_length n v hv (n - 1 - l) (by omega)]
      congr 1
      omega
    have hbound : 2 * c + 1 < (avgIter v (n - 1 - l)).length := by
      rw [hWlen, pow_succ]
      omega
    have havn : avgIter v (n - l) = pairAvg (avgIter v (n - 1 - l)) := by
      conv_lhs => rw [show n - l = (n - 1 - l) + 1 from by omega]
      rfl
    have hAvg : (pairAvg (avgIter v (n - 1 - l))).getD c 0 =
        ((avgIter v (n - 1 - l)).getD (2 * c) 0 +
          (avgIter v (n - 1 - l)).getD (2 * c + 1) 0) / 2 := by
      rw [pairAvg, getD_pairMap _ _ c hbound]
    have hDiff : (pairDiff (avgIter v (n - 1 - l))).getD c 0 =
        -((avgIter v (n - 1 - l)).getD (2 * c) 0) +
          (avgIter v (n - 1 - l)).getD (2 * c + 1) 0 := by
      rw [pairDiff, getD_pairMap _ _ c hbound]
    rw [havn, hAvg, hDiff,
      show revBits (l + 1) idx =
        2 * revBits l idx + (if idx.testBit l then 1 else 0) from rfl, ← hc,
      show n - (l + 1) = n - 1 - l from by omega]
    by_cases hb : idx.testBit l
    · simp only [hb, if_true]
      have h2 : (2 : α) ≠ 0 := two_ne_zero
      field_simp
      ring
    · simp only [hb, Bool.false_eq_true, if_false]
      rw [Nat.add_zero]
      have h2 : (2 : α) ≠ 0 := two_ne_zero
      field_simp
      ring

/-- Full telescoping: the root phase term plus all layer terms reconstruct
the input phase at the bit-reversed index. -/
lemma phase_telescope {α : Type} [LinearOrderedField α] (n : ℕ) (hn : 1 ≤ n)
    (v : List α) (hv : v.length = 2 ^ n) (idx : ℕ) :
    -((phase_tree v).getD 0 0) / 2 +
      ∑ j in Finset.range n, (if idx.testBit j then (1 : α) else -1) *
        (pairDiff (avgIter v (n - 1 - j))).getD (revBits j idx) 0 / 2 =
    v.getD (revBits n idx) 0 := by
  rw [phase_telescope_aux n hn v hv idx n (le_refl n),
    show n - n = 0 from by omega, show avgIter v 0 = v from rfl]

/-! ## The emitted layers over the complex amplitudes -/

lemma lt_two_pow_iff_shiftRight_eq_zero (x m : ℕ) :
    x < 2 ^ m ↔ x >>> m = 0 := by
  rw [Nat.shiftRight_eq_div_pow]
  have hb : 0 < 2 ^ m := Nat.pos_pow_of_pos m (by norm_num)
  constructor
  · intro h
    exact Nat.div_eq_of_lt h
  · intro h
    by_contra hc
    have h1 : 1 ≤ x / 2 ^ m := (Nat.one_le_div_iff hb).mpr (not_lt.mp hc)
    omega

lemma xor_two_pow_lt_iff (idx l m : ℕ) (h : l < m) :
    idx ^^^ 2 ^ l < 2 ^ m ↔ idx < 2 ^ m := by
  have hsh : (idx ^^^ 2 ^ l) >>> m = idx >>> m := by
    rw [xor_shiftRight_distrib,
      show (2 : ℕ) ^ l >>> m = 0 from by
        rw [Nat.shiftRight_eq_div_pow]
        exact Nat.div_eq_of_lt (Nat.pow_lt_pow_right (by norm_num) h),
      Nat.xor_zero]
  rw [lt_two_pow_iff_shiftRight_eq_zero, lt_two_pow_iff_shiftRight_eq_zero, hsh]

lemma ge_two_pow_succ_of_testBit_false (idx l : ℕ) (hbit : idx.testBit l = false)
    (hge : 2 ^ l ≤ idx) : 2 ^ (l + 1) ≤ idx := by
  have hb : 0 < 2 ^ l := Nat.pos_pow_of_pos l (by norm_num)
  have hq1 : 1 ≤ idx / 2 ^ l := (Nat.one_le_div_iff hb).mpr hge
  have hq2 : idx / 2 ^ l % 2 = 0 := by
    have h1 := Nat.testBit_to_div_mod (x := idx) (i := l)
    rw [hbit] at h1
    have h2 : ¬ idx / 2 ^ l % 2 = 1 := by
      intro hc
      rw [hc] at h1
      simp at h1
    omega
  have hq3 : 2 ≤ idx / 2 ^ l := by omega
  have h4 : 2 * 2 ^ l ≤ idx / 2 ^ l * 2 ^ l :=
    Nat.mul_le_mul_right _ hq3
  have h5 : idx / 2 ^ l * 2 ^ l ≤ idx := Nat.div_mul_le_self idx (2 ^ l)
  rw [pow_succ]
  omega

lemma testBit_true_not_lt (idx l : ℕ) (h : idx.testBit l = true) :
    ¬ idx < 2 ^ l :=
  not_lt.mpr (Nat.testBit_implies_ge h)

lemma apply_gate_RY_eval {α F : Type} [Field F] (co si em ep : α → F) (q : ℕ)
    (θ : α) (s : ℕ → F) (idx : ℕ) :
    apply_gate co si em ep ("RY", q, [], some θ) s idx =
      if idx.testBit q then si θ * s (idx ^^^ 2 ^ q) + co θ * s idx
      else co θ * s idx - si θ * s (idx ^^^ 2 ^ q) := by
  rw [apply_gate]
  simp

lemma apply_gate_RZ_eval {α F : Type} [Field F] (co si em ep : α → F) (q : ℕ)
    (θ : α) (s : ℕ → F) (idx : ℕ) :
    apply_gate co si em ep ("RZ", q, [], some θ) s idx =
      (if idx.testBit q then ep θ else em θ) * s idx := by
  rw [apply_gate]
  simp

/-- One compressed RY layer at `epsilon = 0` maps the level-`l` amplitude
state to the level-`l+1` amplitude state, provided the layer's angles turn
each parent amplitude into its two children by cosine and sine. -/
lemma compress_ry_step (l : ℕ) (hl : 1 ≤ l) (V W θs : List ℝ)
    (hθlen : θs.length = 2 ^ l)
    (hstep : ∀ c, c < 2 ^ l →
      Real.cos (θs.getD c 0 / 2) * V.getD c 0 = W.getD (2 * c) 0 ∧
      Real.sin (θs.getD c 0 / 2) * V.getD c 0 = W.getD (2 * c + 1) 0) :
    apply_circuit (fun θ : ℝ => (Real.cos (θ / 2) : ℂ))
      (fun θ : ℝ => (Real.sin (θ / 2) : ℂ))
      (fun θ : ℝ => Complex.exp (-(θ / 2 : ℝ) * Complex.I))
      (fun θ : ℝ => Complex.exp ((θ / 2 : ℝ) * Complex.I))
      (compress_uniformly_rotation "RY" l (List.range l)
        (uniformly_rotation_angles θs) 0)
      (fun idx => if idx < 2 ^ l then (V.getD (revBits l idx) 0 : ℂ) else 0) =
      fun idx => if idx < 2 ^ (l + 1) then
        (W.getD (revBits (l + 1) idx) 0 : ℂ) else 0 := by
  set RyM : ℝ → M2 ℂ := fun θ =>
    ⟨(Real.cos (θ / 2) : ℂ), -(Real.sin (θ / 2) : ℂ),
      (Real.sin (θ / 2) : ℂ), (Real.cos (θ / 2) : ℂ)⟩ with hRyM
  have hR0 : RyM 0 = M2.one := by
    rw [hRyM]
    simp [M2.one]
  have hRmul : ∀ x y, (RyM x).mul (RyM y) = RyM (x + y) := by
    intro x y
    rw [hRyM]
    ext
    all_goals simp only [M2.mul]
    all_goals rw [add_div]
    all_goals push_cast [Real.cos_add, Real.sin_add]
    all_goals ring
  have hXR : ∀ x, M2.xm.mul (RyM x) = (RyM (-x)).mul M2.xm := by
    intro x
    rw [hRyM]
    ext
    all_goals simp only [M2.mul, M2.xm]
    all_goals rw [neg_div]
    all_goals push_cast [Real.cos_neg, Real.sin_neg]
    all_goals ring
  have hgate : ∀ (θ : ℝ) (s : ℕ → ℂ) (idx : ℕ), idx.testBit l = false →
      (apply_gate (fun θ : ℝ => (Real.cos (θ / 2) : ℂ))
          (fun θ : ℝ => (Real.sin (θ / 2) : ℂ))
          (fun θ : ℝ => Complex.exp (-(θ / 2 : ℝ) * Complex.I))
          (fun θ : ℝ => Complex.exp ((θ / 2 : ℝ) * Complex.I))
          ("RY", l, [], some θ) s idx,
        apply_gate (fun θ : ℝ => (Real.cos (θ / 2) : ℂ))
          (fun θ : ℝ => (Real.sin (θ / 2) : ℂ))
          (fun θ : ℝ => Complex.exp (-(θ / 2 : ℝ) * Complex.I))
          (fun θ : ℝ => Complex.exp ((θ / 2 : ℝ) * Complex.I))
          ("RY", l, [], some θ) s (idx ^^^ 2 ^ l)) =
        (RyM θ).act (s idx, s (idx ^^^ 2 ^ l)) := by
    intro θ s idx hbit
    have hb1 : (idx ^^^ 2 ^ l).testBit l = true := by
      rw [testBit_xor_two_pow_self, hbit]
      rfl
    rw [apply_gate_RY_eval, apply_gate_RY_eval, hRyM, M2.act,
      if_neg (by rw [hbit]; simp), if_pos hb1, xor_two_pow_cancel,
      Prod.mk.injEq]
    constructor <;> ring
  apply state_eq_of_pairs l
  intro idx hbit
  have hpair := compress_apply (fun θ : ℝ => (Real.cos (θ / 2) : ℂ))
    (fun θ : ℝ => (Real.sin (θ / 2) : ℂ))
    (fun θ : ℝ => Complex.exp (-(θ / 2 : ℝ) * Complex.I))
    (fun θ : ℝ => Complex.exp ((θ / 2 : ℝ) * Complex.I))
    RyM "RY" l hl hR0 hRmul hXR hgate θs hθlen
    (fun idx => if idx < 2 ^ l then (V.getD (revBits l idx) 0 : ℂ) else 0)
    idx hbit
  have hfst := congrArg Prod.fst hpair
  have hsnd := congrArg Prod.snd hpair
  simp only at hfst hsnd
  have hb1 : (idx ^^^ 2 ^ l).testBit l = true := by
    rw [testBit_xor_two_pow_self, hbit]
    rfl
  have hx1lt : ¬ idx ^^^ 2 ^ l < 2 ^ l := testBit_true_not_lt _ _ hb1
  have hrevx : revBits l (idx ^^^ 2 ^ l) = revBits l idx :=
    revBits_congr l _ _ (fun j hj => testBit_xor_two_pow_ne idx l j (by omega))
  have hrev1 : revBits (l + 1) idx = 2 * revBits l idx := by
    rw [show revBits (l + 1) idx =
      2 * revBits l idx + (if idx.testBit l then 1 else 0) from rfl, hbit]
    simp
  have hrev2 : revBits (l + 1) (idx ^^^ 2 ^ l) = 2 * revBits l idx + 1 := by
    rw [show revBits (l + 1) (idx ^^^ 2 ^ l) =
      2 * revBits l (idx ^^^ 2 ^ l) +
        (if (idx ^^^ 2 ^ l).testBit l then 1 else 0) from rfl, hb1, hrevx]
    simp
  by_cases hcase : idx < 2 ^ l
  · have hC : revBits l idx < 2 ^ l := revBits_lt l idx
    obtain ⟨hs1, hs2⟩ := hstep (revBits l idx) hC
    have hlt1 : idx < 2 ^ (l + 1) :=
      lt_of_lt_of_le hcase (Nat.pow_le_pow_right (by norm_num) (by omega))
    have hlt2 : idx ^^^ 2 ^ l < 2 ^ (l + 1) :=
      (xor_two_pow_lt_iff idx l (l + 1) (by omega)).mpr hlt1
    constructor
    · rw [hfst, if_pos hcase, if_neg hx1lt, if_pos hlt1, hrev1, hRyM]
      rw [M2.act]
      rw [← hs1]
      push_cast
      ring
    · rw [hsnd, if_pos hcase, if_neg hx1lt, if_pos hlt2, hrev2, hRyM]
      rw [M2.act]
      rw [← hs2]
      push_cast
      ring
  · have hge : 2 ^ (l + 1) ≤ idx :=
      ge_two_pow_succ_of_testBit_false idx l hbit (not_lt.mp hcase)
    have hlt1 : ¬ idx < 2 ^ (l + 1) := by omega
    have hlt2 : ¬ idx ^^^ 2 ^ l < 2 ^ (l + 1) := by
      rw [xor_two_pow_lt_iff idx l (l + 1) (by omega)]
      exact hlt1
    constructor
    · rw [hfst, if_neg hcase, if_neg hx1lt, if_neg hlt1, M2.act_zero]
    · rw [hsnd, if_neg hcase, if_neg hx1lt, if_neg hlt2, M2.act_zero]

/-- One compressed RZ layer at `epsilon = 0` is diagonal: it multiplies the
amplitude at `idx` by `exp(±i/2)` of the angle selected by the control
pattern, the sign set by the target bit. -/
lemma compress_rz_step (l : ℕ) (hl : 1 ≤ l) (θs : List ℝ)
    (hθlen : θs.length = 2 ^ l) (s : ℕ → ℂ) :
    apply_circuit (fun θ : ℝ => (Real.cos (θ / 2) : ℂ))
      (fun θ : ℝ => (Real.sin (θ / 2) : ℂ))
      (fun θ : ℝ => Complex.exp (-(θ / 2 : ℝ) * Complex.I))
      (fun θ : ℝ => Complex.exp ((θ / 2 : ℝ) * Complex.I))
      (compress_uniformly_rotation "RZ" l (List.range l)
        (uniformly_rotation_angles θs) 0) s =
      fun idx => Complex.exp ((((if idx.testBit l then (1 : ℝ) else -1) *
        θs.getD (revBits l idx) 0 / 2 : ℝ) : ℂ) * Complex.I) * s idx := by
  set RzM : ℝ → M2 ℂ := fun θ =>
    ⟨Complex.exp (-(θ / 2 : ℝ) * Complex.I), 0, 0,
      Complex.exp ((θ / 2 : ℝ) * Complex.I)⟩ with hRzM
  have hR0 : RzM 0 = M2.one := by
    rw [hRzM]
    simp only [M2.one]
    norm_num
  have hRmul : ∀ x y, (RzM x).mul (RzM y) = RzM (x + y) := by
    intro x y
    rw [hRzM]
    ext
    all_goals simp only [M2.mul]
    · rw [← Complex.exp_add]
      congr 1
      push_cast
      ring
    · ring
    · ring
    · rw [← Complex.exp_add]
      congr 1
      push_cast
      ring
  have hXR : ∀ x, M2.xm.mul (RzM x) = (RzM (-x)).mul M2.xm := by
    intro x
    rw [hRzM]
    ext
    all_goals simp only [M2.mul, M2.xm]
    · ring
    · rw [show -((((-x) / 2 : ℝ)) : ℂ) * Complex.I = (((x / 2 : ℝ)) : ℂ) * Complex.I
        from by push_cast; ring]
      ring
    · rw [show ((((-x) / 2 : ℝ)) : ℂ) * Complex.I = -(((x / 2 : ℝ)) : ℂ) * Complex.I
        from by push_cast; ring]
      ring
    · ring
  have hgate : ∀ (θ : ℝ) (s : ℕ → ℂ) (idx : ℕ), idx.testBit l = false →
      (apply_gate (fun θ : ℝ => (Real.cos (θ / 2) : ℂ))
          (fun θ : ℝ => (Real.sin (θ / 2) : ℂ))
          (fun θ : ℝ => Complex.exp (-(θ / 2 : ℝ) * Complex.I))
          (fun θ : ℝ => Complex.exp ((θ / 2 : ℝ) * Complex.I))
          ("RZ", l, [], some θ) s idx,
        apply_gate (fun θ : ℝ => (Real.cos (θ / 2) : ℂ))
          (fun θ : ℝ => (Real.sin (θ / 2) : ℂ))
          (fun θ : ℝ => Complex.exp (-(θ / 2 : ℝ) * Complex.I))
          (fun θ : ℝ => Complex.exp ((θ / 2 : ℝ) * Complex.I))
          ("RZ", l, [], some θ) s (idx ^^^ 2 ^ l)) =
        (RzM θ).act (s idx, s (idx ^^^ 2 ^ l)) := by
    intro θ s idx hbit
    have hb1 : (idx ^^^ 2 ^ l).testBit l = true := by
      rw [testBit_xor_two_pow_self, hbit]
      rfl
    rw [apply_gate_RZ_eval, apply_gate_RZ_eval, hRzM, M2.act,
      if_neg (by rw [hbit]; simp), if_pos hb1, Prod.mk.injEq]
    constructor <;> ring
  apply state_eq_of_pairs l
  intro idx hbit
  have hpair := compress_apply (fun θ : ℝ => (Real.cos (θ / 2) : ℂ))
    (fun θ : ℝ => (Real.sin (θ / 2) : ℂ))
    (fun θ : ℝ => Complex.exp (-(θ / 2 : ℝ) * Complex.I))
    (fun θ : ℝ => Complex.exp ((θ / 2 : ℝ) * Complex.I))
    RzM "RZ" l hl hR0 hRmul hXR hgate θs hθlen s idx hbit
  have hfst := congrArg Prod.fst hpair
  have hsnd := congrArg Prod.snd hpair
  simp only at hfst hsnd
  have hb1 : (idx ^^^ 2 ^ l).testBit l = true := by
    rw [testBit_xor_two_pow_self, hbit]
    rfl
  have hrevx : revBits l (idx ^^^ 2 ^ l) = revBits l idx :=
    revBits_congr l _ _ (fun j hj => testBit_xor_two_pow_ne idx l j (by omega))
  constructor
  · rw [hfst, hRzM, M2.act, hbit]
    rw [show ((if false = true then (1 : ℝ) else -1) *
        θs.getD (revBits l idx) 0 / 2 : ℝ) =
      -(θs.getD (revBits l idx) 0 / 2) from by simp; ring]
    push_cast
    ring
  · rw [hsnd, hRzM, M2.act, hb1, hrevx]
    rw [show ((if true = true then (1 : ℝ) else -1) *
        θs.getD (revBits l idx) 0 / 2 : ℝ) =
      θs.getD (revBits l idx) 0 / 2 from by simp]
    push_cast
    ring

/-! ## Trigonometric facts for one tree node -/

/-- The guarded-`arccos` angle of a node turns the node's norm into its two
children, by cosine and sine; the zero-node convention (angle 0) is
consistent because a zero norm forces both children to vanish. -/
lemma arccos_pair_step (a b : ℝ) (ha : 0 ≤ a) (hb : 0 ≤ b) :
    Real.cos ((if Real.sqrt (a ^ 2 + b ^ 2) = 0 then (0 : ℝ)
        else Real.arccos (a / Real.sqrt (a ^ 2 + b ^ 2))) * 2 / 2) *
      Real.sqrt (a ^ 2 + b ^ 2) = a ∧
    Real.sin ((if Real.sqrt (a ^ 2 + b ^ 2) = 0 then (0 : ℝ)
        else Real.arccos (a / Real.sqrt (a ^ 2 + b ^ 2))) * 2 / 2) *
      Real.sqrt (a ^ 2 + b ^ 2) = b := by
  set r := Real.sqrt (a ^ 2 + b ^ 2) with hr
  by_cases hr0 : r = 0
  · have hab : a ^ 2 + b ^ 2 ≤ 0 := Real.sqrt_eq_zero'.mp hr0
    have ha0 : a = 0 := by nlinarith
    have hb0 : b = 0 := by nlinarith
    rw [hr0, ha0, hb0]
    norm_num
  · have hrpos : 0 < r := lt_of_le_of_ne (Real.sqrt_nonneg _) (Ne.symm hr0)
    have hr2 : r ^ 2 = a ^ 2 + b ^ 2 := Real.sq_sqrt (by positivity)
    have hale : a ≤ r := by
      rw [← Real.sqrt_sq ha, hr]
      exact Real.sqrt_le_sqrt (by nlinarith)
    rw [if_neg hr0, mul_div_cancel_right₀ _ (two_ne_zero)]
    constructor
    · have hb1 : (-1 : ℝ) ≤ a / r := by
        have h0 : (0 : ℝ) ≤ a / r := by positivity
        linarith
      have hb2 : a / r ≤ 1 := (div_le_one hrpos).mpr hale
      rw [Real.cos_arccos hb1 hb2]
      exact div_mul_cancel₀ a hr0
    · rw [Real.sin_arccos]
      have h1 : 1 - (a / r) ^ 2 = (b / r) ^ 2 := by
        field_simp
        nlinarith
      rw [h1, Real.sqrt_sq (by positivity)]
      exact div_mul_cancel₀ b hr0

/-- The `positive_transform` angle of a leaf pair (the argument of the
normalized pair, reduced modulo `2π`) turns the pair's norm into the two
signed entries. -/
lemma pt_pair_step (x y : ℝ) :
    Real.cos ((if x = 0 ∧ y = 0 then (0 : ℝ) else
        (Complex.arg ((x / Real.sqrt (x ^ 2 + y ^ 2) : ℝ) +
            (y / Real.sqrt (x ^ 2 + y ^ 2) : ℝ) * Complex.I) -
          2 * Real.pi * ⌊Complex.arg ((x / Real.sqrt (x ^ 2 + y ^ 2) : ℝ) +
            (y / Real.sqrt (x ^ 2 + y ^ 2) : ℝ) * Complex.I) / (2 * Real.pi)⌋)) * 2 / 2) *
      (if x = 0 ∧ y = 0 then (0 : ℝ) else Real.sqrt (x ^ 2 + y ^ 2)) = x ∧
    Real.sin ((if x = 0 ∧ y = 0 then (0 : ℝ) else
        (Complex.arg ((x / Real.sqrt (x ^ 2 + y ^ 2) : ℝ) +
            (y / Real.sqrt (x ^ 2 + y ^ 2) : ℝ) * Complex.I) -
          2 * Real.pi * ⌊Complex.arg ((x / Real.sqrt (x ^ 2 + y ^ 2) : ℝ) +
            (y / Real.sqrt (x ^ 2 + y ^ 2) : ℝ) * Complex.I) / (2 * Real.pi)⌋)) * 2 / 2) *
      (if x = 0 ∧ y = 0 then (0 : ℝ) else Real.sqrt (x ^ 2 + y ^ 2)) = y := by
  by_cases h0 : x = 0 ∧ y = 0
  · obtain ⟨hx, hy⟩ := h0
    subst hx
    subst hy
    norm_num
  · set r := Real.sqrt (x ^ 2 + y ^ 2) with hr
    set z : ℂ := ((x / r : ℝ) : ℂ) + ((y / r : ℝ) : ℂ) * Complex.I with hz
    have hxy : 0 < x ^ 2 + y ^ 2 := by
      rcases not_and_or.mp h0 with hx | hy
      · positivity
      · positivity
    have hrpos : 0 < r := Real.sqrt_pos.mpr hxy
    have hr2 : r ^ 2 = x ^ 2 + y ^ 2 := Real.sq_sqrt (by positivity)
    have habs : Complex.abs z = 1 := by
      rw [hz, Complex.abs_apply, Complex.normSq_add_mul_I]
      rw [show (x / r) ^ 2 + (y / r) ^ 2 = 1 from by
        field_simp
        nlinarith]
      exact Real.sqrt_one
    have hzne : z ≠ 0 := by
      intro hc
      rw [hc] at habs
      simp at habs
    have hcosmod : Real.cos ((z.arg - 2 * Real.pi * ⌊z.arg / (2 * Real.pi)⌋) * 2 / 2) =
        Real.cos z.arg := by
      rw [mul_div_cancel_right₀ _ (two_ne_zero),
        show z.arg - 2 * Real.pi * ⌊z.arg / (2 * Real.pi)⌋ =
          z.arg - (⌊z.arg / (2 * Real.pi)⌋ : ℤ) * (2 * Real.pi) from by ring]
      exact Real.cos_sub_int_mul_two_pi _ _
    have hsinmod : Real.sin ((z.arg - 2 * Real.pi * ⌊z.arg / (2 * Real.pi)⌋) * 2 / 2) =
        Real.sin z.arg := by
      rw [mul_div_cancel_right₀ _ (two_ne_zero),
        show z.arg - 2 * Real.pi * ⌊z.arg / (2 * Real.pi)⌋ =
          z.arg - (⌊z.arg / (2 * Real.pi)⌋ : ℤ) * (2 * Real.pi) from by ring]
      simpa using Real.sin_int_mul_two_pi_sub z.arg _
    rw [if_neg h0, if_neg h0]
    constructor
    · rw [hcosmod, Complex.cos_arg hzne, habs, hz]
      simp only [Complex.add_re, Complex.ofReal_re, Complex.mul_re,
        Complex.ofReal_im, Complex.I_re, Complex.I_im]
      field_simp
    · rw [hsinmod, Complex.sin_arg, habs, hz]
      simp only [Complex.add_im, Complex.ofReal_im, Complex.mul_im,
        Complex.ofReal_re, Complex.I_re, Complex.I_im]
      field_simp

/-! ## Norm-tree facts over the reals -/

lemma mem_pairMap {α : Type} (f : α → α → α) :
    ∀ (u : List α) (x : α), x ∈ pairMap f u → ∃ a b, x = f a b
  | [], x, h => by simp [pairMap] at h
  | [a], x, h => by simp [pairMap] at h
  | a :: b :: rest, x, h => by
    rw [pairMap, List.mem_cons] at h
    rcases h with rfl | h
    · exact ⟨a, b, rfl⟩
    · exact mem_pairMap f rest x h

lemma sq_sum_pairMap_nrm :
    ∀ w : List ℝ, w.length % 2 = 0 →
      ((pairMap (fun a b => Real.sqrt (a ^ 2 + b ^ 2)) w).map (fun x => x ^ 2)).sum =
        (w.map (fun x => x ^ 2)).sum
  | [], _ => by simp [pairMap]
  | [a], h => by simp at h
  | a :: b :: rest, h => by
    rw [pairMap, List.map_cons, List.map_cons, List.map_cons, List.sum_cons,
      List.sum_cons, List.sum_cons,
      sq_sum_pairMap_nrm rest (by simp only [List.length_cons] at h; omega),
      Real.sq_sqrt (by positivity)]
    ring

lemma norms_iter_sq_sum (n : ℕ) (w : List ℝ) (hw : w.length = 2 ^ n)
    (acos : ℝ → ℝ) :
    ∀ k, k ≤ n →
      ((norms_iter (fun a b => Real.sqrt (a ^ 2 + b ^ 2)) acos w k).map
        (fun x => x ^ 2)).sum = (w.map (fun x => x ^ 2)).sum
  | 0, _ => rfl
  | k + 1, hk => by
    have hprev := norms_iter_sq_sum n w hw acos k (by omega)
    have hstep := (norms_iter_succ_eq (fun a b => Real.sqrt (a ^ 2 + b ^ 2))
      acos n w hw k (by omega) (by omega)).1
    have hlen : (norms_iter (fun a b => Real.sqrt (a ^ 2 + b ^ 2)) acos w k).length =
        2 ^ (n - k) :=
      norms_iter_length _ _ n w hw k (by omega)
    rw [hstep, sq_sum_pairMap_nrm _ (by
      rw [hlen]
      have h2 : (2 : ℕ) ^ (n - k) = 2 * 2 ^ (n - k - 1) := by
        rw [← pow_succ']
        congr 1
        omega
      omega), hprev]

lemma norms_iter_nonneg (n : ℕ) (w : List ℝ) (hw : w.length = 2 ^ n)
    (hnn : ∀ x ∈ w, 0 ≤ x) (acos : ℝ → ℝ) :
    ∀ k, k ≤ n →
      ∀ x ∈ norms_iter (fun a b => Real.sqrt (a ^ 2 + b ^ 2)) acos w k, 0 ≤ x
  | 0, _ => hnn
  | k + 1, hk => by
    intro x hx
    rw [(norms_iter_succ_eq (fun a b => Real.sqrt (a ^ 2 + b ^ 2)) acos n w hw k
      (by omega) (by omega)).1] at hx
    obtain ⟨a, b, rfl⟩ := mem_pairMap _ _ x hx
    exact Real.sqrt_nonneg _

lemma norms_iter_root_one (n : ℕ) (w : List ℝ)
    (hw : w.length = 2 ^ n) (hnorm : (w.map (fun x => x ^ 2)).sum = 1)
    (hnn : ∀ x ∈ w, 0 ≤ x) (acos : ℝ → ℝ) :
    (norms_iter (fun a b => Real.sqrt (a ^ 2 + b ^ 2)) acos w n).getD 0 0 = 1 := by
  have hlen : (norms_iter (fun a b => Real.sqrt (a ^ 2 + b ^ 2)) acos w n).length = 1 := by
    rw [norms_iter_length _ _ n w hw n (le_refl n)]
    simp
  obtain ⟨t, ht⟩ := List.length_eq_one.mp hlen
  have hsq := norms_iter_sq_sum n w hw acos n (le_refl n)
  rw [ht, hnorm] at hsq
  simp only [List.map_cons, List.map_nil, List.sum_cons, List.sum_nil,
    add_zero] at hsq
  have htn : 0 ≤ t := by
    have := norms_iter_nonneg n w hw hnn acos n (le_refl n) t (by rw [ht]; simp)
    exact this
  have h1 : t = 1 := by
    have h3 := Real.sqrt_sq htn
    rw [hsq, Real.sqrt_one] at h3
    exact h3.symm
  rw [ht, h1]
  rfl

lemma getD_map_mul_two {α : Type} [Field α] (u : List α) (c : ℕ)
    (hcu : c < u.length) :
    (u.map (fun x => x * 2)).getD c 0 = u.getD c 0 * 2 := by
  rw [List.getD_eq_getElem _ _ (by simpa using hcu), List.getD_eq_getElem _ _ hcu]
  simp

/-- The root-first layer decomposition of `binarytree_vector(·, 'norm')`
(the accumulation of `binarytree_norm_loop`, each new layer prepended). -/
lemma binarytree_vector_norm_eq {α : Type} [Field α] [DecidableEq α]
    (nrm : α → α → α) (acos : α → α) (m : ℕ) (v : List α)
    (hv : v.length = 2 ^ (m + 1)) :
    binarytree_vector_norm nrm acos v =
      (((List.range (m + 1)).reverse.map (angles_layer nrm acos v)).flatten).map
        (fun x => x * 2) := by
  have hfst : (angle_search_binary_tree nrm acos v).1.length = 2 ^ m :=
    (angle_search_binary_tree_length_pow nrm acos _ _ hv).1
  rw [binarytree_vector_norm]
  rw [binarytree_norm_loop_spec nrm acos m _ _ hfst]
  rw [reverse_range_succ_map_flatten (angles_layer nrm acos v) m]
  simp only [angles_layer, norms_iter_shift nrm acos v, norms_iter]

lemma angles_layer_length {α : Type} [Field α] [DecidableEq α]
    (nrm : α → α → α) (acos : α → α) (n : ℕ) (v : List α)
    (hv : v.length = 2 ^ n) (k : ℕ) (hk : k < n) :
    (angles_layer nrm acos v k).length = 2 ^ (n - 1 - k) := by
  have hit : (norms_iter nrm acos v k).length = 2 ^ ((n - 1 - k) + 1) := by
    rw [norms_iter_length nrm acos n v hv k (by omega)]
    congr 1
    omega
  rw [angles_layer, (angle_search_binary_tree_length_pow nrm acos _ _ hit).2]

/-- The slice of the norm-angle array consumed by circuit layer `l`. -/
lemma norm_angles_slice {α : Type} [Field α] [DecidableEq α]
    (nrm : α → α → α) (acos : α → α) (n : ℕ) (hn : 1 ≤ n) (v : List α)
    (hv : v.length = 2 ^ n) (l : ℕ) (hl : l < n) :
    ((binarytree_vector_norm nrm acos v).drop (2 ^ l - 1)).take (2 ^ l) =
      (angles_layer nrm acos v (n - 1 - l)).map (fun x => x * 2) := by
  obtain ⟨m, rfl⟩ : ∃ m, n = m + 1 := ⟨n - 1, by omega⟩
  rw [binarytree_vector_norm_eq nrm acos m v hv]
  rw [List.map_flatten, List.map_map]
  rw [flatten_rev_slice ((List.map (fun x : α => x * 2)) ∘ (angles_layer nrm acos v))
    (m + 1) l hl (fun k hk => by
      simp only [Function.comp]
      rw [List.length_map, angles_layer_length nrm acos (m + 1) v hv k hk])]
  simp only [Function.comp]

/-- Per-layer step relation for the arccos norm tree: the slice consumed at
circuit layer `l` turns level `l` into level `l + 1` by cosine and sine. -/
lemma tree_hstep (n : ℕ) (w : List ℝ) (hw : w.length = 2 ^ n)
    (hnn : ∀ x ∈ w, 0 ≤ x) (l : ℕ) (hln : l < n) (c : ℕ)
    (hc : c < 2 ^ l) :
    Real.cos ((((binarytree_vector_norm (fun a b => Real.sqrt (a ^ 2 + b ^ 2))
          Real.arccos w).drop (2 ^ l - 1)).take (2 ^ l)).getD c 0 / 2) *
        (norms_iter (fun a b => Real.sqrt (a ^ 2 + b ^ 2)) Real.arccos w
          (n - l)).getD c 0 =
      (norms_iter (fun a b => Real.sqrt (a ^ 2 + b ^ 2)) Real.arccos w
        (n - (l + 1))).getD (2 * c) 0 ∧
    Real.sin ((((binarytree_vector_norm (fun a b => Real.sqrt (a ^ 2 + b ^ 2))
          Real.arccos w).drop (2 ^ l - 1)).take (2 ^ l)).getD c 0 / 2) *
        (norms_iter (fun a b => Real.sqrt (a ^ 2 + b ^ 2)) Real.arccos w
          (n - l)).getD c 0 =
      (norms_iter (fun a b => Real.sqrt (a ^ 2 + b ^ 2)) Real.arccos w
        (n - (l + 1))).getD (2 * c + 1) 0 := by
  have hWlen : (norms_iter (fun a b => Real.sqrt (a ^ 2 + b ^ 2)) Real.arccos w
      (n - 1 - l)).length = 2 ^ (l + 1) := by
    rw [norms_iter_length _ _ n w hw (n - 1 - l) (by omega)]
    congr 1
    omega
  have hbound : 2 * c + 1 < (norms_iter (fun a b => Real.sqrt (a ^ 2 + b ^ 2))
      Real.arccos w (n - 1 - l)).length := by
    rw [hWlen, pow_succ]
    omega
  have hsucc := norms_iter_succ_eq (fun a b => Real.sqrt (a ^ 2 + b ^ 2))
    Real.arccos n w hw (n - 1 - l) (by omega) (by omega)
  have hVl : norms_iter (fun a b => Real.sqrt (a ^ 2 + b ^ 2)) Real.arccos w (n - l) =
      pairMap (fun a b => Real.sqrt (a ^ 2 + b ^ 2))
        (norms_iter (fun a b => Real.sqrt (a ^ 2 + b ^ 2)) Real.arccos w (n - 1 - l)) := by
    rw [show n - l = (n - 1 - l) + 1 from by omega]
    exact hsucc.1
  have hslice := norm_angles_slice (fun a b => Real.sqrt (a ^ 2 + b ^ 2))
    Real.arccos n (by omega) w hw l hln
  have hlayerlen : (angles_layer (fun a b => Real.sqrt (a ^ 2 + b ^ 2))
      Real.arccos w (n - 1 - l)).length = 2 ^ l := by
    rw [angles_layer_length _ _ n w hw (n - 1 - l) (by omega)]
    congr 1
    omega
  have hgetslice : (((binarytree_vector_norm (fun a b => Real.sqrt (a ^ 2 + b ^ 2))
      Real.arccos w).drop (2 ^ l - 1)).take (2 ^ l)).getD c 0 =
      (angles_layer (fun a b => Real.sqrt (a ^ 2 + b ^ 2)) Real.arccos w
        (n - 1 - l)).getD c 0 * 2 := by
    rw [hslice, getD_map_mul_two _ c (by rw [hlayerlen]; exact hc)]
  set W := norms_iter (fun a b => Real.sqrt (a ^ 2 + b ^ 2)) Real.arccos w
    (n - 1 - l) with hW
  have ha := W.getD (2 * c) 0
  have hanonneg : 0 ≤ W.getD (2 * c) 0 := by
    have hmem : W.getD (2 * c) 0 ∈ W := by
      rw [List.getD_eq_getElem _ _ (by omega)]
      exact List.getElem_mem _
    exact norms_iter_nonneg n w hw hnn Real.arccos (n - 1 - l) (by omega) _ hmem
  have hbnonneg : 0 ≤ W.getD (2 * c + 1) 0 := by
    have hmem : W.getD (2 * c + 1) 0 ∈ W := by
      rw [List.getD_eq_getElem _ _ hbound]
      exact List.getElem_mem _
    exact norms_iter_nonneg n w hw hnn Real.arccos (n - 1 - l) (by omega) _ hmem
  have hang : (angles_layer (fun a b => Real.sqrt (a ^ 2 + b ^ 2)) Real.arccos w
      (n - 1 - l)).getD c 0 =
      (if Real.sqrt ((W.getD (2 * c) 0) ^ 2 + (W.getD (2 * c + 1) 0) ^ 2) = 0 then 0
        else Real.arccos ((W.getD (2 * c) 0) /
          Real.sqrt ((W.getD (2 * c) 0) ^ 2 + (W.getD (2 * c + 1) 0) ^ 2))) := by
    rw [hsucc.2, getD_pairMap _ _ c hbound]
  have hnrm : (norms_iter (fun a b => Real.sqrt (a ^ 2 + b ^ 2)) Real.arccos w
      (n - l)).getD c 0 =
      Real.sqrt ((W.getD (2 * c) 0) ^ 2 + (W.getD (2 * c + 1) 0) ^ 2) := by
    rw [hVl, getD_pairMap _ _ c hbound]
  have hchild : norms_iter (fun a b => Real.sqrt (a ^ 2 + b ^ 2)) Real.arccos w
      (n - (l + 1)) = W := by
    rw [hW]
    congr 1
    omega
  rw [hgetslice, hang, hnrm, hchild]
  exact arccos_pair_step (W.getD (2 * c) 0) (W.getD (2 * c + 1) 0) hanonneg hbnonneg

/-! ## The conditional root gates -/

/-- The conditionally emitted root RY (threshold `epsilon = 0`): whether kept
or elided, it maps `|0...0>` to the level-1 amplitude state of any list whose
two entries are the cosine and sine of half its angle. -/
lemma root_ry_apply (n : ℕ) (hn : 1 ≤ n) (V1 : List ℝ) (θ0 : ℝ)
    (hcos : Real.cos (θ0 / 2) = V1.getD 0 0)
    (hsin : Real.sin (θ0 / 2) = V1.getD 1 0) :
    apply_circuit (fun θ : ℝ => (Real.cos (θ / 2) : ℂ))
      (fun θ : ℝ => (Real.sin (θ / 2) : ℂ))
      (fun θ : ℝ => Complex.exp (-(θ / 2 : ℝ) * Complex.I))
      (fun θ : ℝ => Complex.exp ((θ / 2 : ℝ) * Complex.I))
      (if (0 : ℝ) < |θ0| then
        [("RY", (List.range n).getD 0 0, ([] : List ℕ), some θ0)] else []) e0 =
      fun idx => if idx < 2 ^ 1 then (V1.getD (revBits 1 idx) 0 : ℂ) else 0 := by
  have hq : (List.range n).getD 0 0 = 0 := getD_range n 0 (by omega)
  rw [hq]
  by_cases hkeep : (0 : ℝ) < |θ0|
  · rw [if_pos hkeep]
    funext idx
    rw [show apply_circuit (fun θ : ℝ => (Real.cos (θ / 2) : ℂ))
        (fun θ : ℝ => (Real.sin (θ / 2) : ℂ))
        (fun θ : ℝ => Complex.exp (-(θ / 2 : ℝ) * Complex.I))
        (fun θ : ℝ => Complex.exp ((θ / 2 : ℝ) * Complex.I))
        [("RY", 0, ([] : List ℕ), some θ0)] e0 =
      apply_gate (fun θ : ℝ => (Real.cos (θ / 2) : ℂ))
        (fun θ : ℝ => (Real.sin (θ / 2) : ℂ))
        (fun θ : ℝ => Complex.exp (-(θ / 2 : ℝ) * Complex.I))
        (fun θ : ℝ => Complex.exp ((θ / 2 : ℝ) * Complex.I))
        ("RY", 0, ([] : List ℕ), some θ0) e0 from rfl, apply_gate_RY_eval]
    by_cases h2 : idx < 2 ^ 1
    · interval_cases idx
      · rw [if_neg (by decide : ¬ Nat.testBit 0 0 = true), if_pos h2,
          show (0 : ℕ) ^^^ 2 ^ 0 = 1 from rfl, show revBits 1 0 = 0 from rfl]
        simp only [e0, if_pos (rfl : (0 : ℕ) = 0),
          if_neg (one_ne_zero (α := ℕ))]
        rw [if_pos trivial, mul_one, mul_zero, sub_zero, ← hcos]
      · rw [if_pos (by decide : Nat.testBit 1 0 = true), if_pos h2,
          show (1 : ℕ) ^^^ 2 ^ 0 = 0 from rfl, show revBits 1 1 = 1 from rfl]
        simp only [e0, if_pos (rfl : (0 : ℕ) = 0),
          if_neg (one_ne_zero (α := ℕ))]
        rw [if_pos trivial, mul_one, mul_zero, add_zero, ← hsin]
    · have hne0 : idx ≠ 0 := by
        have h1 : 2 ^ 1 = 2 := by norm_num
        omega
      have hne1 : idx ≠ 1 := by
        have h1 : 2 ^ 1 = 2 := by norm_num
        omega
      have hxne : idx ^^^ 2 ^ 0 ≠ 0 := by
        intro hc
        have h3 := (xor_two_pow_lt_iff idx 0 1 (by omega)).mp
          (by rw [hc]; norm_num)
        omega
      rw [if_neg h2]
      by_cases hb : idx.testBit 0 <;> simp [hb, e0, hne0, hne1, hxne]
  · rw [if_neg hkeep]
    have h0 : θ0 = 0 :=
      abs_eq_zero.mp (le_antisymm (not_lt.mp hkeep) (abs_nonneg θ0))
    have hcos1 : V1.getD 0 0 = 1 := by
      rw [← hcos, h0]
      norm_num [Real.cos_zero]
    have hsin1 : V1.getD 1 0 = 0 := by
      rw [← hsin, h0]
      norm_num [Real.sin_zero]
    funext idx
    rw [show apply_circuit (fun θ : ℝ => (Real.cos (θ / 2) : ℂ))
        (fun θ : ℝ => (Real.sin (θ / 2) : ℂ))
        (fun θ : ℝ => Complex.exp (-(θ / 2 : ℝ) * Complex.I))
        (fun θ : ℝ => Complex.exp ((θ / 2 : ℝ) * Complex.I)) [] e0 = e0 from rfl]
    by_cases h2 : idx < 2 ^ 1
    · interval_cases idx
      · rw [if_pos h2, show revBits 1 0 = 0 from rfl, hcos1]
        simp [e0]
      · rw [if_pos h2, show revBits 1 1 = 1 from rfl, hsin1]
        simp [e0]
    · have hne0 : idx ≠ 0 := by
        have h1 : 2 ^ 1 = 2 := by norm_num
        omega
      have h2' : ¬ idx < 2 := by
        have h1 : 2 ^ 1 = 2 := by norm_num
        omega
      simp [e0, hne0, h2, h2']

/-- The conditionally emitted leading root RZ on the all-zero state: a pure
scalar factor `exp(-i p0 / 2)` (also when elided, since `exp(0) = 1`). -/
lemma root_rz0_apply (n : ℕ) (hn : 1 ≤ n) (p0 : ℝ) :
    apply_circuit (fun θ : ℝ => (Real.cos (θ / 2) : ℂ))
      (fun θ : ℝ => (Real.sin (θ / 2) : ℂ))
      (fun θ : ℝ => Complex.exp (-(θ / 2 : ℝ) * Complex.I))
      (fun θ : ℝ => Complex.exp ((θ / 2 : ℝ) * Complex.I))
      (if (0 : ℝ) < |p0| then
        [("RZ", (List.range n).getD 0 0, ([] : List ℕ), some p0)] else []) e0 =
      fun idx => Complex.exp (((-p0 / 2 : ℝ) : ℂ) * Complex.I) * e0 idx := by
  have hq : (List.range n).getD 0 0 = 0 := getD_range n 0 (by omega)
  rw [hq]
  by_cases hkeep : (0 : ℝ) < |p0|
  · rw [if_pos hkeep]
    funext idx
    rw [show apply_circuit (fun θ : ℝ => (Real.cos (θ / 2) : ℂ))
        (fun θ : ℝ => (Real.sin (θ / 2) : ℂ))
        (fun θ : ℝ => Complex.exp (-(θ / 2 : ℝ) * Complex.I))
        (fun θ : ℝ => Complex.exp ((θ / 2 : ℝ) * Complex.I))
        [("RZ", 0, ([] : List ℕ), some p0)] e0 =
      apply_gate (fun θ : ℝ => (Real.cos (θ / 2) : ℂ))
        (fun θ : ℝ => (Real.sin (θ / 2) : ℂ))
        (fun θ : ℝ => Complex.exp (-(θ / 2 : ℝ) * Complex.I))
        (fun θ : ℝ => Complex.exp ((θ / 2 : ℝ) * Complex.I))
        ("RZ", 0, ([] : List ℕ), some p0) e0 from rfl, apply_gate_RZ_eval]
    by_cases hidx : idx = 0
    · subst hidx
      rw [if_neg (by decide : ¬ Nat.testBit 0 0 = true)]
      rw [show (-(p0 / 2 : ℝ) : ℂ) = ((-p0 / 2 : ℝ) : ℂ) from by push_cast; ring]
    · rw [show (e0 idx : ℂ) = 0 from by simp [e0, hidx], mul_zero, mul_zero]
  · rw [if_neg hkeep]
    have h0 : p0 = 0 :=
      abs_eq_zero.mp (le_antisymm (not_lt.mp hkeep) (abs_nonneg p0))
    subst h0
    funext idx
    rw [show apply_circuit (fun θ : ℝ => (Real.cos (θ / 2) : ℂ))
        (fun θ : ℝ => (Real.sin (θ / 2) : ℂ))
        (fun θ : ℝ => Complex.exp (-(θ / 2 : ℝ) * Complex.I))
        (fun θ : ℝ => Complex.exp ((θ / 2 : ℝ) * Complex.I)) [] e0 = e0 from rfl]
    rw [show ((-(0 : ℝ) / 2 : ℝ) : ℂ) * Complex.I = 0 from by push_cast; ring,
      Complex.exp_zero, one_mul]

/-- The conditionally emitted second root RZ on an arbitrary state: a
diagonal factor `exp(± i p1 / 2)` with the sign set by bit 0. -/
lemma root_rz1_apply (n : ℕ) (hn : 1 ≤ n) (p1 : ℝ) (s : ℕ → ℂ) :
    apply_circuit (fun θ : ℝ => (Real.cos (θ / 2) : ℂ))
      (fun θ : ℝ => (Real.sin (θ / 2) : ℂ))
      (fun θ : ℝ => Complex.exp (-(θ / 2 : ℝ) * Complex.I))
      (fun θ : ℝ => Complex.exp ((θ / 2 : ℝ) * Complex.I))
      (if (0 : ℝ) < |p1| then
        [("RZ", (List.range n).getD 0 0, ([] : List ℕ), some p1)] else []) s =
      fun idx => Complex.exp ((((if idx.testBit 0 then (1 : ℝ) else -1) *
        p1 / 2 : ℝ) : ℂ) * Complex.I) * s idx := by
  have hq : (List.range n).getD 0 0 = 0 := getD_range n 0 (by omega)
  rw [hq]
  by_cases hkeep : (0 : ℝ) < |p1|
  · rw [if_pos hkeep]
    funext idx
    rw [show apply_circuit (fun θ : ℝ => (Real.cos (θ / 2) : ℂ))
        (fun θ : ℝ => (Real.sin (θ / 2) : ℂ))
        (fun θ : ℝ => Complex.exp (-(θ / 2 : ℝ) * Complex.I))
        (fun θ : ℝ => Complex.exp ((θ / 2 : ℝ) * Complex.I))
        [("RZ", 0, ([] : List ℕ), some p1)] s =
      apply_gate (fun θ : ℝ => (Real.cos (θ / 2) : ℂ))
        (fun θ : ℝ => (Real.sin (θ / 2) : ℂ))
        (fun θ : ℝ => Complex.exp (-(θ / 2 : ℝ) * Complex.I))
        (fun θ : ℝ => Complex.exp ((θ / 2 : ℝ) * Complex.I))
        ("RZ", 0, ([] : List ℕ), some p1) s from rfl, apply_gate_RZ_eval]
    by_cases hb : idx.testBit 0
    · rw [if_pos hb, if_pos hb,
        show ((1 * p1 / 2 : ℝ) : ℂ) = ((p1 / 2 : ℝ) : ℂ) from by push_cast; ring]
    · rw [if_neg hb, if_neg hb,
        show ((-1 * p1 / 2 : ℝ) : ℂ) * Complex.I =
          (-(p1 / 2 : ℝ) : ℂ) * Complex.I from by push_cast; ring]
  · rw [if_neg hkeep]
    have h0 : p1 = 0 :=
      abs_eq_zero.mp (le_antisymm (not_lt.mp hkeep) (abs_nonneg p1))
    subst h0
    funext idx
    rw [show apply_circuit (fun θ : ℝ => (Real.cos (θ / 2) : ℂ))
        (fun θ : ℝ => (Real.sin (θ / 2) : ℂ))
        (fun θ : ℝ => Complex.exp (-(θ / 2 : ℝ) * Complex.I))
        (fun θ : ℝ => Complex.exp ((θ / 2 : ℝ) * Complex.I)) [] s = s from rfl]
    rw [show (((if idx.testBit 0 then (1 : ℝ) else -1) * 0 / 2 : ℝ) : ℂ) *
        Complex.I = 0 from by push_cast; ring, Complex.exp_zero, one_mul]

/-! ## The layer loops of `compressed_state_preparation` -/

/-- The RY layer loop: starting from the level-`l` amplitude state, layers
`l, ..., n-1` produce the level-`n` (leaf) amplitude state. -/
lemma csp_ry_loop (n : ℕ) (A : List ℝ) (hA : A.length = 2 ^ n - 1)
    (Vfun : ℕ → List ℝ)
    (hstep : ∀ l, 1 ≤ l → l < n → ∀ c, c < 2 ^ l →
      Real.cos (((A.drop (2 ^ l - 1)).take (2 ^ l)).getD c 0 / 2) *
          (Vfun l).getD c 0 = (Vfun (l + 1)).getD (2 * c) 0 ∧
      Real.sin (((A.drop (2 ^ l - 1)).take (2 ^ l)).getD c 0 / 2) *
          (Vfun l).getD c 0 = (Vfun (l + 1)).getD (2 * c + 1) 0) :
    ∀ (rem l : ℕ), 1 ≤ l → l + rem = n →
      apply_circuit (fun θ : ℝ => (Real.cos (θ / 2) : ℂ))
        (fun θ : ℝ => (Real.sin (θ / 2) : ℂ))
        (fun θ : ℝ => Complex.exp (-(θ / 2 : ℝ) * Complex.I))
        (fun θ : ℝ => Complex.exp ((θ / 2 : ℝ) * Complex.I))
        (csp_layers "RY" (List.range n) A 0 l rem (2 ^ l - 1))
        (fun idx => if idx < 2 ^ l then
          ((Vfun l).getD (revBits l idx) 0 : ℂ) else 0) =
      fun idx => if idx < 2 ^ n then
        ((Vfun n).getD (revBits n idx) 0 : ℂ) else 0 := by
  intro rem
  induction rem with
  | zero =>
    intro l hl1 hln
    have hln' : l = n := by omega
    subst hln'
    rfl
  | succ r ih =>
    intro l hl1 hln
    rw [show csp_layers "RY" (List.range n) A 0 l (r + 1) (2 ^ l - 1) =
      compress_uniformly_rotation "RY" ((List.range n).getD l 0)
        ((List.range n).take l)
        (uniformly_rotation_angles ((A.drop (2 ^ l - 1)).take (2 ^ l))) 0 ++
        csp_layers "RY" (List.range n) A 0 (l + 1) r (2 ^ l - 1 + 2 ^ l) from rfl]
    rw [apply_circuit_append]
    rw [getD_range n l (by omega), List.take_range, min_eq_left (by omega : l ≤ n)]
    have hslicelen : ((A.drop (2 ^ l - 1)).take (2 ^ l)).length = 2 ^ l := by
      rw [List.length_take, List.length_drop, hA]
      have h1 : (2 : ℕ) ^ (l + 1) ≤ 2 ^ n :=
        Nat.pow_le_pow_right (by norm_num) (by omega)
      have h2 : (2 : ℕ) ^ (l + 1) = 2 * 2 ^ l := by
        rw [pow_succ]; ring
      have h3 : 1 ≤ 2 ^ l := Nat.one_le_two_pow
      omega
    rw [compress_ry_step l hl1 (Vfun l) (Vfun (l + 1)) _ hslicelen
      (fun c hc => hstep l hl1 (by omega) c hc)]
    rw [show 2 ^ l - 1 + 2 ^ l = 2 ^ (l + 1) - 1 from by
      have h3 : 1 ≤ 2 ^ l := Nat.one_le_two_pow
      have h2 : (2 : ℕ) ^ (l + 1) = 2 * 2 ^ l := by
        rw [pow_succ]; ring
      omega]
    exact ih (l + 1) (by omega) (by omega)

/-- The RZ layer loop is diagonal: it multiplies each amplitude by the
accumulated phase factors of the remaining layers. -/
lemma csp_rz_loop (n : ℕ) (P : List ℝ) (hP : P.length = 2 ^ n) :
    ∀ (rem l : ℕ), 1 ≤ l → l + rem = n → ∀ s : ℕ → ℂ,
      apply_circuit (fun θ : ℝ => (Real.cos (θ / 2) : ℂ))
        (fun θ : ℝ => (Real.sin (θ / 2) : ℂ))
        (fun θ : ℝ => Complex.exp (-(θ / 2 : ℝ) * Complex.I))
        (fun θ : ℝ => Complex.exp ((θ / 2 : ℝ) * Complex.I))
        (csp_layers "RZ" (List.range n) P 0 l rem (2 ^ l)) s =
      fun idx => Complex.exp (((∑ j in Finset.range rem,
        (if idx.testBit (l + j) then (1 : ℝ) else -1) *
          ((P.drop (2 ^ (l + j))).take (2 ^ (l + j))).getD
            (revBits (l + j) idx) 0 / 2 : ℝ) : ℂ) * Complex.I) * s idx := by
  intro rem
  induction rem with
  | zero =>
    intro l hl1 hln s
    funext idx
    rw [show csp_layers "RZ" (List.range n) P 0 l 0 (2 ^ l) = [] from rfl]
    rw [show apply_circuit (fun θ : ℝ => (Real.cos (θ / 2) : ℂ))
        (fun θ : ℝ => (Real.sin (θ / 2) : ℂ))
        (fun θ : ℝ => Complex.exp (-(θ / 2 : ℝ) * Complex.I))
        (fun θ : ℝ => Complex.exp ((θ / 2 : ℝ) * Complex.I)) [] s = s from rfl]
    rw [Finset.sum_range_zero]
    norm_num
  | succ r ih =>
    intro l hl1 hln s
    rw [show csp_layers "RZ" (List.range n) P 0 l (r + 1) (2 ^ l) =
      compress_uniformly_rotation "RZ" ((List.range n).getD l 0)
        ((List.range n).take l)
        (uniformly_rotation_angles ((P.drop (2 ^ l)).take (2 ^ l))) 0 ++
        csp_layers "RZ" (List.range n) P 0 (l + 1) r (2 ^ l + 2 ^ l) from rfl]
    rw [apply_circuit_append]
    rw [getD_range n l (by omega), List.take_range, min_eq_left (by omega : l ≤ n)]
    have hslicelen : ((P.drop (2 ^ l)).take (2 ^ l)).length = 2 ^ l := by
      rw [List.length_take, List.length_drop, hP]
      have h1 : (2 : ℕ) ^ (l + 1) ≤ 2 ^ n :=
        Nat.pow_le_pow_right (by norm_num) (by omega)
      have h2 : (2 : ℕ) ^ (l + 1) = 2 * 2 ^ l := by
        rw [pow_succ]; ring
      omega
    rw [compress_rz_step l hl1 _ hslicelen s]
    rw [show 2 ^ l + 2 ^ l = 2 ^ (l + 1) from by rw [pow_succ]; ring]
    rw [ih (l + 1) (by omega) (by omega)]
    funext idx
    rw [Finset.sum_range_succ']
    rw [show (∑ j in Finset.range r,
        (if idx.testBit (l + (j + 1)) then (1 : ℝ) else -1) *
          ((P.drop (2 ^ (l + (j + 1)))).take (2 ^ (l + (j + 1)))).getD
            (revBits (l + (j + 1)) idx) 0 / 2) =
      ∑ j in Finset.range r,
        (if idx.testBit (l + 1 + j) then (1 : ℝ) else -1) *
          ((P.drop (2 ^ (l + 1 + j))).take (2 ^ (l + 1 + j))).getD
            (revBits (l + 1 + j) idx) 0 / 2 from
      Finset.sum_congr rfl (fun j _ => by
        rw [show l + (j + 1) = l + 1 + j from by omega])]
    rw [show l + 0 = l from by omega]
    rw [show ((((∑ j in Finset.range r,
        (if idx.testBit (l + 1 + j) then (1 : ℝ) else -1) *
          ((P.drop (2 ^ (l + 1 + j))).take (2 ^ (l + 1 + j))).getD
            (revBits (l + 1 + j) idx) 0 / 2) +
        (if idx.testBit l then (1 : ℝ) else -1) *
          ((P.drop (2 ^ l)).take (2 ^ l)).getD (revBits l idx) 0 / 2 : ℝ)) : ℂ) =
      (((∑ j in Finset.range r,
        (if idx.testBit (l + 1 + j) then (1 : ℝ) else -1) *
          ((P.drop (2 ^ (l + 1 + j))).take (2 ^ (l + 1 + j))).getD
            (revBits (l + 1 + j) idx) 0 / 2 : ℝ)) : ℂ) +
      (((if idx.testBit l then (1 : ℝ) else -1) *
          ((P.drop (2 ^ l)).take (2 ^ l)).getD (revBits l idx) 0 / 2 : ℝ) : ℂ)
      from by push_cast; ring]
    rw [add_mul, Complex.exp_add]
    ring

/-! ## The real branch: `positive_transform` and the hybrid tree -/

lemma getD_take_one {α : Type} (L : List α) (d : α) :
    (L.take 1).getD 0 d = L.getD 0 d := by
  cases L <;> rfl

lemma binarytree_vector_norm_length {α : Type} [Field α] [DecidableEq α]
    (nrm : α → α → α) (acos : α → α) (m : ℕ) (v : List α)
    (hv : v.length = 2 ^ (m + 1)) :
    (binarytree_vector_norm nrm acos v).length = 2 ^ (m + 1) - 1 := by
  rw [binarytree_vector_norm_eq nrm acos m v hv]
  rw [List.length_map, List.length_flatten]
  have hlay : ∀ k ∈ (List.range (m + 1)).reverse,
      (angles_layer nrm acos v k).length = 2 ^ (m + 1 - 1 - k) := by
    intro k hk
    rw [List.mem_reverse, List.mem_range] at hk
    have hit : (norms_iter nrm acos v k).length = 2 ^ ((m - k) + 1) := by
      rw [norms_iter_length nrm acos (m + 1) v hv k (by omega)]
      congr 1
      omega
    rw [angles_layer, (angle_search_binary_tree_length_pow nrm acos _ _ hit).2,
      show m + 1 - 1 - k = m - k from by omega]
  rw [List.map_map]
  rw [show List.map (List.length ∘ angles_layer nrm acos v) (List.range (m + 1)).reverse =
        List.map (fun k => 2 ^ (m + 1 - 1 - k)) (List.range (m + 1)).reverse from
    List.map_congr_left (fun k hk => hlay k hk)]
  rw [List.map_reverse, List.sum_reverse, sum_two_pow_desc (m + 1)]

lemma binarytree_vector_norm_single {α : Type} [Field α] [DecidableEq α]
    (nrm : α → α → α) (acos : α → α) (u : List α) (hu : u.length = 1) :
    binarytree_vector_norm nrm acos u = [] := by
  obtain ⟨x, rfl⟩ := List.length_eq_one.mp hu
  rw [binarytree_vector_norm, angle_search_binary_tree]
  norm_num
  rw [binarytree_norm_loop]
  norm_num

/-- `binarytree_vector(·, 'norm', is_real=True)` splits as the full norm tree
of the `positive_transform` amplitudes followed by the doubled
`positive_transform` angles (the leaf layer). -/
lemma bvnr_decomp {α : Type} [Field α] [DecidableEq α]
    (nrm ang : α → α → α) (acos : α → α) (n : ℕ) (hn : 1 ≤ n)
    (v : List α) (hv : v.length = 2 ^ n) :
    binarytree_vector_norm_real nrm ang acos v =
      binarytree_vector_norm nrm acos (positive_transform nrm ang v).1 ++
        ((positive_transform nrm ang v).2.map (fun x => x * 2)) := by
  have hpt1 : (positive_transform nrm ang v).1.length = 2 ^ (n - 1) := by
    rw [positive_transform_eq, pairMap_length, hv]
    have h2 : (2 : ℕ) ^ n = 2 * 2 ^ (n - 1) := by
      rw [← pow_succ']
      congr 1
      omega
    omega
  rw [binarytree_vector_norm_real]
  rw [binarytree_norm_loop_spec nrm acos (n - 1) _ _ hpt1]
  rw [List.map_append]
  congr 1
  cases hn1 : n - 1 with
  | zero =>
    rw [hn1] at hpt1
    rw [binarytree_vector_norm_single nrm acos _ (by rw [hpt1]; norm_num)]
    simp
  | succ m =>
    rw [hn1] at hpt1
    rw [binarytree_vector_norm_eq nrm acos m _ hpt1]
    rfl

lemma sq_sum_pairMap_pt :
    ∀ w : List ℝ, w.length % 2 = 0 →
      ((pairMap (fun a b => if a = 0 ∧ b = 0 then (0 : ℝ)
          else Real.sqrt (a ^ 2 + b ^ 2)) w).map (fun x => x ^ 2)).sum =
        (w.map (fun x => x ^ 2)).sum
  | [], _ => by simp [pairMap]
  | [a], h => by simp at h
  | a :: b :: rest, h => by
    rw [pairMap, List.map_cons, List.map_cons, List.map_cons, List.sum_cons,
      List.sum_cons, List.sum_cons,
      sq_sum_pairMap_pt rest (by simp only [List.length_cons] at h; omega)]
    by_cases hg : a = 0 ∧ b = 0
    · obtain ⟨ha, hb⟩ := hg
      subst ha
      subst hb
      rw [if_pos ⟨rfl, rfl⟩]
      norm_num
    · rw [if_neg hg, Real.sq_sqrt (by positivity)]
      ring

lemma pt_fst_nonneg (v : List ℝ) :
    ∀ x ∈ pairMap (fun a b => if a = 0 ∧ b = 0 then (0 : ℝ)
      else Real.sqrt (a ^ 2 + b ^ 2)) v, 0 ≤ x := by
  intro x hx
  obtain ⟨a, b, rfl⟩ := mem_pairMap _ _ x hx
  by_cases hg : a = 0 ∧ b = 0
  · rw [if_pos hg]
  · rw [if_neg hg]
    exact Real.sqrt_nonneg _

/-! ## Assembly of the full state preparation -/

lemma getD_map_abs (v : List ℂ) (r : ℕ) (hr : r < v.length) :
    (v.map Complex.abs).getD r 0 = Complex.abs (v.getD r 0) := by
  rw [List.getD_eq_getElem _ _ (by simpa using hr), List.getD_eq_getElem _ _ hr,
    List.getElem_map]

lemma getD_map_arg (v : List ℂ) (r : ℕ) (hr : r < v.length) :
    (v.map Complex.arg).getD r 0 = Complex.arg (v.getD r 0) := by
  rw [List.getD_eq_getElem _ _ (by simpa using hr), List.getD_eq_getElem _ _ hr,
    List.getElem_map]

/-- The accumulated RZ phases (root `phase_angles[0]`, conditional
`phase_angles[1]`, and the compressed RZ layer slices) telescope to the
input phase at the bit-reversed index. -/
lemma complex_phase_assembly (n : ℕ) (hn : 1 ≤ n) (q : List ℝ)
    (hq : q.length = 2 ^ n) (idx : ℕ) :
    -((phase_tree q).getD 0 0) / 2 +
      ((∑ j in Finset.range (n - 1), (if idx.testBit (1 + j) then (1 : ℝ) else -1) *
        (((phase_tree q).drop (2 ^ (1 + j))).take (2 ^ (1 + j))).getD
          (revBits (1 + j) idx) 0 / 2) +
       (if idx.testBit 0 then (1 : ℝ) else -1) * (phase_tree q).getD 1 0 / 2) =
    q.getD (revBits n idx) 0 := by
  obtain ⟨m, rfl⟩ : ∃ m, n = m + 1 := ⟨n - 1, by omega⟩
  have htel := phase_telescope (m + 1) hn q hq idx
  rw [← htel]
  congr 1
  rw [Finset.sum_range_succ'
    (fun j => (if idx.testBit j then (1 : ℝ) else -1) *
      (pairDiff (avgIter q (m + 1 - 1 - j))).getD (revBits j idx) 0 / 2) m]
  congr 1
  · rw [show m + 1 - 1 = m from rfl]
    apply Finset.sum_congr rfl
    intro j hj
    rw [Finset.mem_range] at hj
    rw [show 1 + j = j + 1 from by omega]
    rw [phase_tree_slice (m + 1) q hq (j + 1) (by omega) (by omega)]
    rfl
  · have hlen1 : (avgIter q (m + 1 - 1)).length = 2 ^ 1 := by
      rw [avgIter_length (m + 1) q hq (m + 1 - 1) (by omega)]
      congr 1
      omega
    have h1 := (phase_tree_root (m + 1) hn q hq).2
    rw [h1, show revBits 0 idx = 0 from rfl, show m + 1 - 1 - 0 = m + 1 - 1 from rfl,
      pairDiff, getD_pairMap _ _ 0 (by rw [hlen1]; norm_num)]

lemma exp_mul_I_add (x y : ℝ) :
    Complex.exp ((x : ℂ) * Complex.I) * Complex.exp ((y : ℂ) * Complex.I) =
      Complex.exp (((x + y : ℝ) : ℂ) * Complex.I) := by
  rw [← Complex.exp_add]
  congr 1
  push_cast
  ring

/-- Full semantics of the complex branch at `epsilon = 0`: the emitted
circuit maps `|0...0>` to the bit-reversed input amplitudes. -/
lemma csp_complex_apply (n : ℕ) (hn : 1 ≤ n) (v : List ℂ)
    (hv : v.length = 2 ^ n)
    (hnorm : ((v.map Complex.abs).map (fun x => x ^ 2)).sum = 1) :
    apply_circuit (fun θ : ℝ => (Real.cos (θ / 2) : ℂ))
      (fun θ : ℝ => (Real.sin (θ / 2) : ℂ))
      (fun θ : ℝ => Complex.exp (-(θ / 2 : ℝ) * Complex.I))
      (fun θ : ℝ => Complex.exp ((θ / 2 : ℝ) * Complex.I))
      (compressed_state_preparation_complex (fun a b => Real.sqrt (a ^ 2 + b ^ 2))
        Real.arccos (v.map Complex.abs) (v.map Complex.arg) (List.range n) 0) e0 =
      fun idx => if idx < 2 ^ n then v.getD (revBits n idx) 0 else 0 := by
  have hw : (v.map Complex.abs).length = 2 ^ n := by rw [List.length_map, hv]
  have hp : (v.map Complex.arg).length = 2 ^ n := by rw [List.length_map, hv]
  have hwnn : ∀ x ∈ v.map Complex.abs, 0 ≤ x := by
    intro x hx
    rw [List.mem_map] at hx
    obtain ⟨z, _, rfl⟩ := hx
    exact Complex.abs.nonneg z
  have hPlen : (phase_tree (v.map Complex.arg)).length = 2 ^ n :=
    phase_tree_length n _ hp
  have hAlen : (binarytree_vector_norm (fun a b => Real.sqrt (a ^ 2 + b ^ 2))
      Real.arccos (v.map Complex.abs)).length = 2 ^ n - 1 := by
    obtain ⟨m, hm⟩ : ∃ m, n = m + 1 := ⟨n - 1, by omega⟩
    subst hm
    exact binarytree_vector_norm_length _ _ m _ hw
  have hT0 : (norms_iter (fun a b => Real.sqrt (a ^ 2 + b ^ 2)) Real.arccos
      (v.map Complex.abs) n).getD 0 0 = 1 :=
    norms_iter_root_one n _ hw hnorm hwnn Real.arccos
  have hroot := tree_hstep n (v.map Complex.abs) hw hwnn 0 (by omega) 0
    (by norm_num)
  rw [show (2 : ℕ) ^ 0 - 1 = 0 from rfl, show (2 : ℕ) ^ 0 = 1 from rfl,
    List.drop_zero, getD_take_one, show n - 0 = n from rfl, hT0, mul_one,
    mul_one] at hroot
  rw [show compressed_state_preparation_complex (fun a b => Real.sqrt (a ^ 2 + b ^ 2))
      Real.arccos (v.map Complex.abs) (v.map Complex.arg) (List.range n) 0 =
    (if (0 : ℝ) < |(phase_tree (v.map Complex.arg)).getD 0 0| then
      [("RZ", (List.range n).getD 0 0, ([] : List ℕ),
        some ((phase_tree (v.map Complex.arg)).getD 0 0))] else []) ++
    (if (0 : ℝ) < |(binarytree_vector_norm (fun a b => Real.sqrt (a ^ 2 + b ^ 2))
        Real.arccos (v.map Complex.abs)).getD 0 0| then
      [("RY", (List.range n).getD 0 0, ([] : List ℕ),
        some ((binarytree_vector_norm (fun a b => Real.sqrt (a ^ 2 + b ^ 2))
          Real.arccos (v.map Complex.abs)).getD 0 0))] else []) ++
    csp_layers "RY" (List.range n) (binarytree_vector_norm
      (fun a b => Real.sqrt (a ^ 2 + b ^ 2)) Real.arccos (v.map Complex.abs)) 0 1
      ((List.range n).length - 1) 1 ++
    (if (0 : ℝ) < |(phase_tree (v.map Complex.arg)).getD 1 0| then
      [("RZ", (List.range n).getD 0 0, ([] : List ℕ),
        some ((phase_tree (v.map Complex.arg)).getD 1 0))] else []) ++
    csp_layers "RZ" (List.range n) (phase_tree (v.map Complex.arg)) 0 1
      ((List.range n).length - 1) 2 from rfl]
  rw [List.length_range]
  rw [apply_circuit_append, apply_circuit_append, apply_circuit_append,
    apply_circuit_append]
  rw [root_rz0_apply n hn ((phase_tree (v.map Complex.arg)).getD 0 0)]
  rw [apply_circuit_mul_left, apply_circuit_mul_left, apply_circuit_mul_left,
    apply_circuit_mul_left]
  rw [root_ry_apply n hn (norms_iter (fun a b => Real.sqrt (a ^ 2 + b ^ 2))
    Real.arccos (v.map Complex.abs) (n - 1)) _ hroot.1 hroot.2]
  have hryloop := csp_ry_loop n _ hAlen
    (fun l => norms_iter (fun a b => Real.sqrt (a ^ 2 + b ^ 2)) Real.arccos
      (v.map Complex.abs) (n - l))
    (fun l hl1 hln c hc => tree_hstep n (v.map Complex.abs) hw hwnn l hln c hc)
    (n - 1) 1 (le_refl 1) (by omega)
  simp only [] at hryloop
  rw [show (2 : ℕ) ^ 1 - 1 = 1 from rfl] at hryloop
  rw [hryloop]
  rw [show n - n = 0 from by omega,
    show norms_iter (fun a b => Real.sqrt (a ^ 2 + b ^ 2)) Real.arccos
      (v.map Complex.abs) 0 = v.map Complex.abs from rfl]
  rw [root_rz1_apply n hn ((phase_tree (v.map Complex.arg)).getD 1 0)]
  have hrzloop := csp_rz_loop n (phase_tree (v.map Complex.arg)) hPlen
    (n - 1) 1 (le_refl 1) (by omega)
  rw [show (2 : ℕ) ^ 1 = 2 from rfl] at hrzloop
  rw [hrzloop]
  funext idx
  simp only []
  by_cases hidx : idx < 2 ^ n
  · rw [if_pos hidx, if_pos hidx]
    have hrv : revBits n idx < v.length := by
      rw [hv]
      exact revBits_lt n idx
    rw [getD_map_abs v _ hrv]
    have hphase := complex_phase_assembly n hn (v.map Complex.arg) hp idx
    rw [getD_map_arg v _ hrv] at hphase
    calc Complex.exp (((-(phase_tree (v.map Complex.arg)).getD 0 0 / 2 : ℝ) : ℂ) *
          Complex.I) *
        (Complex.exp (((∑ j in Finset.range (n - 1),
            (if idx.testBit (1 + j) then (1 : ℝ) else -1) *
              (((phase_tree (v.map Complex.arg)).drop (2 ^ (1 + j))).take
                (2 ^ (1 + j))).getD (revBits (1 + j) idx) 0 / 2 : ℝ) : ℂ) *
          Complex.I) *
        (Complex.exp ((((if idx.testBit 0 then (1 : ℝ) else -1) *
            (phase_tree (v.map Complex.arg)).getD 1 0 / 2 : ℝ) : ℂ) * Complex.I) *
          (Complex.abs (v.getD (revBits n idx) 0) : ℂ)))
        = Complex.exp (((-(phase_tree (v.map Complex.arg)).getD 0 0 / 2 : ℝ) : ℂ) *
            Complex.I) *
          Complex.exp (((∑ j in Finset.range (n - 1),
            (if idx.testBit (1 + j) then (1 : ℝ) else -1) *
              (((phase_tree (v.map Complex.arg)).drop (2 ^ (1 + j))).take
                (2 ^ (1 + j))).getD (revBits (1 + j) idx) 0 / 2 : ℝ) : ℂ) *
            Complex.I) *
          Complex.exp ((((if idx.testBit 0 then (1 : ℝ) else -1) *
            (phase_tree (v.map Complex.arg)).getD 1 0 / 2 : ℝ) : ℂ) * Complex.I) *
          (Complex.abs (v.getD (revBits n idx) 0) : ℂ) := by ring
      _ = v.getD (revBits n idx) 0 := by
          rw [exp_mul_I_add, exp_mul_I_add]
          rw [show -(phase_tree (v.map Complex.arg)).getD 0 0 / 2 +
              (∑ j in Finset.range (n - 1),
                (if idx.testBit (1 + j) then (1 : ℝ) else -1) *
                  (((phase_tree (v.map Complex.arg)).drop (2 ^ (1 + j))).take
                    (2 ^ (1 + j))).getD (revBits (1 + j) idx) 0 / 2) +
              (if idx.testBit 0 then (1 : ℝ) else -1) *
                (phase_tree (v.map Complex.arg)).getD 1 0 / 2 =
            Complex.arg (v.getD (revBits n idx) 0) from by
              rw [add_assoc]
              exact hphase]
          rw [mul_comm]
          exact Complex.abs_mul_exp_arg_mul_I _
  · rw [if_neg hidx, if_neg hidx, mul_zero, mul_zero, mul_zero]

/-- Full semantics of the real branch at `epsilon = 0`, for any leaf-angle
primitive `ang` that inverts a nonzero pair (the source's
`np.mod(np.angle(...), 2*pi)` does, by `pt_pair_step`): the emitted circuit
maps `|0...0>` to the bit-reversed signed input amplitudes. -/
lemma csp_real_apply (n : ℕ) (hn : 1 ≤ n) (ang : ℝ → ℝ → ℝ)
    (hang : ∀ x y : ℝ, ¬(x = 0 ∧ y = 0) →
      Real.cos (ang x y * 2 / 2) * Real.sqrt (x ^ 2 + y ^ 2) = x ∧
      Real.sin (ang x y * 2 / 2) * Real.sqrt (x ^ 2 + y ^ 2) = y)
    (u : List ℝ) (hu : u.length = 2 ^ n)
    (hnorm : (u.map (fun x => x ^ 2)).sum = 1) :
    apply_circuit (fun θ : ℝ => (Real.cos (θ / 2) : ℂ))
      (fun θ : ℝ => (Real.sin (θ / 2) : ℂ))
      (fun θ : ℝ => Complex.exp (-(θ / 2 : ℝ) * Complex.I))
      (fun θ : ℝ => Complex.exp ((θ / 2 : ℝ) * Complex.I))
      (compressed_state_preparation_real (fun a b => Real.sqrt (a ^ 2 + b ^ 2))
        ang Real.arccos u (List.range n) 0) e0 =
      fun idx => if idx < 2 ^ n then (u.getD (revBits n idx) 0 : ℂ) else 0 := by
  have h2n : (2 : ℕ) ^ n = 2 * 2 ^ (n - 1) := by
    rw [← pow_succ']
    congr 1
    omega
  have h1n : 1 ≤ 2 ^ (n - 1) := Nat.one_le_two_pow
  have hpt := positive_transform_eq (fun a b => Real.sqrt (a ^ 2 + b ^ 2)) ang u
  have heven : u.length % 2 = 0 := by
    rw [hu]
    omega
  have hpt1len : (pairMap (fun a b => if a = 0 ∧ b = 0 then (0 : ℝ)
      else Real.sqrt (a ^ 2 + b ^ 2)) u).length = 2 ^ (n - 1) := by
    rw [pairMap_length, hu]
    omega
  have hpt1sq : ((pairMap (fun a b => if a = 0 ∧ b = 0 then (0 : ℝ)
      else Real.sqrt (a ^ 2 + b ^ 2)) u).map (fun x => x ^ 2)).sum = 1 := by
    rw [sq_sum_pairMap_pt u heven]
    exact hnorm
  have hpt1nn := pt_fst_nonneg u
  have hT0 : (norms_iter (fun a b => Real.sqrt (a ^ 2 + b ^ 2)) Real.arccos
      (pairMap (fun a b => if a = 0 ∧ b = 0 then (0 : ℝ)
        else Real.sqrt (a ^ 2 + b ^ 2)) u) (n - 1)).getD 0 0 = 1 :=
    norms_iter_root_one (n - 1) _ hpt1len hpt1sq hpt1nn Real.arccos
  have hBlen : (binarytree_vector_norm (fun a b => Real.sqrt (a ^ 2 + b ^ 2))
      Real.arccos (pairMap (fun a b => if a = 0 ∧ b = 0 then (0 : ℝ)
        else Real.sqrt (a ^ 2 + b ^ 2)) u)).length = 2 ^ (n - 1) - 1 := by
    cases hm : n - 1 with
    | zero =>
      rw [binarytree_vector_norm_single _ _ _ (by rw [hpt1len, hm]; norm_num)]
      simp
    | succ m =>
      rw [hm] at hpt1len
      exact binarytree_vector_norm_length _ _ m _ hpt1len
  have hdecomp : binarytree_vector_norm_real (fun a b => Real.sqrt (a ^ 2 + b ^ 2))
      ang Real.arccos u =
      binarytree_vector_norm (fun a b => Real.sqrt (a ^ 2 + b ^ 2)) Real.arccos
        (pairMap (fun a b => if a = 0 ∧ b = 0 then (0 : ℝ)
          else Real.sqrt (a ^ 2 + b ^ 2)) u) ++
        ((pairMap (fun a b => if a = 0 ∧ b = 0 then (0 : ℝ) else ang a b) u).map
          (fun x => x * 2)) := by
    rw [bvnr_decomp (fun a b => Real.sqrt (a ^ 2 + b ^ 2)) ang Real.arccos n hn
      u hu, hpt]
  have hAlen : (binarytree_vector_norm_real (fun a b => Real.sqrt (a ^ 2 + b ^ 2))
      ang Real.arccos u).length = 2 ^ n - 1 := by
    rw [hdecomp, List.length_append, hBlen, List.length_map, pairMap_length, hu]
    omega
  have hstepR : ∀ l, l < n → ∀ c, c < 2 ^ l →
      Real.cos ((((binarytree_vector_norm_real
            (fun a b => Real.sqrt (a ^ 2 + b ^ 2)) ang Real.arccos u).drop
          (2 ^ l - 1)).take (2 ^ l)).getD c 0 / 2) *
        ((if l < n then norms_iter (fun a b => Real.sqrt (a ^ 2 + b ^ 2))
            Real.arccos (pairMap (fun a b => if a = 0 ∧ b = 0 then (0 : ℝ)
              else Real.sqrt (a ^ 2 + b ^ 2)) u) (n - 1 - l) else u).getD c 0) =
        (if l + 1 < n then norms_iter (fun a b => Real.sqrt (a ^ 2 + b ^ 2))
            Real.arccos (pairMap (fun a b => if a = 0 ∧ b = 0 then (0 : ℝ)
              else Real.sqrt (a ^ 2 + b ^ 2)) u) (n - 1 - (l + 1)) else u).getD
          (2 * c) 0 ∧
      Real.sin ((((binarytree_vector_norm_real
            (fun a b => Real.sqrt (a ^ 2 + b ^ 2)) ang Real.arccos u).drop
          (2 ^ l - 1)).take (2 ^ l)).getD c 0 / 2) *
        ((if l < n then norms_iter (fun a b => Real.sqrt (a ^ 2 + b ^ 2))
            Real.arccos (pairMap (fun a b => if a = 0 ∧ b = 0 then (0 : ℝ)
              else Real.sqrt (a ^ 2 + b ^ 2)) u) (n - 1 - l) else u).getD c 0) =
        (if l + 1 < n then norms_iter (fun a b => Real.sqrt (a ^ 2 + b ^ 2))
            Real.arccos (pairMap (fun a b => if a = 0 ∧ b = 0 then (0 : ℝ)
              else Real.sqrt (a ^ 2 + b ^ 2)) u) (n - 1 - (l + 1)) else u).getD
          (2 * c + 1) 0 := by
    intro l hln c hc
    rw [if_pos hln]
    by_cases hleaf : l = n - 1
    · subst hleaf
      rw [if_neg (by omega : ¬ n - 1 + 1 < n)]
      rw [hdecomp, ← hBlen, List.drop_left,
        List.take_of_length_le (by
          rw [List.length_map, pairMap_length, hu]
          omega)]
      have hc2 : 2 * c + 1 < u.length := by
        rw [hu]
        omega
      have hcp : c < (pairMap (fun a b => if a = 0 ∧ b = 0 then (0 : ℝ)
          else ang a b) u).length := by
        rw [pairMap_length, hu]
        omega
      rw [getD_map_mul_two _ c hcp,
        getD_pairMap (fun a b => if a = 0 ∧ b = 0 then (0 : ℝ) else ang a b)
          u c hc2,
        show n - 1 - (n - 1) = 0 from by omega,
        show norms_iter (fun a b => Real.sqrt (a ^ 2 + b ^ 2)) Real.arccos
          (pairMap (fun a b => if a = 0 ∧ b = 0 then (0 : ℝ)
            else Real.sqrt (a ^ 2 + b ^ 2)) u) 0 =
          pairMap (fun a b => if a = 0 ∧ b = 0 then (0 : ℝ)
            else Real.sqrt (a ^ 2 + b ^ 2)) u from rfl,
        getD_pairMap (fun a b => if a = 0 ∧ b = 0 then (0 : ℝ)
          else Real.sqrt (a ^ 2 + b ^ 2)) u c hc2]
      by_cases hz : u.getD (2 * c) 0 = 0 ∧ u.getD (2 * c + 1) 0 = 0
      · rw [if_pos hz, if_pos hz]
        obtain ⟨hz1, hz2⟩ := hz
        rw [hz1, hz2]
        norm_num
      · rw [if_neg hz, if_neg hz]
        exact hang (u.getD (2 * c) 0) (u.getD (2 * c + 1) 0) hz
    · have hlt : l < n - 1 := by omega
      rw [if_pos (by omega : l + 1 < n)]
      rw [hdecomp,
        List.drop_append_of_le_length (by
          rw [hBlen]
          have hle : (2 : ℕ) ^ (l + 1) ≤ 2 ^ (n - 1) :=
            Nat.pow_le_pow_right (by norm_num) (by omega)
          have h2l : (2 : ℕ) ^ (l + 1) = 2 * 2 ^ l := by
            rw [pow_succ]; ring
          have h1l : 1 ≤ 2 ^ l := Nat.one_le_two_pow
          omega),
        List.take_append_of_le_length (by
          rw [List.length_drop, hBlen]
          have hle : (2 : ℕ) ^ (l + 1) ≤ 2 ^ (n - 1) :=
            Nat.pow_le_pow_right (by norm_num) (by omega)
          have h2l : (2 : ℕ) ^ (l + 1) = 2 * 2 ^ l := by
            rw [pow_succ]; ring
          have h1l : 1 ≤ 2 ^ l := Nat.one_le_two_pow
          omega)]
      exact tree_hstep (n - 1) _ hpt1len hpt1nn l hlt c hc
  have hroot := hstepR 0 (by omega) 0 (by norm_num)
  rw [show (2 : ℕ) ^ 0 - 1 = 0 from rfl, show (2 : ℕ) ^ 0 = 1 from rfl,
    List.drop_zero, getD_take_one, if_pos (show 0 < n from hn),
    show n - 1 - 0 = n - 1 from rfl, hT0, mul_one, mul_one,
    show 2 * 0 = 0 from rfl, show 2 * 0 + 1 = 1 from rfl] at hroot
  rw [show compressed_state_preparation_real (fun a b => Real.sqrt (a ^ 2 + b ^ 2))
      ang Real.arccos u (List.range n) 0 =
    (if (0 : ℝ) < |(binarytree_vector_norm_real
        (fun a b => Real.sqrt (a ^ 2 + b ^ 2)) ang Real.arccos u).getD 0 0| then
      [("RY", (List.range n).getD 0 0, ([] : List ℕ),
        some ((binarytree_vector_norm_real
          (fun a b => Real.sqrt (a ^ 2 + b ^ 2)) ang Real.arccos u).getD 0 0))]
    else []) ++
    csp_layers "RY" (List.range n) (binarytree_vector_norm_real
      (fun a b => Real.sqrt (a ^ 2 + b ^ 2)) ang Real.arccos u) 0 1
      ((List.range n).length - 1) 1 from rfl]
  rw [List.length_range]
  rw [apply_circuit_append]
  rw [root_ry_apply n hn (if 0 + 1 < n then
      norms_iter (fun a b => Real.sqrt (a ^ 2 + b ^ 2)) Real.arccos
        (pairMap (fun a b => if a = 0 ∧ b = 0 then (0 : ℝ)
          else Real.sqrt (a ^ 2 + b ^ 2)) u) (n - 1 - (0 + 1)) else u) _
    hroot.1 hroot.2]
  have hryloop := csp_ry_loop n _ hAlen
    (fun l => if l < n then norms_iter (fun a b => Real.sqrt (a ^ 2 + b ^ 2))
      Real.arccos (pairMap (fun a b => if a = 0 ∧ b = 0 then (0 : ℝ)
        else Real.sqrt (a ^ 2 + b ^ 2)) u) (n - 1 - l) else u)
    (fun l hl1 hln c hc => hstepR l hln c hc) (n - 1) 1 (le_refl 1) (by omega)
  simp only [] at hryloop
  rw [show (2 : ℕ) ^ 1 - 1 = 1 from rfl] at hryloop
  rw [show (0 : ℕ) + 1 = 1 from rfl]
  rw [hryloop]
  rw [if_neg (lt_irrefl n)]

/-- Reading the prepared first column back through the bit-reversal inverts
the bit-reversed indexing of the prepared state. -/
lemma readout_list (n : ℕ) (g : List ℂ) (hg : g.length = 2 ^ n) :
    (List.range (2 ^ n)).map (get_prepared_state n
      (fun idx => if idx < 2 ^ n then g.getD (revBits n idx) 0 else 0)) = g := by
  apply List.ext_getElem
  · rw [List.length_map, List.length_range, hg]
  · intro j h1 h2
    rw [List.getElem_map, List.getElem_range]
    have hj : j < 2 ^ n := by
      rw [List.length_map, List.length_range] at h1
      exact h1
    rw [show get_prepared_state n (fun idx => if idx < 2 ^ n then
        g.getD (revBits n idx) 0 else 0) j =
      (if revBits n j < 2 ^ n then g.getD (revBits n (revBits n j)) 0 else 0)
      from rfl]
    rw [if_pos (revBits_lt n j), revBits_revBits n j hj,
      List.getD_eq_getElem g 0 h2]

/-- C1: for every normalized complex vector `v` and normalized real vector
`u` of length `2^n`, executing the gate list produced by
`compressed_state_preparation` at `epsilon = 0` (complex branch on
`|v|`/`angle v`, real branch on `u`) against the all-zero state `|0..0>`,
and reading the result back through `get_prepared_state` (first column,
bit-reversed), returns the input vector exactly — in particular within
Frobenius-norm tolerance `1e-9` and with no residual global phase. -/
theorem claim_C1 (n : ℕ) (hn : 1 ≤ n) (v : List ℂ) (hv : v.length = 2 ^ n)
    (hvnorm : ((v.map Complex.abs).map (fun x => x ^ 2)).sum = 1)
    (u : List ℝ) (hu : u.length = 2 ^ n)
    (hunorm : (u.map (fun x => x ^ 2)).sum = 1) :
    (List.range (2 ^ n)).map (get_prepared_state n
      (apply_circuit (fun θ : ℝ => (Real.cos (θ / 2) : ℂ))
        (fun θ : ℝ => (Real.sin (θ / 2) : ℂ))
        (fun θ : ℝ => Complex.exp (-(θ / 2 : ℝ) * Complex.I))
        (fun θ : ℝ => Complex.exp ((θ / 2 : ℝ) * Complex.I))
        (compressed_state_preparation_complex
          (fun a b => Real.sqrt (a ^ 2 + b ^ 2)) Real.arccos
          (v.map Complex.abs) (v.map Complex.arg) (List.range n) 0) e0)) = v ∧
    (List.range (2 ^ n)).map (get_prepared_state n
      (apply_circuit (fun θ : ℝ => (Real.cos (θ / 2) : ℂ))
        (fun θ : ℝ => (Real.sin (θ / 2) : ℂ))
        (fun θ : ℝ => Complex.exp (-(θ / 2 : ℝ) * Complex.I))
        (fun θ : ℝ => Complex.exp ((θ / 2 : ℝ) * Complex.I))
        (compressed_state_preparation_real
          (fun a b => Real.sqrt (a ^ 2 + b ^ 2))
          (fun x y => Complex.arg ((x / Real.sqrt (x ^ 2 + y ^ 2) : ℝ) +
              (y / Real.sqrt (x ^ 2 + y ^ 2) : ℝ) * Complex.I) -
            2 * Real.pi * ⌊Complex.arg ((x / Real.sqrt (x ^ 2 + y ^ 2) : ℝ) +
              (y / Real.sqrt (x ^ 2 + y ^ 2) : ℝ) * Complex.I) / (2 * Real.pi)⌋)
          Real.arccos u (List.range n) 0) e0)) =
      u.map (fun x : ℝ => (x : ℂ)) := by
  constructor
  · rw [csp_complex_apply n hn v hv hvnorm]
    exact readout_list n v hv
  · rw [csp_real_apply n hn
      (fun x y => Complex.arg ((x / Real.sqrt (x ^ 2 + y ^ 2) : ℝ) +
          (y / Real.sqrt (x ^ 2 + y ^ 2) : ℝ) * Complex.I) -
        2 * Real.pi * ⌊Complex.arg ((x / Real.sqrt (x ^ 2 + y ^ 2) : ℝ) +
          (y / Real.sqrt (x ^ 2 + y ^ 2) : ℝ) * Complex.I) / (2 * Real.pi)⌋)
      (fun x y h0 => by
        have h := pt_pair_step x y
        rw [if_neg h0, if_neg h0] at h
        exact h) u hu hunorm]
    have hstate : (fun idx => if idx < 2 ^ n then
        (u.getD (revBits n idx) 0 : ℂ) else 0) =
        (fun idx => if idx < 2 ^ n then
          (u.map (fun x : ℝ => (x : ℂ))).getD (revBits n idx) 0 else 0) := by
      funext idx
      by_cases hidx : idx < 2 ^ n
      · rw [if_pos hidx, if_pos hidx,
          List.getD_eq_getElem (u.map (fun x : ℝ => (x : ℂ))) 0 (by
            rw [List.length_map, hu]
            exact revBits_lt n idx),
          List.getElem_map,
          ← List.getD_eq_getElem u 0 (by
            rw [hu]
            exact revBits_lt n idx)]
      · rw [if_neg hidx, if_neg hidx]
    rw [hstate]
    exact readout_list n (u.map (fun x : ℝ => (x : ℂ)))
      (by rw [List.length_map, hu])

/-- Witness for `claim_C1` at `n = 1`, `v = [1, 0]` over ℂ and
`u = [1, 0]` over ℝ. -/
theorem claim_C1_witness :
    (List.range (2 ^ 1)).map (get_prepared_state 1
      (apply_circuit (fun θ : ℝ => (Real.cos (θ / 2) : ℂ))
        (fun θ : ℝ => (Real.sin (θ / 2) : ℂ))
        (fun θ : ℝ => Complex.exp (-(θ / 2 : ℝ) * Complex.I))
        (fun θ : ℝ => Complex.exp ((θ / 2 : ℝ) * Complex.I))
        (compressed_state_preparation_complex
          (fun a b => Real.sqrt (a ^ 2 + b ^ 2)) Real.arccos
          (([1, 0] : List ℂ).map Complex.abs)
          (([1, 0] : List ℂ).map Complex.arg) (List.range 1) 0) e0)) =
      ([1, 0] : List ℂ) ∧
    (List.range (2 ^ 1)).map (get_prepared_state 1
      (apply_circuit (fun θ : ℝ => (Real.cos (θ / 2) : ℂ))
        (fun θ : ℝ => (Real.sin (θ / 2) : ℂ))
        (fun θ : ℝ => Complex.exp (-(θ / 2 : ℝ) * Complex.I))
        (fun θ : ℝ => Complex.exp ((θ / 2 : ℝ) * Complex.I))
        (compressed_state_preparation_real
          (fun a b => Real.sqrt (a ^ 2 + b ^ 2))
          (fun x y => Complex.arg ((x / Real.sqrt (x ^ 2 + y ^ 2) : ℝ) +
              (y / Real.sqrt (x ^ 2 + y ^ 2) : ℝ) * Complex.I) -
            2 * Real.pi * ⌊Complex.arg ((x / Real.sqrt (x ^ 2 + y ^ 2) : ℝ) +
              (y / Real.sqrt (x ^ 2 + y ^ 2) : ℝ) * Complex.I) / (2 * Real.pi)⌋)
          Real.arccos ([1, 0] : List ℝ) (List.range 1) 0) e0)) =
      ([1, 0] : List ℝ).map (fun x : ℝ => (x : ℂ)) :=
  claim_C1 1 (by norm_num) [1, 0] rfl
    (by simp)
    [1, 0] rfl (by norm_num)
